import Mathlib

/-!
Verification of the radix-16 trie structure manager (`src/trie/trie_structure.rs`).

The Rust source is shallowly embedded: the slab arena becomes a list of
optional node records, nibbles become `Fin 16`, handles become plain
`(trie, node_index)` pairs, and every operation that can panic in Rust
(`unwrap`, out-of-range slice indexing, the potentially non-terminating
common-prefix loop) returns `Option`, with `none` standing for the panic
or divergence.
-/

namespace TrieVerify

/-- A nibble is a 4-bit value `0..16` (`src/trie/nibble.rs`, out of scope as a type;
modelled as `Fin 16`). -/
abbrev Nibble := Fin 16

/-- One node record of the trie (`struct Node`, trie_structure.rs:21-32). -/
structure Node (TUd : Type) where
  /-- Index of the parent and inbound nibble; `none` for the root. -/
  parent : Option (Nat × Nibble)
  /-- Partial key of the node. -/
  partial_key : List Nibble
  /-- The sixteen optional child links, indexed by nibble. -/
  children : Fin 16 → Option Nat
  has_storage_value : Bool
  user_data : TUd

/-- The slab arena: a dense index-stable allocator (the `slab::Slab` dependency).
Slot `i` holds `some` record when occupied. -/
structure Slab (α : Type) where
  entries : List (Option α)

namespace Slab

/-- `Slab::get`: `none` when the slot is vacant or out of range. -/
def get {α : Type} (s : Slab α) (i : Nat) : Option α :=
  s.entries.getD i none

/-- Lowest vacant slot index (equals `entries.length` when the slab is full). -/
def firstVacant {α : Type} : List (Option α) → Nat
  | [] => 0
  | none :: _ => 0
  | some _ :: rest => firstVacant rest + 1

/-- `Slab::insert`: store `v` in a vacant slot and return the new slab and the
slot's index. Indices of existing entries are unchanged. -/
def insertNew {α : Type} (s : Slab α) (v : α) : Slab α × Nat :=
  let i := firstVacant s.entries
  (⟨if i < s.entries.length then s.entries.set i (some v) else s.entries ++ [some v]⟩, i)

/-- Overwrite an occupied slot (models a `get_mut` followed by assignment;
callers check occupancy first, as the Rust code's `unwrap`s do). -/
def setAt {α : Type} (s : Slab α) (i : Nat) (v : α) : Slab α :=
  ⟨s.entries.set i (some v)⟩

/-- `Slab::remove`: vacate slot `i` (callers read the record out beforehand). -/
def removeAt {α : Type} (s : Slab α) (i : Nat) : Slab α :=
  ⟨s.entries.set i none⟩

/-- The slab holds no record at all. -/
def IsEmpty {α : Type} (s : Slab α) : Prop :=
  ∀ i, s.get i = none

end Slab

/-- The trie structure (`struct TrieStructure`, trie_structure.rs:13-19). -/
structure TrieStructure (TUd : Type) where
  nodes : Slab (Node TUd)
  root_index : Option Nat

/-- `TrieStructure::new` (trie_structure.rs:36-41). -/
def TrieStructure.new {TUd : Type} : TrieStructure TUd :=
  ⟨⟨[]⟩, none⟩

/-- Result of the inner lookup (`enum ExistingNodeInnerResult`, trie_structure.rs:222-231). -/
inductive ExistingNodeInnerResult where
  | Found (node_index : Nat) (has_storage_value : Bool)
  | NotFound (closest_ancestor : Option Nat)
deriving DecidableEq

/-- Consume `pk` from the front of `key`, requiring a match nibble by nibble
(the `for nibble in current.partial_key` loop, trie_structure.rs:135-139):
`some rest` when `pk` fully matched, `none` on any mismatch including `key`
ending early. -/
def stripMatch : List Nibble → List Nibble → Option (List Nibble)
  | [], key => some key
  | _ :: _, [] => none
  | p :: ps, k :: ks => if k = p then stripMatch ps ks else none

theorem stripMatch_length : ∀ (pk key rest : List Nibble),
    stripMatch pk key = some rest → rest.length ≤ key.length := by
  intro pk
  induction pk with
  | nil => intro key rest h; simp [stripMatch] at h; subst h; exact Nat.le_refl _
  | cons p ps ih =>
    intro key rest h
    cases key with
    | nil => simp [stripMatch] at h
    | cons k ks =>
      simp only [stripMatch] at h
      by_cases hk : k = p
      · simp [hk] at h
        exact Nat.le_succ_of_le (ih ks rest h)
      · simp [hk] at h

/-- Loop body of `TrieStructure::existing_node_inner` (trie_structure.rs:130-161),
descending from `current_index` with the not-yet-consumed part of the key.
The outer `none` models the `unwrap` panic on a dangling index.  The first
argument is fuel, for structural recursion: every iteration of the Rust loop
consumes at least one nibble of the key, so any fuel exceeding the key length
is enough and the fuel-exhausted case is unreachable from the wrapper below. -/
def existing_node_inner_go {TUd : Type} (t : TrieStructure TUd) :
    Nat → Nat → List Nibble → Option Nat → Option ExistingNodeInnerResult
  | 0, _, _, _ => none
  | fuel + 1, current_index, key, closest_ancestor =>
    match t.nodes.get current_index with
    | none => none
    | some current =>
      match stripMatch current.partial_key key with
      | none => some (.NotFound closest_ancestor)
      | some [] => some (.Found current_index current.has_storage_value)
      | some (c :: rest) =>
        match current.children c with
        | some next => existing_node_inner_go t fuel next rest (some current_index)
        | none => some (.NotFound (some current_index))

/-- `TrieStructure::existing_node_inner` (trie_structure.rs:114-162). -/
def existing_node_inner {TUd : Type} (t : TrieStructure TUd) (key : List Nibble) :
    Option ExistingNodeInnerResult :=
  match t.root_index with
  | none => some (.NotFound none)
  | some ri => existing_node_inner_go t (key.length + 1) ri key none

/-- A handle to an existing node: its index, tagged by the flavor the access
surface assigns it (`enum NodeAccess`, trie_structure.rs:260-263). -/
inductive NodeAccessRef where
  | Storage (node_index : Nat)
  | Branch (node_index : Nat)
deriving DecidableEq

/-- Build the flavored handle the source builds from a node's flag. -/
def mkRef (i : Nat) (flag : Bool) : NodeAccessRef :=
  if flag then .Storage i else .Branch i

/-- `enum Entry` (trie_structure.rs:234-239): the vacant variant keeps the
closest ancestor (the requested key is the lookup argument). -/
inductive Entry where
  | Occupied (access : NodeAccessRef)
  | Vacant (closest_ancestor : Option Nat)
deriving DecidableEq

/-- `TrieStructure::node` (trie_structure.rs:62-84). -/
def TrieStructure.node {TUd : Type} (t : TrieStructure TUd) (key : List Nibble) :
    Option Entry :=
  match existing_node_inner t key with
  | none => none
  | some (.Found node_index true) => some (.Occupied (.Storage node_index))
  | some (.Found node_index false) => some (.Occupied (.Branch node_index))
  | some (.NotFound closest_ancestor) => some (.Vacant closest_ancestor)

/-- `TrieStructure::existing_node` (trie_structure.rs:87-110): `some none`
when no node has this key, `none` (outer) for a panic. -/
def TrieStructure.existing_node {TUd : Type} (t : TrieStructure TUd) (key : List Nibble) :
    Option (Option NodeAccessRef) :=
  match existing_node_inner t key with
  | none => none
  | some (.Found node_index has_storage_value) => some (some (mkRef node_index has_storage_value))
  | some (.NotFound _) => some none

/-- Fuel-indexed walk for `TrieStructure::node_full_key` (trie_structure.rs:180-189):
the full key is the parent's full key, the inbound nibble, then the partial key.
`none` when a link dangles or the fuel runs out (a cyclic parent chain would
make the Rust iterator spin forever). -/
def node_full_key_aux {TUd : Type} (t : TrieStructure TUd) : Nat → Nat → Option (List Nibble)
  | 0, _ => none
  | fuel + 1, i =>
    match t.nodes.get i with
    | none => none
    | some n =>
      match n.parent with
      | none => some n.partial_key
      | some (p, c) => (node_full_key_aux t fuel p).map (fun pk => pk ++ c :: n.partial_key)

/-- `TrieStructure::node_full_key`, with fuel one more than the arena size,
which any acyclic parent chain fits in. -/
def node_full_key {TUd : Type} (t : TrieStructure TUd) (i : Nat) : Option (List Nibble) :=
  node_full_key_aux t (t.nodes.entries.length + 1) i

/-- Rust `a.starts_with(b)`: `b` is a prefix of `a`. -/
def starts_with : List Nibble → List Nibble → Bool
  | _, [] => true
  | [], _ :: _ => false
  | a :: as_, b :: bs => a = b && starts_with as_ bs

/-- The common-prefix length loop of `Vacant::insert_storage_value`
(trie_structure.rs:941-954): `while k1.next() == k2.next() { len += 1 }`.
When the two lists are equal the Rust loop compares `None == None` forever;
that divergence is `none`. -/
def commonLen : List Nibble → List Nibble → Option Nat
  | [], [] => none
  | [], _ :: _ => some 0
  | _ :: _, [] => some 0
  | a :: as_, b :: bs => if a = b then (commonLen as_ bs).map (· + 1) else some 0

/-- `struct Vacant` (trie_structure.rs:750-756). -/
structure Vacant (TUd : Type) where
  trie : TrieStructure TUd
  key : List Nibble
  closest_ancestor : Option Nat

/-- `struct PrepareInsertOne` (trie_structure.rs:1017-1027). -/
structure PrepareInsertOne (TUd : Type) where
  trie : TrieStructure TUd
  parent : Option (Nat × Nibble)
  partial_key : List Nibble
  children : Fin 16 → Option Nat

/-- `struct PrepareInsertTwo` (trie_structure.rs:1071-1087). -/
structure PrepareInsertTwo (TUd : Type) where
  trie : TrieStructure TUd
  storage_child_index : Nibble
  storage_partial_key : List Nibble
  branch_parent : Option (Nat × Nibble)
  branch_partial_key : List Nibble
  branch_children : Fin 16 → Option Nat

/-- `enum PrepareInsert` (trie_structure.rs:994-999). -/
inductive PrepareInsert (TUd : Type) where
  | One (p : PrepareInsertOne TUd)
  | Two (p : PrepareInsertTwo TUd)

/-- The tail of `Vacant::insert_storage_value` (trie_structure.rs:826-987) once
the child slot under the future parent is known to be occupied by
`existing_node_index`.  `future_parent` carries the ancestor index and the
length of its full key.  `none` models the panics: the out-of-range index
`new_node_partial_key[branch_partial_key_len]` (line 974, reached whenever the
new key tail is a strict prefix of the existing partial key, because line 841
tests `new.starts_with(existing)` where its own `debug_assert` at line 837
guarantees that is false), the out-of-range index at line 882, and the
non-terminating common-prefix loop. -/
def prepare_with_existing {TUd : Type} (t : TrieStructure TUd) (key : List Nibble)
    (future_parent : Option (Nat × Nat)) (existing_node_index : Nat) :
    Option (PrepareInsert TUd) :=
  match t.nodes.get existing_node_index with
  | none => none
  | some existing =>
    let existing_node_partial_key := existing.partial_key
    let new_node_partial_key :=
      key.drop (match future_parent with | some (_, n) => n + 1 | none => 0)
    if starts_with new_node_partial_key existing_node_partial_key then
      -- trie_structure.rs:841-897 — in the source this tests
      -- `new_node_partial_key.starts_with(existing_node_partial_key)`.
      match existing_node_partial_key.get? new_node_partial_key.length with
      | none => none
      | some existing_node_new_child_index =>
        let new_node_children : Fin 16 → Option Nat :=
          fun j => if j = existing_node_new_child_index then some existing_node_index else none
        match future_parent with
        | some (future_parent_index, future_parent_key_len) =>
          match key.get? future_parent_key_len with
          | none => none
          | some new_child_index =>
            some (.One { trie := t, parent := some (future_parent_index, new_child_index),
                         partial_key := new_node_partial_key,
                         children := new_node_children })
        | none =>
          some (.One { trie := t, parent := none,
                       partial_key := new_node_partial_key,
                       children := new_node_children })
    else
      match commonLen new_node_partial_key existing_node_partial_key with
      | none => none
      | some branch_partial_key_len =>
        match existing_node_partial_key.get? branch_partial_key_len with
        | none => none
        | some existing_node_new_child_index =>
          let branch_children : Fin 16 → Option Nat :=
            fun j => if j = existing_node_new_child_index then some existing_node_index else none
          match new_node_partial_key.get? branch_partial_key_len with
          | none => none
          | some storage_child_index =>
            match future_parent with
            | some (future_parent_index, future_parent_key_len) =>
              match key.get? future_parent_key_len with
              | none => none
              | some new_child_index =>
                some (.Two {
                  trie := t,
                  storage_child_index := storage_child_index,
                  storage_partial_key := new_node_partial_key.drop (branch_partial_key_len + 1),
                  branch_parent := some (future_parent_index, new_child_index),
                  branch_partial_key := new_node_partial_key.take branch_partial_key_len,
                  branch_children })
            | none =>
              some (.Two {
                trie := t,
                storage_child_index := storage_child_index,
                storage_partial_key := new_node_partial_key.drop (branch_partial_key_len + 1),
                branch_parent := none,
                branch_partial_key := new_node_partial_key.take branch_partial_key_len,
                branch_children })

/-- `Vacant::insert_storage_value` (trie_structure.rs:763-987). -/
def Vacant.insert_storage_value {TUd : Type} (self : Vacant TUd) :
    Option (PrepareInsert TUd) :=
  match self.closest_ancestor, self.trie.root_index with
  | some _, none => none  -- `unreachable!()` at line 768
  | none, none =>
    some (.One { trie := self.trie, parent := none, partial_key := self.key,
                 children := fun _ => none })
  | some ancestor, some _ =>
    match node_full_key self.trie ancestor with
    | none => none
    | some fk =>
      let future_parent_key_len := fk.length
      match self.key.get? future_parent_key_len with
      | none => none  -- `self.key[future_parent_key_len]` out of range (line 791)
      | some new_child_index =>
        match self.trie.nodes.get ancestor with
        | none => none
        | some future_parent_node =>
          match future_parent_node.children new_child_index with
          | some i =>
            prepare_with_existing self.trie self.key
              (some (ancestor, future_parent_key_len)) i
          | none =>
            some (.One { trie := self.trie,
                         parent := some (ancestor, new_child_index),
                         partial_key := self.key.drop (future_parent_key_len + 1),
                         children := fun _ => none })
  | none, some rootIdx =>
    prepare_with_existing self.trie self.key none rootIdx

/-- Number of occupied child slots (`children.iter().filter(|c| c.is_some()).count()`). -/
def countChildren (ch : Fin 16 → Option Nat) : Nat :=
  ((List.finRange 16).filter (fun c => (ch c).isSome)).length

/-- First occupied child slot, in nibble order
(`children.iter().filter_map(|c| *c).next()`). -/
def firstChild (ch : Fin 16 → Option Nat) : Option Nat :=
  ((List.finRange 16).filterMap ch).head?

/-- The child re-parenting loops of the two commit functions
(trie_structure.rs:1043-1052 and 1139-1148): each linked child gets the new
node as parent and loses the first `plen + 1` nibbles of its partial key
(an out-of-range slice panics, hence the guard). -/
def updateChildrenParents {TUd : Type} (nodes : Slab (Node TUd))
    (children : Fin 16 → Option Nat) (new_parent : Nat) (plen : Nat) :
    Option (Slab (Node TUd)) :=
  (List.finRange 16).foldlM
    (fun acc ci =>
      match children ci with
      | none => some acc
      | some c =>
        match acc.get c with
        | none => none
        | some child =>
          if plen + 1 ≤ child.partial_key.length then
            some (acc.setAt c {
              child with
              parent := some (new_parent, ci),
              partial_key := child.partial_key.drop (plen + 1) })
          else none)
    nodes

/-- A storage-flavored handle (`struct StorageNodeAccess`, trie_structure.rs:327-330). -/
structure StorageNodeAccess (TUd : Type) where
  trie : TrieStructure TUd
  node_index : Nat

/-- A branch-flavored handle (`struct BranchNodeAccess`, trie_structure.rs:660-663). -/
structure BranchNodeAccess (TUd : Type) where
  trie : TrieStructure TUd
  node_index : Nat

/-- `PrepareInsertOne::insert` (trie_structure.rs:1031-1067). -/
def PrepareInsertOne.insert {TUd : Type} (self : PrepareInsertOne TUd) (user_data : TUd) :
    Option (StorageNodeAccess TUd) :=
  let new_node_partial_key_len := self.partial_key.length
  let allocated := self.trie.nodes.insertNew
    { parent := self.parent, partial_key := self.partial_key, children := self.children,
      has_storage_value := true, user_data }
  let nodes1 := allocated.1
  let new_node_index := allocated.2
  match updateChildrenParents nodes1 self.children new_node_index new_node_partial_key_len with
  | none => none
  | some nodes2 =>
    match self.parent with
    | some (parent_index, child_index) =>
      match nodes2.get parent_index with
      | none => none
      | some parent_node =>
        some ⟨{ nodes := nodes2.setAt parent_index
                  { parent_node with children := fun j =>
                      if j = child_index then some new_node_index else parent_node.children j },
                root_index := self.trie.root_index }, new_node_index⟩
    | none =>
      some ⟨{ nodes := nodes2, root_index := some new_node_index }, new_node_index⟩

/-- `PrepareInsertTwo::insert` (trie_structure.rs:1102-1163): the branch node is
allocated first, then the storage node, then the branch's child slot is pointed
at the storage node. -/
def PrepareInsertTwo.insert {TUd : Type} (self : PrepareInsertTwo TUd)
    (storage_node_user_data branch_node_user_data : TUd) :
    Option (StorageNodeAccess TUd) :=
  let new_branch_node_partial_key_len := self.branch_partial_key.length
  let alloc1 := self.trie.nodes.insertNew
    { parent := self.branch_parent, partial_key := self.branch_partial_key,
      children := self.branch_children, has_storage_value := false,
      user_data := branch_node_user_data }
  let nodes1 := alloc1.1
  let new_branch_node_index := alloc1.2
  let alloc2 := nodes1.insertNew
    { parent := some (new_branch_node_index, self.storage_child_index),
      partial_key := self.storage_partial_key, children := fun _ => none,
      has_storage_value := true, user_data := storage_node_user_data }
  let nodes2 := alloc2.1
  let new_storage_node_index := alloc2.2
  match nodes2.get new_branch_node_index with
  | none => none
  | some bnode =>
    let nodes3 := nodes2.setAt new_branch_node_index
      { bnode with children := fun j =>
          if j = self.storage_child_index then some new_storage_node_index
          else bnode.children j }
    match updateChildrenParents nodes3 self.branch_children new_branch_node_index
        new_branch_node_partial_key_len with
    | none => none
    | some nodes4 =>
      match self.branch_parent with
      | some (parent_index, child_index) =>
        match nodes4.get parent_index with
        | none => none
        | some parent_node =>
          some ⟨{ nodes := nodes4.setAt parent_index
                    { parent_node with children := fun j =>
                        if j = child_index then some new_branch_node_index
                        else parent_node.children j },
                  root_index := self.trie.root_index }, new_storage_node_index⟩
      | none =>
        some ⟨{ nodes := nodes4, root_index := some new_branch_node_index },
              new_storage_node_index⟩

/-- `PrepareInsert::insert` (trie_structure.rs:1004-1013): the branch payload is
discarded by the one-node plan. -/
def PrepareInsert.insert {TUd : Type} :
    PrepareInsert TUd → TUd → TUd → Option (StorageNodeAccess TUd)
  | .One p, storage_ud, _ => p.insert storage_ud
  | .Two p, storage_ud, branch_ud => p.insert storage_ud branch_ud

/-- `BranchNodeAccess::insert_storage_value` (trie_structure.rs:730-741):
set the flag in place, no structural change. -/
def BranchNodeAccess.insert_storage_value {TUd : Type} (self : BranchNodeAccess TUd) :
    Option (StorageNodeAccess TUd) :=
  match self.trie.nodes.get self.node_index with
  | none => none
  | some n =>
    some ⟨{ nodes := self.trie.nodes.setAt self.node_index { n with has_storage_value := true },
            root_index := self.trie.root_index }, self.node_index⟩

/-- `enum Remove` (trie_structure.rs:558-656), with handles as flavored indices. -/
inductive Remove (TUd : Type) where
  | StorageToBranch (node : Nat)
  | SingleRemove (child : Option NodeAccessRef) (user_data : TUd)
  | BranchAlsoRemoved (sibling : NodeAccessRef) (storage_user_data branch_user_data : TUd)

/-- `StorageNodeAccess::remove` (trie_structure.rs:400-554), returning the
outcome together with the resulting trie.  Note that the `StorageToBranch`
arm of the source returns without clearing `has_storage_value`
(trie_structure.rs:402-417). -/
def StorageNodeAccess.remove {TUd : Type} (self : StorageNodeAccess TUd) :
    Option (Remove TUd × TrieStructure TUd) :=
  match self.trie.nodes.get self.node_index with
  | none => none
  | some removed_node =>
    if 2 ≤ countChildren removed_node.children then
      some (.StorageToBranch self.node_index, self.trie)
    else
      let nodes1 := self.trie.nodes.removeAt self.node_index
      let child_node_index := firstChild removed_node.children
      -- re-parent the single child, if any (trie_structure.rs:428-438)
      let step1 : Option (Slab (Node TUd)) :=
        match child_node_index with
        | none => some nodes1
        | some c =>
          match nodes1.get c with
          | none => none
          | some child =>
            match child.parent with
            | none => none
            | some (_, inbound) =>
              some (nodes1.setAt c { child with
                partial_key := removed_node.partial_key ++ inbound :: child.partial_key,
                parent := removed_node.parent })
      match step1 with
      | none => none
      | some nodes2 =>
        match removed_node.parent with
        | none =>
          -- the removed node was the root (trie_structure.rs:456-459)
          match child_node_index with
          | none => some (.SingleRemove none removed_node.user_data,
                          { nodes := nodes2, root_index := none })
          | some c =>
            match nodes2.get c with
            | none => none
            | some child =>
              some (.SingleRemove (some (mkRef c child.has_storage_value)) removed_node.user_data,
                    { nodes := nodes2, root_index := some c })
        | some (parent_index, child_index) =>
          match nodes2.get parent_index with
          | none => none
          | some parent_node =>
            let parent' := { parent_node with children := fun j =>
              if j = child_index then child_node_index else parent_node.children j }
            let nodes3 := nodes2.setAt parent_index parent'
            if parent'.has_storage_value = true ∨ 2 ≤ countChildren parent'.children then
              -- SingleRemove (trie_structure.rs:462-487)
              match child_node_index with
              | none => some (.SingleRemove none removed_node.user_data,
                              { nodes := nodes3, root_index := self.trie.root_index })
              | some c =>
                match nodes3.get c with
                | none => none
                | some child =>
                  some (.SingleRemove (some (mkRef c child.has_storage_value))
                          removed_node.user_data,
                        { nodes := nodes3, root_index := self.trie.root_index })
            else
              -- BranchAlsoRemoved (trie_structure.rs:489-554)
              let removed_branch := parent'
              let nodes4 := nodes3.removeAt parent_index
              match firstChild removed_branch.children with
              | none => none
              | some sibling_node_index =>
                match nodes4.get sibling_node_index with
                | none => none
                | some sibling =>
                  match sibling.parent with
                  | none => none
                  | some (_, sibling_inbound) =>
                    let sibling' := { sibling with
                      partial_key :=
                        removed_branch.partial_key ++ sibling_inbound :: sibling.partial_key,
                      parent := removed_branch.parent }
                    let nodes5 := nodes4.setAt sibling_node_index sibling'
                    match removed_branch.parent with
                    | some (parent_parent_index, sibling_index) =>
                      match nodes5.get parent_parent_index with
                      | none => none
                      | some parent_parent =>
                        some (.BranchAlsoRemoved
                                (mkRef sibling_node_index sibling'.has_storage_value)
                                removed_node.user_data removed_branch.user_data,
                              { nodes := nodes5.setAt parent_parent_index
                                  { parent_parent with children := fun j =>
                                      if j = sibling_index then some sibling_node_index
                                      else parent_parent.children j },
                                root_index := self.trie.root_index })
                    | none =>
                      some (.BranchAlsoRemoved
                              (mkRef sibling_node_index sibling'.has_storage_value)
                              removed_node.user_data removed_branch.user_data,
                            { nodes := nodes5, root_index := some sibling_node_index })

/-- Insert the key at a vacant entry: `node(key)`, then
`Vacant::insert_storage_value`, then `PrepareInsert::insert`.  `none` when the
key is already occupied or when any step panics. -/
def insertOp {TUd : Type} (t : TrieStructure TUd) (key : List Nibble)
    (storage_ud branch_ud : TUd) : Option (TrieStructure TUd) :=
  match t.node key with
  | some (.Vacant ca) =>
    match Vacant.insert_storage_value ⟨t, key, ca⟩ with
    | some p => (p.insert storage_ud branch_ud).map (·.trie)
    | none => none
  | _ => none

/-- Set the storage flag of an existing branch node at `key`
(`BranchNodeAccess::insert_storage_value` through the entry API). -/
def insertAtBranchOp {TUd : Type} (t : TrieStructure TUd) (key : List Nibble) :
    Option (TrieStructure TUd) :=
  match t.node key with
  | some (.Occupied (.Branch i)) =>
    (BranchNodeAccess.insert_storage_value ⟨t, i⟩).map (·.trie)
  | _ => none

/-- Remove the storage value at `key`: `node(key)` must be `Occupied(Storage)`,
then `StorageNodeAccess::remove`. -/
def removeOp {TUd : Type} (t : TrieStructure TUd) (key : List Nibble) :
    Option (Remove TUd × TrieStructure TUd) :=
  match t.node key with
  | some (.Occupied (.Storage i)) => StorageNodeAccess.remove ⟨t, i⟩
  | _ => none

/-- The trie states produced by sequences of valid, completed insert and
remove operations starting from the empty trie. -/
inductive Reachable {TUd : Type} : TrieStructure TUd → Prop where
  | base : Reachable TrieStructure.new
  | ins {t t' : TrieStructure TUd} {k : List Nibble} {u b : TUd} :
      Reachable t → insertOp t k u b = some t' → Reachable t'
  | insFlag {t t' : TrieStructure TUd} {k : List Nibble} :
      Reachable t → insertAtBranchOp t k = some t' → Reachable t'
  | del {t t' : TrieStructure TUd} {k : List Nibble} {r : Remove TUd} :
      Reachable t → removeOp t k = some (r, t') → Reachable t'

/-! ## Concrete tries used as test vectors

The spec's §8 scenarios, built both through the public operations and as
explicit arena states. -/

/-- The trie holding the single key `[1,2,3]` (spec §8 scenario 1). -/
def trie123 : Option (TrieStructure Unit) :=
  insertOp TrieStructure.new [1, 2, 3] () ()

/-- The trie holding keys `[1]`, `[1,2]`, `[1,3]` (spec §8 scenario 5), built
through the public insertion pipeline. -/
def trieStar : Option (TrieStructure Unit) :=
  (insertOp TrieStructure.new [1] () ()).bind fun t =>
    (insertOp t [1, 2] () ()).bind fun t' =>
      insertOp t' [1, 3] () ()

/-- The trie holding keys `[1,2,3]` and `[1,2,5]` (spec §8 scenario 2): a root
branch node with partial key `[1,2]` and two storage leaves. -/
def trieBranch : Option (TrieStructure Unit) :=
  (insertOp TrieStructure.new [1, 2, 3] () ()).bind fun t =>
    insertOp t [1, 2, 5] () ()

/-- The chain trie holding keys `[1]`, `[1,2]`, `[1,2,3]`: node 0 is the root
with partial key `[1]`, node 1 hangs off nibble 2 with empty partial key,
node 2 hangs off nibble 3 of node 1 with empty partial key. -/
def trieChain : Option (TrieStructure Unit) :=
  (insertOp TrieStructure.new [1] () ()).bind fun t =>
    (insertOp t [1, 2] () ()).bind fun t' =>
      insertOp t' [1, 2, 3] () ()

/-- Explicit arena form of the trie holding the single key `[1,2,3]`. -/
def t123 : TrieStructure Unit :=
  ⟨⟨[some { parent := none, partial_key := [1, 2, 3], children := fun _ => none,
            has_storage_value := true, user_data := () }]⟩, some 0⟩

/-! ## Arena access lemmas -/

theorem Slab.get_lt_length {α : Type} {s : Slab α} {i : Nat} {v : α}
    (h : s.get i = some v) : i < s.entries.length := by
  by_contra hc
  rw [Slab.get, List.getD_eq_getElem?_getD, List.getElem?_eq_none (by omega)] at h
  simp at h

theorem Slab.get_setAt_self {α : Type} (s : Slab α) (i : Nat) (v : α)
    (h : i < s.entries.length) : (s.setAt i v).get i = some v := by
  unfold Slab.setAt Slab.get
  rw [List.getD_eq_getElem?_getD, List.getElem?_set_self (by simpa using h)]
  simp

theorem Slab.get_setAt_ne {α : Type} (s : Slab α) (i j : Nat) (v : α) (h : j ≠ i) :
    (s.setAt i v).get j = s.get j := by
  unfold Slab.setAt Slab.get
  rw [List.getD_eq_getElem?_getD, List.getD_eq_getElem?_getD,
    List.getElem?_set_ne (by omega)]

theorem Slab.get_removeAt_self {α : Type} (s : Slab α) (i : Nat) :
    (s.removeAt i).get i = none := by
  unfold Slab.removeAt Slab.get
  rw [List.getD_eq_getElem?_getD]
  by_cases h : i < s.entries.length
  · rw [List.getElem?_set_self (by simpa using h)]; simp
  · rw [List.getElem?_eq_none (by simp; omega)]; simp

theorem Slab.get_removeAt_ne {α : Type} (s : Slab α) (i j : Nat) (h : j ≠ i) :
    (s.removeAt i).get j = s.get j := by
  unfold Slab.removeAt Slab.get
  rw [List.getD_eq_getElem?_getD, List.getD_eq_getElem?_getD,
    List.getElem?_set_ne (by omega)]

theorem Slab.length_setAt {α : Type} (s : Slab α) (i : Nat) (v : α) :
    (s.setAt i v).entries.length = s.entries.length :=
  List.length_set ..

theorem Slab.length_removeAt {α : Type} (s : Slab α) (i : Nat) :
    (s.removeAt i).entries.length = s.entries.length :=
  List.length_set ..

theorem Slab.getD_firstVacant {α : Type} : ∀ (l : List (Option α)),
    l.getD (Slab.firstVacant l) none = none := by
  intro l
  induction l with
  | nil => simp [Slab.firstVacant]
  | cons hd tl ih =>
    cases hd with
    | none => simp [Slab.firstVacant]
    | some v => simpa [Slab.firstVacant, List.getD_cons_succ] using ih

/-- The slot picked by `firstVacant` is vacant. -/
theorem Slab.get_firstVacant {α : Type} (s : Slab α) :
    s.get (Slab.firstVacant s.entries) = none := by
  unfold Slab.get
  exact Slab.getD_firstVacant s.entries

theorem Slab.firstVacant_le_length {α : Type} : ∀ (l : List (Option α)),
    Slab.firstVacant l ≤ l.length := by
  intro l
  induction l with
  | nil => simp [Slab.firstVacant]
  | cons hd tl ih =>
    cases hd with
    | none => simp [Slab.firstVacant]
    | some v => simpa [Slab.firstVacant] using ih

/-- Reading the freshly inserted slot. -/
theorem Slab.get_insertNew_self {α : Type} (s : Slab α) (v : α) :
    (s.insertNew v).1.get (s.insertNew v).2 = some v := by
  unfold Slab.insertNew Slab.get
  by_cases h : Slab.firstVacant s.entries < s.entries.length
  · simp only [if_pos h]
    rw [List.getD_eq_getElem?_getD, List.getElem?_set_self (by simpa using h)]
    simp
  · simp only [if_neg h]
    have hle := Slab.firstVacant_le_length s.entries
    have heq : Slab.firstVacant s.entries = s.entries.length := by omega
    rw [List.getD_eq_getElem?_getD, heq, List.getElem?_append_right (Nat.le_refl _)]
    simp

/-- Reading any other slot after an insertion. -/
theorem Slab.get_insertNew_ne {α : Type} (s : Slab α) (v : α) (j : Nat)
    (h : j ≠ (s.insertNew v).2) : (s.insertNew v).1.get j = s.get j := by
  have h' : j ≠ Slab.firstVacant s.entries := h
  unfold Slab.insertNew Slab.get
  by_cases hlt : Slab.firstVacant s.entries < s.entries.length
  · simp only [if_pos hlt]
    rw [List.getD_eq_getElem?_getD, List.getD_eq_getElem?_getD,
      List.getElem?_set_ne (by omega)]
  · simp only [if_neg hlt]
    have hle := Slab.firstVacant_le_length (α := α) s.entries
    have heq : Slab.firstVacant s.entries = s.entries.length := by omega
    rw [List.getD_eq_getElem?_getD, List.getD_eq_getElem?_getD]
    by_cases hj : j < s.entries.length
    · rw [List.getElem?_append_left hj]
    · rw [List.getElem?_eq_none (show (s.entries ++ [some v]).length ≤ j by
          simp only [List.length_append, List.length_cons, List.length_nil]; omega),
        List.getElem?_eq_none (by omega)]

/-- The fresh slot was vacant before the insertion. -/
theorem Slab.get_insertNew_idx_before {α : Type} (s : Slab α) (v : α) :
    s.get (s.insertNew v).2 = none :=
  Slab.get_firstVacant s

/-! ## Basic facts about the lookup -/

theorem stripMatch_eq : ∀ (pk key : List Nibble),
    stripMatch pk key =
      if key.take pk.length = pk then some (key.drop pk.length) else none := by
  intro pk
  induction pk with
  | nil => intro key; simp [stripMatch]
  | cons p ps ih =>
    intro key
    cases key with
    | nil => simp [stripMatch]
    | cons k ks =>
      simp only [stripMatch, List.take, List.drop, List.length_cons]
      by_cases hk : k = p
      · subst hk
        simp only [if_pos rfl, ih ks]
        by_cases ht : ks.take ps.length = ps
        · simp [ht]
        · simp [ht]
      · have : ¬(k :: ks.take ps.length = p :: ps) := by
          intro hcon; exact hk (List.cons.injEq .. ▸ hcon).1
        simp [hk, List.take_cons, this]

/-- A successful `Found` of the descent loop designates an occupied slot whose
storage flag is the reported one. -/
theorem existing_node_inner_go_found_flag {TUd : Type} (t : TrieStructure TUd) :
    ∀ (fuel current : Nat) (key : List Nibble) (ca : Option Nat) (i : Nat) (b : Bool),
      existing_node_inner_go t fuel current key ca = some (.Found i b) →
      ∃ n, t.nodes.get i = some n ∧ n.has_storage_value = b := by
  intro fuel
  induction fuel with
  | zero => intro current key ca i b h; simp [existing_node_inner_go] at h
  | succ f ih =>
    intro current key ca i b h
    simp only [existing_node_inner_go] at h
    cases hg : t.nodes.get current with
    | none => simp [hg] at h
    | some n =>
      simp only [hg] at h
      cases hs : stripMatch n.partial_key key with
      | none => simp [hs] at h
      | some rest =>
        simp only [hs] at h
        cases rest with
        | nil =>
          simp only [Option.some.injEq, ExistingNodeInnerResult.Found.injEq] at h
          exact ⟨n, h.1 ▸ hg, h.2⟩
        | cons c rest' =>
          cases hc : n.children c with
          | none => simp [hc] at h
          | some nxt => simp only [hc] at h; exact ih nxt rest' (some current) i b h

theorem existing_node_inner_found_flag {TUd : Type} (t : TrieStructure TUd)
    (key : List Nibble) (i : Nat) (b : Bool)
    (h : existing_node_inner t key = some (.Found i b)) :
    ∃ n, t.nodes.get i = some n ∧ n.has_storage_value = b := by
  unfold existing_node_inner at h
  cases hr : t.root_index with
  | none => rw [hr] at h; simp at h
  | some ri =>
    rw [hr] at h
    exact existing_node_inner_go_found_flag t _ ri key none i b h

/-! ## Claim C10: `node` and `existing_node` agree -/

/-- Claim C10: on every trie state and key, `node(key)` and
`existing_node(key)` agree — `node` returns `Occupied` with a given flavored
handle exactly when `existing_node` returns that same handle, `node` returns
`Vacant` exactly when `existing_node` returns nothing, and the handle's
Storage/Branch flavor matches the designated node's `has_storage_value`
flag. -/
theorem c10_node_existing_node_agree {TUd : Type} (t : TrieStructure TUd)
    (key : List Nibble) :
    (∀ a, t.node key = some (.Occupied a) ↔ t.existing_node key = some (some a)) ∧
    (∀ ca, t.node key = some (.Vacant ca) → t.existing_node key = some none) ∧
    (t.existing_node key = some none → ∃ ca, t.node key = some (.Vacant ca)) ∧
    (∀ i, t.node key = some (.Occupied (.Storage i)) →
      ∃ n, t.nodes.get i = some n ∧ n.has_storage_value = true) ∧
    (∀ i, t.node key = some (.Occupied (.Branch i)) →
      ∃ n, t.nodes.get i = some n ∧ n.has_storage_value = false) := by
  have hflag := existing_node_inner_found_flag t key
  unfold TrieStructure.node TrieStructure.existing_node
  cases hr : existing_node_inner t key with
  | none => simp
  | some res =>
    cases res with
    | NotFound ca => simp
    | Found j b =>
      cases b with
      | true =>
        refine ⟨fun a => by simp [mkRef], by simp, by simp, fun i hi => ?_, fun i hi => ?_⟩
        · simp only [Option.some.injEq, Entry.Occupied.injEq,
            NodeAccessRef.Storage.injEq] at hi
          exact hi ▸ hflag j true hr
        · simp at hi
      | false =>
        refine ⟨fun a => by simp [mkRef], by simp, by simp, fun i hi => ?_, fun i hi => ?_⟩
        · simp at hi
        · simp only [Option.some.injEq, Entry.Occupied.injEq,
            NodeAccessRef.Branch.injEq] at hi
          exact hi ▸ hflag j false hr

/-- Witness for `c10_node_existing_node_agree` at the one-node trie and the
key `[1,2,3]`: the storage handle reported by `node` is also what
`existing_node` reports, and its flavor matches the stored flag. -/
theorem c10_witness :
    t123.existing_node [1, 2, 3] = some (some (.Storage 0)) ∧
    (∃ n, t123.nodes.get 0 = some n ∧ n.has_storage_value = true) :=
  ⟨((c10_node_existing_node_agree t123 [1, 2, 3]).1 (.Storage 0)).mp rfl,
    (c10_node_existing_node_agree t123 [1, 2, 3]).2.2.2.1 0 rfl⟩

/-! ## Claim C3: the lookup follows the spec's algorithm

`spec_lookup` is written from the spec's §4.3 step list (its words, not the
source): walk from the root; at each node require the next
`partial_key.length` nibbles of the key to equal the partial key, returning
`Vacant` with the parent of the current node at the moment the iteration
began on any mismatch (including the key ending mid-partial-key); return
`Occupied` of the current node, flavored by its flag, when the key is
exhausted exactly; and on an empty child slot return `Vacant` with the
current node as closest ancestor. -/

/-- Step 2-4 of the spec's lookup, with `parent_of_current` the node descended
past on the way into `current` (`none` at the root). -/
def spec_lookup_go {TUd : Type} (t : TrieStructure TUd) :
    Nat → Nat → List Nibble → Option Nat → Option Entry
  | 0, _, _, _ => none
  | fuel + 1, current, key, parent_of_current =>
    match t.nodes.get current with
    | none => none
    | some n =>
      if key.take n.partial_key.length = n.partial_key then
        match key.drop n.partial_key.length with
        | [] => some (.Occupied (mkRef current n.has_storage_value))
        | c :: rest =>
          match n.children c with
          | none => some (.Vacant (some current))
          | some next => spec_lookup_go t fuel next rest (some current)
      else some (.Vacant parent_of_current)

/-- Step 1 of the spec's lookup: an empty trie yields `Vacant` with no
closest ancestor. -/
def spec_lookup {TUd : Type} (t : TrieStructure TUd) (key : List Nibble) :
    Option Entry :=
  match t.root_index with
  | none => some (.Vacant none)
  | some root => spec_lookup_go t (key.length + 1) root key none

/-- Map the inner lookup result to the `Entry` that `TrieStructure::node`
builds from it. -/
def entryOfResult : Option ExistingNodeInnerResult → Option Entry
  | none => none
  | some (.Found node_index true) => some (.Occupied (.Storage node_index))
  | some (.Found node_index false) => some (.Occupied (.Branch node_index))
  | some (.NotFound closest_ancestor) => some (.Vacant closest_ancestor)

theorem node_eq_entryOfResult {TUd : Type} (t : TrieStructure TUd) (key : List Nibble) :
    t.node key = entryOfResult (existing_node_inner t key) := by
  unfold TrieStructure.node entryOfResult
  cases hr : existing_node_inner t key with
  | none => rfl
  | some res => cases res with
    | Found i b => cases b <;> rfl
    | NotFound ca => rfl

theorem entryOfResult_found (i : Nat) (b : Bool) :
    entryOfResult (some (.Found i b)) = some (.Occupied (mkRef i b)) := by
  cases b <;> simp [entryOfResult, mkRef]

theorem spec_lookup_go_eq {TUd : Type} (t : TrieStructure TUd) :
    ∀ (fuel current : Nat) (key : List Nibble) (ca : Option Nat),
      entryOfResult (existing_node_inner_go t fuel current key ca) =
        spec_lookup_go t fuel current key ca := by
  intro fuel
  induction fuel with
  | zero => intro current key ca; rfl
  | succ f ih =>
    intro current key ca
    simp only [existing_node_inner_go, spec_lookup_go]
    cases hg : t.nodes.get current with
    | none => rfl
    | some n =>
      dsimp only
      rw [stripMatch_eq]
      by_cases hp : key.take n.partial_key.length = n.partial_key
      · rw [if_pos hp, if_pos hp]
        cases hd : key.drop n.partial_key.length with
        | nil => exact entryOfResult_found current n.has_storage_value
        | cons c rest =>
          dsimp only
          cases hc : n.children c with
          | none => rfl
          | some next => exact ih next rest (some current)
      · rw [if_neg hp, if_neg hp]; rfl

/-- Claim C3: `node(key)` performs exactly the spec's deterministic,
no-backtracking lookup — including the subtle choice that on a mismatch the
reported closest ancestor is the parent of the current node at the moment the
current iteration began (`none` for a mismatch at the root or an empty trie),
`Occupied` flavored by the storage flag on exact exhaustion, and `Vacant` with
the current node on an empty child slot. -/
theorem c3_node_follows_spec_lookup {TUd : Type} (t : TrieStructure TUd)
    (key : List Nibble) :
    t.node key = spec_lookup t key := by
  rw [node_eq_entryOfResult]
  unfold existing_node_inner spec_lookup
  cases hr : t.root_index with
  | none => rfl
  | some root => exact spec_lookup_go_eq t (key.length + 1) root key none

/-! ## Claims settled by direct evaluation -/

/-- Claim C1: case C insertion (child slot under the closest ancestor occupied
by `X`, remaining key tail a strict prefix of `X`'s partial key) is claimed to
interpose exactly one new storage node between the root position and `X`.
The code does not: inserting `[1]` into the trie holding only `[1,2,3]`
panics.  Line 841 of trie_structure.rs tests
`new_node_partial_key.starts_with(existing_node_partial_key)` — the very
condition its own `debug_assert!` on line 837 guarantees false — so case C
falls through to the branch-split path, whose common-prefix length equals the
whole tail and whose index `new_node_partial_key[branch_partial_key_len]`
(line 974) is out of range. -/
theorem c1_case_c_insertion_panics :
    (trie123.bind fun t1 => insertOp t1 [1] () ()).isNone = true ∧
    trie123.isSome = true ∧
    (trie123.map fun t1 => t1.node [1]) = some (some (.Vacant none)) :=
  ⟨rfl, rfl, rfl⟩

/-- Claim C9: totality is claimed — `Vacant::insert_storage_value` always
produces a `PrepareInsert`.  It does not: on the reachable trie holding only
`[1,2,3,4]`, the entry for `[1,2]` is vacant, and preparing its insertion
panics with an out-of-range index (see `c1_case_c_insertion_panics` for the
mechanism; `none` is the panic). -/
theorem c9_insert_storage_value_not_total :
    ((insertOp (TrieStructure.new : TrieStructure Unit) [1, 2, 3, 4] () ()).map
      fun t1 => t1.node [1, 2]) = some (some (.Vacant none)) ∧
    ((insertOp (TrieStructure.new : TrieStructure Unit) [1, 2, 3, 4] () ()).map
      fun t1 => (Vacant.insert_storage_value ⟨t1, [1, 2], none⟩).isSome) = some false :=
  ⟨rfl, rfl⟩

/-- Claim C4: the decision table says a storage node with two or more children
is converted to a branch in place, i.e. its storage flag is cleared
(`StorageToBranch`).  The code (trie_structure.rs:402-417) returns
`Remove::StorageToBranch` without clearing `has_storage_value`: after removing
the storage value of `[1]` in the trie `{[1], [1,2], [1,3]}`, the node at key
`[1]` is still reported as a storage node. -/
theorem c4_storage_to_branch_keeps_flag :
    (trieStar.bind fun t => (removeOp t [1]).map fun rt =>
      ((match rt.1 with | .StorageToBranch i => some i | _ => none),
        rt.2.node [1],
        (rt.2.nodes.get 0).map (·.has_storage_value)))
      = some (some 0, some (.Occupied (.Storage 0)), some true) :=
  rfl

/-- Claim C8: the round trip (insert a key not present as a storage value,
then immediately remove it) is claimed to restore a structurally identical
trie for every such key.  It fails when the key coincides with a branch node:
in the trie `{[1,2,3], [1,2,5]}` the key `[1,2]` is a branch node (not a
storage value); `insert_storage_value` on it sets the flag, and `remove()`
takes the `StorageToBranch` path, which never clears the flag
(trie_structure.rs:402-417) — so afterwards `[1,2]` is a storage key and the
prior state is not restored. -/
theorem c8_round_trip_fails_on_branch_key :
    (trieBranch.map fun t => t.node [1, 2]) = some (some (.Occupied (.Branch 1))) ∧
    ((trieBranch.bind fun t => insertAtBranchOp t [1, 2]).bind fun t' =>
      (removeOp t' [1, 2]).map fun rt => rt.2.node [1, 2])
      = some (some (.Occupied (.Storage 1))) :=
  ⟨rfl, rfl⟩


/-! ## Claim C5: child re-parenting in a SingleRemove -/

/-- Node 0 of the chain trie `{[1], [1,2], [1,2,3]}`: the root, storage,
partial key `[1]`, child `1` at nibble `2`. -/
def chainNode0 : Node Unit :=
  { parent := none, partial_key := [1],
    children := fun j => if j = 2 then some 1 else none,
    has_storage_value := true, user_data := () }

/-- Node 1 of the chain trie: full key `[1,2]`, storage, empty partial key,
child `2` at nibble `3`; its inbound nibble (slot under the root) is `2`. -/
def chainNode1 : Node Unit :=
  { parent := some (0, 2), partial_key := [],
    children := fun j => if j = 3 then some 2 else none,
    has_storage_value := true, user_data := () }

/-- Node 2 of the chain trie: full key `[1,2,3]`, storage, empty partial key,
no children; its inbound nibble (slot under node 1) is `3`. -/
def chainNode2 : Node Unit :=
  { parent := some (1, 3), partial_key := [],
    children := fun _ => none, has_storage_value := true, user_data := () }

/-- The chain trie `{[1], [1,2], [1,2,3]}` as an explicit arena. -/
def tChain : TrieStructure Unit :=
  ⟨⟨[some chainNode0, some chainNode1, some chainNode2]⟩, some 0⟩

/-- The trie left behind by removing the storage value of `[1,2]` (node 1)
from the chain trie. -/
def tChainRemoved : TrieStructure Unit :=
  ((StorageNodeAccess.remove ⟨tChain, 1⟩).map (·.2)).getD TrieStructure.new

/-- Claim C5 counterexample: the claim says the surviving child's new partial
key is the removed node's partial_key plus the REMOVED NODE's inbound nibble
plus the child's previous partial key.  Removing `[1,2]` (node 1, inbound
nibble `2`, empty partial key) from the chain trie re-parents node 2:
the claim's formula prescribes partial key `[] ++ 2 :: [] = [2]`, but the code
(trie_structure.rs:431-436) prepends the CHILD's own inbound nibble, giving
`[3]` — which is what keeps node 2's full key equal to `[1,2,3]`. -/
theorem c5_counterexample :
    (StorageNodeAccess.remove ⟨tChain, 1⟩).map
        (fun rt => (rt.2.nodes.get 2).map (·.partial_key)) = some (some [3]) ∧
    chainNode1.partial_key ++ (2 : Nibble) :: chainNode2.partial_key = [2] ∧
    ([3] : List Nibble) ≠ [2] :=
  ⟨rfl, rfl, by decide⟩

/-- Claim C5 as amended: in a `SingleRemove` outcome where the removed node
had a single child, that child is re-parented to the removed node's parent,
its new partial key is the removed node's partial_key plus the CHILD's former
inbound nibble (its slot under the removed node) plus the child's previous
partial key, and the grandparent's child slot (or `root_index`) is updated to
point to the child. -/
theorem c5_amended {TUd : Type} (t : TrieStructure TUd) (i c p0 : Nat)
    (n ch : Node TUd) (inb : Nibble) (ref : NodeAccessRef) (ud : TUd)
    (t' : TrieStructure TUd)
    (hget : t.nodes.get i = some n)
    (hchild : firstChild n.children = some c)
    (hch : t.nodes.get c = some ch)
    (hpar : ch.parent = some (p0, inb))
    (hparent_not_child : ∀ s', n.parent ≠ some (c, s'))
    (hrm : StorageNodeAccess.remove ⟨t, i⟩ = some (.SingleRemove (some ref) ud, t')) :
    (∃ ch', t'.nodes.get c = some ch' ∧
      ch'.parent = n.parent ∧
      ch'.partial_key = n.partial_key ++ inb :: ch.partial_key) ∧
    (match n.parent with
     | none => t'.root_index = some c
     | some (p, s) => ∃ pn', t'.nodes.get p = some pn' ∧ pn'.children s = some c) := by
  unfold StorageNodeAccess.remove at hrm
  dsimp only at hrm
  rw [hget] at hrm
  dsimp only at hrm
  by_cases hcount : 2 ≤ countChildren n.children
  · rw [if_pos hcount] at hrm; simp at hrm
  rw [if_neg hcount] at hrm
  rw [hchild] at hrm
  dsimp only at hrm
  by_cases hci : c = i
  · rw [hci, Slab.get_removeAt_self] at hrm
    dsimp only at hrm
    simp at hrm
  rw [Slab.get_removeAt_ne t.nodes i c hci, hch] at hrm
  dsimp only at hrm
  rw [hpar] at hrm
  dsimp only at hrm
  have hclen : c < t.nodes.entries.length := Slab.get_lt_length hch
  have hclen1 : c < (t.nodes.removeAt i).entries.length := by
    rw [Slab.length_removeAt]; exact hclen
  cases hp : n.parent with
  | none =>
    rw [hp] at hrm
    dsimp only at hrm
    rw [Slab.get_setAt_self _ c _ hclen1] at hrm
    dsimp only at hrm
    simp only [Option.some.injEq, Prod.mk.injEq] at hrm
    obtain ⟨-, ht'⟩ := hrm
    subst ht'
    constructor
    · exact ⟨_, Slab.get_setAt_self _ c _ hclen1, rfl, rfl⟩
    · rfl
  | some ps =>
    obtain ⟨p, s⟩ := ps
    rw [hp] at hrm
    dsimp only at hrm
    by_cases hpc : p = c
    · exact absurd hp (hpc ▸ hparent_not_child s)
    · rw [Slab.get_setAt_ne _ c p _ hpc] at hrm
      by_cases hpi : p = i
      · rw [hpi, Slab.get_removeAt_self] at hrm
        simp at hrm
      rw [Slab.get_removeAt_ne t.nodes i p hpi] at hrm
      cases hgp : t.nodes.get p with
      | none => rw [hgp] at hrm; simp at hrm
      | some pn =>
        rw [hgp] at hrm
        dsimp only at hrm
        have hplen : p < t.nodes.entries.length := Slab.get_lt_length hgp
        by_cases hcond : pn.has_storage_value = true ∨
            2 ≤ countChildren fun j => if j = s then some c else pn.children j
        · rw [if_pos hcond] at hrm
          cases hgc : (((t.nodes.removeAt i).setAt c
              { parent := some (p, s), partial_key := n.partial_key ++ inb :: ch.partial_key,
                children := ch.children, has_storage_value := ch.has_storage_value,
                user_data := ch.user_data }).setAt p
              { parent := pn.parent, partial_key := pn.partial_key,
                children := fun j => if j = s then some c else pn.children j,
                has_storage_value := pn.has_storage_value,
                user_data := pn.user_data }).get c with
          | none =>
            rw [Slab.get_setAt_ne _ p c _ (fun hh => hpc hh.symm),
              Slab.get_setAt_self _ c _ hclen1] at hgc
            simp at hgc
          | some chres =>
            rw [hgc] at hrm
            dsimp only at hrm
            have hchres : chres =
                { parent := some (p, s), partial_key := n.partial_key ++ inb :: ch.partial_key,
                  children := ch.children, has_storage_value := ch.has_storage_value,
                  user_data := ch.user_data } := by
              rw [Slab.get_setAt_ne _ p c _ (fun hh => hpc hh.symm),
                Slab.get_setAt_self _ c _ hclen1] at hgc
              exact (Option.some.inj hgc).symm
            simp only [Option.some.injEq, Prod.mk.injEq] at hrm
            obtain ⟨-, ht'⟩ := hrm
            subst ht'
            constructor
            · refine ⟨chres, ?_, ?_, ?_⟩
              · rw [Slab.get_setAt_ne _ p c _ (fun hh => hpc hh.symm), hchres]
                exact Slab.get_setAt_self _ c _ hclen1
              · rw [hchres]
              · rw [hchres]
            · refine ⟨_, Slab.get_setAt_self _ p _ (by
                  rw [Slab.length_setAt, Slab.length_removeAt]; exact hplen), ?_⟩
              simp
        · rw [if_neg hcond] at hrm
          repeat' split at hrm
          all_goals simp at hrm

/-- Witness for `c5_amended`: removing `[1,2]` from the explicit chain trie
re-parents node 2 under the root with partial key `[] ++ 3 :: [] = [3]`, and
the root's child slot 2 now points to node 2. -/
theorem c5_witness :
    (∃ ch', tChainRemoved.nodes.get 2 = some ch' ∧
      ch'.parent = chainNode1.parent ∧
      ch'.partial_key = chainNode1.partial_key ++ 3 :: chainNode2.partial_key) ∧
    (∃ pn', tChainRemoved.nodes.get 0 = some pn' ∧ pn'.children 2 = some 2) :=
  c5_amended tChain 1 2 1 chainNode1 chainNode2 3 (.Storage 2) () tChainRemoved
    rfl rfl rfl rfl (by decide) rfl

/-! ## Evaluating the child re-parenting loop -/

theorem reparent_fold_all_none {TUd : Type} (children : Fin 16 → Option Nat)
    (new_parent plen : Nat) :
    ∀ (l : List (Fin 16)) (acc : Slab (Node TUd)), (∀ ci ∈ l, children ci = none) →
      List.foldlM (fun acc ci =>
        match children ci with
        | none => some acc
        | some c =>
          match acc.get c with
          | none => none
          | some child =>
            if plen + 1 ≤ child.partial_key.length then
              some (acc.setAt c {
                child with
                parent := some (new_parent, ci),
                partial_key := child.partial_key.drop (plen + 1) })
            else none) acc l = some acc := by
  intro l
  induction l with
  | nil => intro acc h; rfl
  | cons hd tl ih =>
    intro acc h
    have hhd : children hd = none := h hd (List.mem_cons_self hd tl)
    rw [List.foldlM_cons, hhd]
    rw [Option.bind_eq_bind, Option.some_bind]
    exact ih acc (fun ci hci => h ci (List.mem_cons_of_mem hd hci))

/-- When no child slot is linked, the re-parenting loop of the commit
functions leaves the arena unchanged. -/
theorem updateChildrenParents_all_none {TUd : Type} (nodes : Slab (Node TUd))
    (children : Fin 16 → Option Nat) (np plen : Nat)
    (hnone : ∀ ci, children ci = none) :
    updateChildrenParents nodes children np plen = some nodes := by
  unfold updateChildrenParents
  exact reparent_fold_all_none children np plen (List.finRange 16) nodes
    (fun ci _ => hnone ci)

/-- With exactly one linked child (`X` at nibble `cx`), the re-parenting loop
rewrites exactly that node's parent and partial key. -/
theorem updateChildrenParents_single {TUd : Type} (nodes : Slab (Node TUd)) (X : Nat)
    (cx : Nibble) (np plen : Nat) (xnode : Node TUd)
    (hx : nodes.get X = some xnode) (hlen : plen + 1 ≤ xnode.partial_key.length) :
    updateChildrenParents nodes (fun j => if j = cx then some X else none) np plen =
      some (nodes.setAt X {
        xnode with
        parent := some (np, cx),
        partial_key := xnode.partial_key.drop (plen + 1) }) := by
  unfold updateChildrenParents
  obtain ⟨l1, l2, hsplit⟩ := List.append_of_mem (List.mem_finRange cx)
  have hnd := List.nodup_finRange 16
  rw [hsplit, List.nodup_append] at hnd
  obtain ⟨h1, h2, h3⟩ := hnd
  have hcx1 : cx ∉ l1 := fun hm => h3 hm (List.mem_cons_self cx l2)
  have hcx2 : cx ∉ l2 := (List.nodup_cons.mp h2).1
  rw [hsplit, List.foldlM_append,
    reparent_fold_all_none _ np plen l1 nodes
      (fun ci hci => by
        show (if ci = cx then some X else none) = none
        rw [if_neg (show ¬ci = cx from fun he => hcx1 (he ▸ hci))]),
    Option.bind_eq_bind, Option.some_bind, List.foldlM_cons]
  dsimp only
  rw [if_pos (rfl : cx = cx)]
  dsimp only
  rw [hx]
  dsimp only
  rw [if_pos hlen, Option.bind_eq_bind, Option.some_bind]
  exact reparent_fold_all_none _ np plen l2 _
    (fun ci hci => by
      show (if ci = cx then some X else none) = none
      rw [if_neg (show ¬ci = cx from fun he => hcx2 (he ▸ hci))])

/-! ## Divergence facts for the branch-split case -/

/-- If two lists agree up to position `len` and then disagree, the Rust
common-prefix loop stops at exactly `len`. -/
theorem commonLen_diverge : ∀ (len : Nat) (l1 l2 : List Nibble) (c1 c2 : Nibble),
    l1.take len = l2.take len → l1.get? len = some c1 → l2.get? len = some c2 →
    c1 ≠ c2 → commonLen l1 l2 = some len := by
  intro len
  induction len with
  | zero =>
    intro l1 l2 c1 c2 _ h1 h2 hne
    cases l1 with
    | nil => simp at h1
    | cons a as_ =>
      cases l2 with
      | nil => simp at h2
      | cons b bs =>
        simp only [List.get?] at h1 h2
        obtain rfl : a = c1 := Option.some.inj h1
        obtain rfl : b = c2 := Option.some.inj h2
        rw [commonLen, if_neg hne]
  | succ m ih =>
    intro l1 l2 c1 c2 htake h1 h2 hne
    cases l1 with
    | nil => simp at h1
    | cons a as_ =>
      cases l2 with
      | nil => simp at h2
      | cons b bs =>
        simp only [List.take, List.cons.injEq] at htake
        simp only [List.get?] at h1 h2
        rw [commonLen, if_pos htake.1, ih as_ bs c1 c2 htake.2 h1 h2 hne]
        rfl

/-- Under the same divergence, `l2` is not a prefix of `l1` (so
`l1.starts_with(l2)` is false). -/
theorem starts_with_diverge : ∀ (len : Nat) (l1 l2 : List Nibble) (c1 c2 : Nibble),
    l1.take len = l2.take len → l1.get? len = some c1 → l2.get? len = some c2 →
    c1 ≠ c2 → starts_with l1 l2 = false := by
  intro len
  induction len with
  | zero =>
    intro l1 l2 c1 c2 _ h1 h2 hne
    cases l1 with
    | nil => simp at h1
    | cons a as_ =>
      cases l2 with
      | nil => simp at h2
      | cons b bs =>
        simp only [List.get?] at h1 h2
        obtain rfl : a = c1 := Option.some.inj h1
        obtain rfl : b = c2 := Option.some.inj h2
        rw [starts_with]
        simp only [Bool.and_eq_false_iff]
        left
        exact decide_eq_false hne
  | succ m ih =>
    intro l1 l2 c1 c2 htake h1 h2 hne
    cases l1 with
    | nil => simp at h1
    | cons a as_ =>
      cases l2 with
      | nil => simp at h2
      | cons b bs =>
        simp only [List.take, List.cons.injEq] at htake
        simp only [List.get?] at h1 h2
        rw [starts_with]
        simp only [Bool.and_eq_false_iff]
        right
        exact ih as_ bs c1 c2 htake.2 h1 h2 hne

theorem prepareInsertTwo_insert_spec {TUd : Type} (t : TrieStructure TUd)
    (cs cx : Nibble) (spk bpk : List Nibble) (bp : Option (Nat × Nibble))
    (X : Nat) (xn : Node TUd) (u bud : TUd)
    (hX : t.nodes.get X = some xn)
    (hlen : bpk.length + 1 ≤ xn.partial_key.length)
    (hbp : match bp with
           | some (a, _) => a ≠ X ∧ ∃ an, t.nodes.get a = some an
           | none => True) :
    ∃ t' bIdx sIdx,
      PrepareInsertTwo.insert
        ⟨t, cs, spk, bp, bpk, fun j => if j = cx then some X else none⟩ u bud =
        some ⟨t', sIdx⟩ ∧
      bIdx ≠ sIdx ∧ X ≠ bIdx ∧ X ≠ sIdx ∧
      t.nodes.get bIdx = none ∧ t.nodes.get sIdx = none ∧
      bIdx = Slab.firstVacant t.nodes.entries ∧
      t'.nodes.get bIdx = some {
        parent := bp, partial_key := bpk,
        children := fun j => if j = cs then some sIdx
          else if j = cx then some X else none,
        has_storage_value := false, user_data := bud } ∧
      t'.nodes.get sIdx = some {
        parent := some (bIdx, cs), partial_key := spk,
        children := fun _ => none, has_storage_value := true, user_data := u } ∧
      t'.nodes.get X = some {
        xn with
        parent := some (bIdx, cx),
        partial_key := xn.partial_key.drop (bpk.length + 1) } ∧
      (match bp with
       | some (a, ac) =>
         (∃ an, t.nodes.get a = some an ∧ t'.nodes.get a =
           some { an with children := fun j => if j = ac then some bIdx else an.children j }) ∧
         t'.root_index = t.root_index
       | none => t'.root_index = some bIdx) ∧
      (∀ j, j ≠ bIdx → j ≠ sIdx → j ≠ X →
        (match bp with | some (a, _) => j ≠ a | none => True) →
        t'.nodes.get j = t.nodes.get j) := by
  obtain ⟨nodes1, bIdx, hn1⟩ :
      ∃ ns b, t.nodes.insertNew
        { parent := bp, partial_key := bpk,
          children := fun j => if j = cx then some X else none,
          has_storage_value := false, user_data := bud } = (ns, b) := ⟨_, _, rfl⟩
  obtain ⟨nodes2, sIdx, hn2⟩ :
      ∃ ns sid, nodes1.insertNew
        { parent := some (bIdx, cs), partial_key := spk,
          children := fun _ => none,
          has_storage_value := true, user_data := u } = (ns, sid) := ⟨_, _, rfl⟩
  have hbfresh : t.nodes.get bIdx = none := by
    have := Slab.get_insertNew_idx_before t.nodes
      { parent := bp, partial_key := bpk,
        children := fun j => if j = cx then some X else none,
        has_storage_value := false, user_data := bud }
    rwa [hn1] at this
  have hb1 : nodes1.get bIdx = some
      { parent := bp, partial_key := bpk,
        children := fun j => if j = cx then some X else none,
        has_storage_value := false, user_data := bud } := by
    have := Slab.get_insertNew_self t.nodes
      { parent := bp, partial_key := bpk,
        children := fun j => if j = cx then some X else none,
        has_storage_value := false, user_data := bud }
    rwa [hn1] at this
  have hsfresh1 : nodes1.get sIdx = none := by
    have := Slab.get_insertNew_idx_before nodes1
      { parent := some (bIdx, cs), partial_key := spk,
        children := fun _ => none,
        has_storage_value := true, user_data := u }
    rwa [hn2] at this
  have hbs : bIdx ≠ sIdx := fun he => by rw [he, hsfresh1] at hb1; exact Option.noConfusion hb1
  have hXb : X ≠ bIdx := fun he => by rw [he, hbfresh] at hX; exact Option.noConfusion hX
  have hn1X : nodes1.get X = some xn := by
    have := Slab.get_insertNew_ne t.nodes
      { parent := bp, partial_key := bpk,
        children := fun j => if j = cx then some X else none,
        has_storage_value := false, user_data := bud } X (by rw [hn1]; exact hXb)
    rw [hn1] at this
    rw [this, hX]
  have hXs : X ≠ sIdx := fun he => by rw [he, hsfresh1] at hn1X; exact Option.noConfusion hn1X
  have hsfresh : t.nodes.get sIdx = none := by
    have := Slab.get_insertNew_ne t.nodes
      { parent := bp, partial_key := bpk,
        children := fun j => if j = cx then some X else none,
        has_storage_value := false, user_data := bud } sIdx (by rw [hn1]; exact fun he => hbs he.symm)
    rw [hn1] at this
    rw [← this, hsfresh1]
  have hs2 : nodes2.get sIdx = some
      { parent := some (bIdx, cs), partial_key := spk,
        children := fun _ => none, has_storage_value := true, user_data := u } := by
    have := Slab.get_insertNew_self nodes1
      { parent := some (bIdx, cs), partial_key := spk,
        children := fun _ => none, has_storage_value := true, user_data := u }
    rwa [hn2] at this
  have hb2 : nodes2.get bIdx = some
      { parent := bp, partial_key := bpk,
        children := fun j => if j = cx then some X else none,
        has_storage_value := false, user_data := bud } := by
    have := Slab.get_insertNew_ne nodes1
      { parent := some (bIdx, cs), partial_key := spk,
        children := fun _ => none, has_storage_value := true, user_data := u } bIdx
        (by rw [hn2]; exact hbs)
    rw [hn2] at this
    rw [this, hb1]
  have hX2 : nodes2.get X = some xn := by
    have := Slab.get_insertNew_ne nodes1
      { parent := some (bIdx, cs), partial_key := spk,
        children := fun _ => none, has_storage_value := true, user_data := u } X
        (by rw [hn2]; exact hXs)
    rw [hn2] at this
    rw [this, hn1X]
  unfold PrepareInsertTwo.insert
  dsimp only
  rw [hn1]
  dsimp only
  rw [hn2]
  dsimp only
  rw [hb2]
  dsimp only
  rw [updateChildrenParents_single (nodes2.setAt bIdx
      { parent := bp, partial_key := bpk,
        children := fun j => if j = cs then some sIdx else if j = cx then some X else none,
        has_storage_value := false, user_data := bud })
      X cx bIdx bpk.length xn
      (by rw [Slab.get_setAt_ne _ _ _ _ hXb]; exact hX2) hlen]
  dsimp only
  have hlenX : X < (nodes2.setAt bIdx
      { parent := bp, partial_key := bpk,
        children := fun j => if j = cs then some sIdx else if j = cx then some X else none,
        has_storage_value := false, user_data := bud }).entries.length := by
    rw [Slab.length_setAt]; exact Slab.get_lt_length hX2
  have hlenB : bIdx < nodes2.entries.length := Slab.get_lt_length hb2
  cases bp with
  | none =>
    refine ⟨_, bIdx, sIdx, rfl, hbs, hXb, hXs, hbfresh, hsfresh, ?_, ?_, ?_, ?_, ?_, ?_⟩
    · exact (congrArg Prod.snd hn1).symm
    · rw [Slab.get_setAt_ne _ _ _ _ (fun he => hXb he.symm)]
      exact Slab.get_setAt_self _ _ _ hlenB
    · rw [Slab.get_setAt_ne _ _ _ _ hXs.symm,
        Slab.get_setAt_ne _ _ _ _ (fun he => hbs he.symm)]
      exact hs2
    · exact Slab.get_setAt_self _ _ _ hlenX
    · rfl
    · intro j hjb hjs hjX _
      rw [Slab.get_setAt_ne _ _ _ _ hjX, Slab.get_setAt_ne _ _ _ _ hjb]
      have e2 := Slab.get_insertNew_ne nodes1
        { parent := some (bIdx, cs), partial_key := spk,
          children := fun _ => none, has_storage_value := true, user_data := u } j
          (by rw [hn2]; exact hjs)
      rw [hn2] at e2
      have e1 := Slab.get_insertNew_ne t.nodes
        { parent := none, partial_key := bpk,
          children := fun j => if j = cx then some X else none,
          has_storage_value := false, user_data := bud } j
          (by rw [hn1]; exact hjb)
      rw [hn1] at e1
      rw [e2, e1]
  | some pac =>
    obtain ⟨a, ac⟩ := pac
    obtain ⟨haX, an, han⟩ := hbp
    have hab : a ≠ bIdx := fun he => by rw [he, hbfresh] at han; exact Option.noConfusion han
    have has_ : a ≠ sIdx := fun he => by rw [he, hsfresh] at han; exact Option.noConfusion han
    have hga : ((nodes2.setAt bIdx
        { parent := some (a, ac), partial_key := bpk,
          children := fun j => if j = cs then some sIdx else if j = cx then some X else none,
          has_storage_value := false, user_data := bud }).setAt X
        { parent := some (bIdx, cx), partial_key := xn.partial_key.drop (bpk.length + 1),
          children := xn.children, has_storage_value := xn.has_storage_value,
          user_data := xn.user_data }).get a = some an := by
      rw [Slab.get_setAt_ne _ _ _ _ haX, Slab.get_setAt_ne _ _ _ _ hab]
      have e2 := Slab.get_insertNew_ne nodes1
        { parent := some (bIdx, cs), partial_key := spk,
          children := fun _ => none, has_storage_value := true, user_data := u } a
          (by rw [hn2]; exact has_)
      rw [hn2] at e2
      have e1 := Slab.get_insertNew_ne t.nodes
        { parent := some (a, ac), partial_key := bpk,
          children := fun j => if j = cx then some X else none,
          has_storage_value := false, user_data := bud } a
          (by rw [hn1]; exact hab)
      rw [hn1] at e1
      rw [e2, e1, han]
    dsimp only
    rw [hga]
    dsimp only
    have hlenA : a < (((nodes2.setAt bIdx
        { parent := some (a, ac), partial_key := bpk,
          children := fun j => if j = cs then some sIdx else if j = cx then some X else none,
          has_storage_value := false, user_data := bud }).setAt X
        { parent := some (bIdx, cx), partial_key := xn.partial_key.drop (bpk.length + 1),
          children := xn.children, has_storage_value := xn.has_storage_value,
          user_data := xn.user_data })).entries.length := Slab.get_lt_length hga
    refine ⟨_, bIdx, sIdx, rfl, hbs, hXb, hXs, hbfresh, hsfresh, ?_, ?_, ?_, ?_, ?_, ?_⟩
    · exact (congrArg Prod.snd hn1).symm
    · rw [Slab.get_setAt_ne _ _ _ _ hab.symm,
        Slab.get_setAt_ne _ _ _ _ (fun he => hXb he.symm)]
      exact Slab.get_setAt_self _ _ _ hlenB
    · rw [Slab.get_setAt_ne _ _ _ _ has_.symm,
        Slab.get_setAt_ne _ _ _ _ hXs.symm,
        Slab.get_setAt_ne _ _ _ _ (fun he => hbs he.symm)]
      exact hs2
    · rw [Slab.get_setAt_ne _ _ _ _ (fun he => haX he.symm)]
      exact Slab.get_setAt_self _ _ _ hlenX
    · exact ⟨⟨an, han, Slab.get_setAt_self _ _ _ hlenA⟩, rfl⟩
    · intro j hjb hjs hjX hja
      rw [Slab.get_setAt_ne _ _ _ _ hja, Slab.get_setAt_ne _ _ _ _ hjX,
        Slab.get_setAt_ne _ _ _ _ hjb]
      have e2 := Slab.get_insertNew_ne nodes1
        { parent := some (bIdx, cs), partial_key := spk,
          children := fun _ => none, has_storage_value := true, user_data := u } j
          (by rw [hn2]; exact hjs)
      rw [hn2] at e2
      have e1 := Slab.get_insertNew_ne t.nodes
        { parent := some (a, ac), partial_key := bpk,
          children := fun j => if j = cx then some X else none,
          has_storage_value := false, user_data := bud } j
          (by rw [hn1]; exact hjb)
      rw [hn1] at e1
      rw [e2, e1]

/-- In the branch-split (case D) situation — the key tail and the occupying
node's partial key agree for `len` nibbles and then both continue with
different nibbles — `Vacant::insert_storage_value`'s occupied-slot path
produces a two-node plan whose branch partial key is the common prefix, whose
storage child index is the diverging nibble of the key tail, and whose single
pre-linked child is the existing node at its diverging nibble.  Root form:
no future parent, the occupying node is the current root. -/
theorem prepare_with_existing_diverge_root {TUd : Type} (t : TrieStructure TUd)
    (key tail : List Nibble) (X : Nat) (xn : Node TUd)
    (len : Nat) (cs cx : Nibble)
    (hX : t.nodes.get X = some xn)
    (htail : key.drop 0 = tail)
    (htake : tail.take len = xn.partial_key.take len)
    (hcs : tail.get? len = some cs)
    (hcx : xn.partial_key.get? len = some cx)
    (hne : cs ≠ cx) :
    prepare_with_existing t key none X =
      some (.Two {
        trie := t, storage_child_index := cs,
        storage_partial_key := tail.drop (len + 1),
        branch_parent := none,
        branch_partial_key := tail.take len,
        branch_children := fun j => if j = cx then some X else none }) := by
  unfold prepare_with_existing
  rw [hX]
  dsimp only
  rw [htail]
  rw [starts_with_diverge len tail xn.partial_key cs cx htake hcs hcx hne,
    if_neg Bool.false_ne_true,
    commonLen_diverge len tail xn.partial_key cs cx htake hcs hcx hne]
  dsimp only
  rw [hcx]
  dsimp only
  rw [hcs]

/-- Same as `prepare_with_existing_diverge_root` with a future parent `a`
whose full-key length is `m`: the plan's branch parent is `(a, key[m])`. -/
theorem prepare_with_existing_diverge_child {TUd : Type} (t : TrieStructure TUd)
    (key tail : List Nibble) (a m : Nat) (X : Nat) (xn : Node TUd)
    (len : Nat) (cs cx c : Nibble)
    (hX : t.nodes.get X = some xn)
    (hkey : key.get? m = some c)
    (htail : key.drop (m + 1) = tail)
    (htake : tail.take len = xn.partial_key.take len)
    (hcs : tail.get? len = some cs)
    (hcx : xn.partial_key.get? len = some cx)
    (hne : cs ≠ cx) :
    prepare_with_existing t key (some (a, m)) X =
      some (.Two {
        trie := t, storage_child_index := cs,
        storage_partial_key := tail.drop (len + 1),
        branch_parent := some (a, c),
        branch_partial_key := tail.take len,
        branch_children := fun j => if j = cx then some X else none }) := by
  unfold prepare_with_existing
  rw [hX]
  dsimp only
  rw [htail]
  rw [starts_with_diverge len tail xn.partial_key cs cx htake hcs hcx hne,
    if_neg Bool.false_ne_true,
    commonLen_diverge len tail xn.partial_key cs cx htake hcs hcx hne]
  dsimp only
  rw [hcx]
  dsimp only
  rw [hcs]
  dsimp only
  rw [hkey]

/-- Claim C6: case D insertion (the remaining key tail and the occupying node
`X`'s partial key share a proper common prefix of length `len` and then
diverge at nibbles `cs` ≠ `cx`).  Preparing yields a two-node plan and
committing it creates exactly two new nodes: a branch node at a fresh arena
slot (the first free slot of the pre-state arena, so it is allocated before
the storage node) whose partial key is the common prefix, placed where `X`
used to attach (the ancestor's child slot, or the root); a fresh storage node
whose partial key is the key tail's suffix beyond the diverging nibble; the
branch's children at the two diverging nibbles are the storage node (at `cs`,
the slot filled in after the storage node is allocated) and `X` (at `cx`,
with its partial key shortened by `len + 1`); and every other slot of the
arena is unchanged. -/
theorem c6_branch_split {TUd : Type} (t : TrieStructure TUd)
    (key tail : List Nibble) (fp : Option (Nat × Nat)) (X : Nat) (xn : Node TUd)
    (len : Nat) (cs cx c : Nibble) (u bud : TUd)
    (hX : t.nodes.get X = some xn)
    (htail : key.drop (match fp with | some (_, m) => m + 1 | none => 0) = tail)
    (htake : tail.take len = xn.partial_key.take len)
    (hcs : tail.get? len = some cs)
    (hcx : xn.partial_key.get? len = some cx)
    (hne : cs ≠ cx)
    (hfp : match fp with
           | some (a, m) => key.get? m = some c ∧ a ≠ X ∧ ∃ an, t.nodes.get a = some an
           | none => True) :
    ∃ t' bIdx sIdx,
      prepare_with_existing t key fp X = some (.Two {
        trie := t, storage_child_index := cs,
        storage_partial_key := tail.drop (len + 1),
        branch_parent := match fp with | some (a, _) => some (a, c) | none => none,
        branch_partial_key := tail.take len,
        branch_children := fun j => if j = cx then some X else none }) ∧
      PrepareInsertTwo.insert {
        trie := t, storage_child_index := cs,
        storage_partial_key := tail.drop (len + 1),
        branch_parent := match fp with | some (a, _) => some (a, c) | none => none,
        branch_partial_key := tail.take len,
        branch_children := fun j => if j = cx then some X else none } u bud =
        some ⟨t', sIdx⟩ ∧
      bIdx ≠ sIdx ∧ X ≠ bIdx ∧ X ≠ sIdx ∧
      t.nodes.get bIdx = none ∧ t.nodes.get sIdx = none ∧
      bIdx = Slab.firstVacant t.nodes.entries ∧
      t'.nodes.get bIdx = some {
        parent := match fp with | some (a, _) => some (a, c) | none => none,
        partial_key := tail.take len,
        children := fun j => if j = cs then some sIdx
          else if j = cx then some X else none,
        has_storage_value := false, user_data := bud } ∧
      t'.nodes.get sIdx = some {
        parent := some (bIdx, cs), partial_key := tail.drop (len + 1),
        children := fun _ => none, has_storage_value := true, user_data := u } ∧
      t'.nodes.get X = some {
        xn with
        parent := some (bIdx, cx),
        partial_key := xn.partial_key.drop ((tail.take len).length + 1) } ∧
      (match fp with
       | some (a, _) =>
         (∃ an, t.nodes.get a = some an ∧ t'.nodes.get a =
           some { an with children := fun j => if j = c then some bIdx else an.children j }) ∧
         t'.root_index = t.root_index
       | none => t'.root_index = some bIdx) ∧
      (∀ j, j ≠ bIdx → j ≠ sIdx → j ≠ X →
        (match fp with | some (a, _) => j ≠ a | none => True) →
        t'.nodes.get j = t.nodes.get j) := by
  have hlenx : len + 1 ≤ xn.partial_key.length := by
    obtain ⟨h, -⟩ := List.get?_eq_some.mp hcx
    omega
  have hlent : len < tail.length := by
    obtain ⟨h, -⟩ := List.get?_eq_some.mp hcs
    omega
  have hlentake : (tail.take len).length = len := by
    rw [List.length_take]
    omega
  cases fp with
  | none =>
    have hprep := prepare_with_existing_diverge_root t key tail X xn len cs cx
      hX htail htake hcs hcx hne
    obtain ⟨t', bIdx, sIdx, hins, hrest⟩ :=
      prepareInsertTwo_insert_spec t cs cx (tail.drop (len + 1)) (tail.take len)
        none X xn u bud hX (by rw [hlentake]; exact hlenx) trivial
    exact ⟨t', bIdx, sIdx, hprep, hins, hrest⟩
  | some am =>
    obtain ⟨a, m⟩ := am
    obtain ⟨hkey, haX, han⟩ := hfp
    have hprep := prepare_with_existing_diverge_child t key tail a m X xn len cs cx c
      hX hkey htail htake hcs hcx hne
    obtain ⟨t', bIdx, sIdx, hins, hrest⟩ :=
      prepareInsertTwo_insert_spec t cs cx (tail.drop (len + 1)) (tail.take len)
        (some (a, c)) X xn u bud hX (by rw [hlentake]; exact hlenx) ⟨haX, han⟩
    exact ⟨t', bIdx, sIdx, hprep, hins, hrest⟩

/-- Witness for `c6_branch_split` at the one-node trie `{[1,2,3]}` and key
`[1,2,5]` (spec §8 scenario 2): the tail `[1,2,5]` and the root's partial key
`[1,2,3]` share the prefix `[1,2]` and diverge at `5` ≠ `3`. -/
theorem c6_witness :
    ∃ t' bIdx sIdx,
      prepare_with_existing t123 [1, 2, 5] none 0 = some (.Two {
        trie := t123, storage_child_index := 5,
        storage_partial_key := ([1, 2, 5] : List Nibble).drop 3,
        branch_parent := none,
        branch_partial_key := ([1, 2, 5] : List Nibble).take 2,
        branch_children := fun j => if j = 3 then some 0 else none }) ∧
      PrepareInsertTwo.insert {
        trie := t123, storage_child_index := 5,
        storage_partial_key := ([1, 2, 5] : List Nibble).drop 3,
        branch_parent := none,
        branch_partial_key := ([1, 2, 5] : List Nibble).take 2,
        branch_children := fun j => if j = 3 then some 0 else none } () () =
        some ⟨t', sIdx⟩ ∧
      t'.root_index = some bIdx ∧ bIdx ≠ sIdx ∧ t123.nodes.get bIdx = none := by
  obtain ⟨t', bIdx, sIdx, h1, h2, hbs, _, _, hfb, _, _, _, _, _, hroot, _⟩ :=
    c6_branch_split t123 [1, 2, 5] [1, 2, 5] none 0
      { parent := none, partial_key := [1, 2, 3], children := fun _ => none,
        has_storage_value := true, user_data := () } 2 5 3 0 () ()
      rfl rfl rfl rfl rfl (by decide) trivial
  exact ⟨t', bIdx, sIdx, h1, h2, hroot, hbs, hfb⟩

/-! ## The full-key relation

`FullKeyD t i fk seen` says: walking the parent links from node `i` to a
parentless node visits exactly the slots in `seen` (from `i` up to the root)
and reconstructs the full key `fk` — the relational counterpart of
`TrieStructure::node_full_key`. -/

inductive FullKeyD {TUd : Type} (t : TrieStructure TUd) : Nat → List Nibble → List Nat → Prop where
  | root {i : Nat} {n : Node TUd} :
      t.nodes.get i = some n → n.parent = none → FullKeyD t i n.partial_key [i]
  | child {p : Nat} {fp : List Nibble} {seen : List Nat} {i : Nat} {n : Node TUd} {c : Nibble} :
      FullKeyD t p fp seen → t.nodes.get i = some n → n.parent = some (p, c) →
      FullKeyD t i (fp ++ c :: n.partial_key) (i :: seen)

/-- A node's full key: some parent walk reconstructs it. -/
def FullKey {TUd : Type} (t : TrieStructure TUd) (i : Nat) (fk : List Nibble) : Prop :=
  ∃ seen, FullKeyD t i fk seen

theorem FullKeyD_occupied {TUd : Type} {t : TrieStructure TUd} {i : Nat} {fk : List Nibble}
    {seen : List Nat} (h : FullKeyD t i fk seen) : ∃ n, t.nodes.get i = some n := by
  cases h with
  | root hg _ => exact ⟨_, hg⟩
  | child _ hg _ => exact ⟨_, hg⟩

/-- The walk is deterministic: a node has at most one full key. -/
theorem FullKeyD_functional {TUd : Type} {t : TrieStructure TUd} :
    ∀ {i : Nat} {f1 : List Nibble} {s1 : List Nat}, FullKeyD t i f1 s1 →
    ∀ {f2 : List Nibble} {s2 : List Nat}, FullKeyD t i f2 s2 → f1 = f2 := by
  intro i f1 s1 h1
  induction h1 with
  | root hg hp =>
    intro f2 s2 h2
    cases h2 with
    | root hg2 hp2 => rw [hg] at hg2; cases Option.some.inj hg2; rfl
    | child _ hg2 hp2 =>
      rw [hg] at hg2; cases Option.some.inj hg2; rw [hp] at hp2; exact absurd hp2 (by simp)
  | child h1p hg hp ih =>
    intro f2 s2 h2
    cases h2 with
    | root hg2 hp2 =>
      rw [hg] at hg2; cases Option.some.inj hg2; rw [hp] at hp2; exact absurd hp2 (by simp)
    | child h2p hg2 hp2 =>
      rw [hg] at hg2; cases Option.some.inj hg2
      rw [hp] at hp2
      obtain ⟨rfl, rfl⟩ : _ ∧ _ := by
        have := Option.some.inj hp2
        exact ⟨congrArg Prod.fst this, congrArg Prod.snd this⟩
      rw [ih h2p]

theorem FullKey_functional {TUd : Type} {t : TrieStructure TUd} {i : Nat}
    {f1 f2 : List Nibble} (h1 : FullKey t i f1) (h2 : FullKey t i f2) : f1 = f2 := by
  obtain ⟨s1, h1⟩ := h1
  obtain ⟨s2, h2⟩ := h2
  exact FullKeyD_functional h1 h2

/-- With fuel the length of the visited chain, the executable walk
reconstructs the relational full key. -/
theorem node_full_key_aux_of_FullKeyD {TUd : Type} {t : TrieStructure TUd} :
    ∀ {i : Nat} {fk : List Nibble} {seen : List Nat}, FullKeyD t i fk seen →
      node_full_key_aux t seen.length i = some fk := by
  intro i fk seen h
  induction h with
  | root hg hp => simp [node_full_key_aux, hg, hp]
  | child h1p hg hp ih =>
    rw [List.length_cons, node_full_key_aux, hg]
    dsimp only
    rw [hp]
    dsimp only
    rw [ih]
    rfl

/-- More fuel never hurts the executable walk. -/
theorem node_full_key_aux_mono {TUd : Type} (t : TrieStructure TUd) :
    ∀ (f g i : Nat) (fk : List Nibble), node_full_key_aux t f i = some fk → f ≤ g →
      node_full_key_aux t g i = some fk := by
  intro f
  induction f with
  | zero => intro g i fk h; simp [node_full_key_aux] at h
  | succ f ih =>
    intro g i fk h hle
    cases g with
    | zero => omega
    | succ g =>
      rw [node_full_key_aux] at h
      rw [node_full_key_aux]
      cases hg : t.nodes.get i with
      | none => rw [hg] at h; exact absurd h (by simp)
      | some n =>
        rw [hg] at h
        dsimp only at h ⊢
        cases hp : n.parent with
        | none => rw [hp] at h; dsimp only; exact h
        | some pc =>
          obtain ⟨p, c⟩ := pc
          rw [hp] at h
          dsimp only at h ⊢
          cases hrec : node_full_key_aux t f p with
          | none => rw [hrec] at h; exact absurd h (by simp)
          | some fp =>
            rw [ih g p fp hrec (by omega)]
            rw [hrec] at h
            exact h

/-! ## The structural well-formedness invariant -/

/-- The inductive invariant of the trie structure: the root exists and is the
unique parentless node, parent and child links are mutually coherent, the
parent relation admits a ranking (so it is acyclic), every branch node has at
least two children, and full keys identify nodes uniquely. -/
structure WF {TUd : Type} (t : TrieStructure TUd) : Prop where
  root_node : ∀ r, t.root_index = some r → ∃ n, t.nodes.get r = some n ∧ n.parent = none
  no_root_empty : t.root_index = none → ∀ i, t.nodes.get i = none
  parentless_root : ∀ i n, t.nodes.get i = some n → n.parent = none → t.root_index = some i
  parent_child : ∀ i n p k, t.nodes.get i = some n → n.parent = some (p, k) →
    ∃ m, t.nodes.get p = some m ∧ m.children k = some i
  child_parent : ∀ i n k j, t.nodes.get i = some n → n.children k = some j →
    ∃ m, t.nodes.get j = some m ∧ m.parent = some (i, k)
  rank_exists : ∃ rk : Nat → Nat, ∀ i n p k, t.nodes.get i = some n →
    n.parent = some (p, k) → rk p < rk i
  branch_two : ∀ i n, t.nodes.get i = some n → n.has_storage_value = false →
    2 ≤ countChildren n.children
  fullkey_inj : ∀ i j fi fj, FullKey t i fi → FullKey t j fj → fi = fj → i = j

/-- The chain starts at the node itself, and under a ranking all strictly
later chain entries have smaller rank. -/
theorem FullKeyD_seen_shape {TUd : Type} {t : TrieStructure TUd} (rk : Nat → Nat)
    (hrk : ∀ i n p k, t.nodes.get i = some n → n.parent = some (p, k) → rk p < rk i) :
    ∀ {i : Nat} {fk : List Nibble} {seen : List Nat}, FullKeyD t i fk seen →
      ∃ rest, seen = i :: rest ∧ ∀ j ∈ rest, rk j < rk i := by
  intro i fk seen h
  induction h with
  | root hg hp => exact ⟨[], rfl, by simp⟩
  | child hpar hg hp ih =>
    obtain ⟨rest, hr, hlt⟩ := ih
    refine ⟨_, rfl, ?_⟩
    intro j hj
    rw [hr] at hj
    have hpi := hrk _ _ _ _ hg hp
    rcases List.mem_cons.mp hj with rfl | hj'
    · exact hpi
    · exact lt_trans (hlt j hj') hpi

theorem FullKeyD_nodup {TUd : Type} {t : TrieStructure TUd} (rk : Nat → Nat)
    (hrk : ∀ i n p k, t.nodes.get i = some n → n.parent = some (p, k) → rk p < rk i) :
    ∀ {i : Nat} {fk : List Nibble} {seen : List Nat}, FullKeyD t i fk seen →
      seen.Nodup := by
  intro i fk seen h
  induction h with
  | root hg hp => simp
  | child hpar hg hp ih =>
    rw [List.nodup_cons]
    refine ⟨?_, ih⟩
    intro hmem
    obtain ⟨rest, hr, hlt⟩ := FullKeyD_seen_shape rk hrk hpar
    have hpi := hrk _ _ _ _ hg hp
    rw [hr] at hmem
    rcases List.mem_cons.mp hmem with rfl | hmem'
    · omega
    · have := hlt _ hmem'
      omega

theorem FullKeyD_mem_occupied {TUd : Type} {t : TrieStructure TUd} :
    ∀ {i : Nat} {fk : List Nibble} {seen : List Nat}, FullKeyD t i fk seen →
      ∀ j ∈ seen, ∃ n, t.nodes.get j = some n := by
  intro i fk seen h
  induction h with
  | root hg hp => intro j hj; rw [List.mem_singleton] at hj; exact hj ▸ ⟨_, hg⟩
  | child hpar hg hp ih =>
    intro j hj
    rcases List.mem_cons.mp hj with rfl | hj'
    · exact ⟨_, hg⟩
    · exact ih j hj'

theorem nodup_length_le_of_lt : ∀ (l : List Nat) (L : Nat), l.Nodup →
    (∀ j ∈ l, j < L) → l.length ≤ L := by
  intro l L hnd hlt
  have h1 : l.toFinset.card = l.length := List.toFinset_card_of_nodup hnd
  have h2 : l.toFinset ⊆ Finset.range L := by
    intro x hx
    rw [List.mem_toFinset] at hx
    exact Finset.mem_range.mpr (hlt x hx)
  have := Finset.card_le_card h2
  rw [h1, Finset.card_range] at this
  exact this

/-- Under the invariant, the executable `node_full_key` computes exactly the
relational full key: the default fuel (arena size + 1) always suffices. -/
theorem node_full_key_of_FullKeyD {TUd : Type} {t : TrieStructure TUd} (hwf : WF t)
    {i : Nat} {fk : List Nibble} {seen : List Nat} (h : FullKeyD t i fk seen) :
    node_full_key t i = some fk := by
  obtain ⟨rk, hrk⟩ := hwf.rank_exists
  have h1 := node_full_key_aux_of_FullKeyD h
  have hnd := FullKeyD_nodup rk hrk h
  have hocc := FullKeyD_mem_occupied h
  have hbound : seen.length ≤ t.nodes.entries.length := by
    apply nodup_length_le_of_lt _ _ hnd
    intro j hj
    obtain ⟨n, hn⟩ := hocc j hj
    exact Slab.get_lt_length hn
  exact node_full_key_aux_mono t seen.length _ i fk h1 (by omega)

theorem FullKey_node_full_key {TUd : Type} {t : TrieStructure TUd} (hwf : WF t)
    {i : Nat} {fk : List Nibble} (h : FullKey t i fk) : node_full_key t i = some fk := by
  obtain ⟨seen, h⟩ := h
  exact node_full_key_of_FullKeyD hwf h

/-- Converse, needing no invariant: a successful executable walk is a
relational full key. -/
theorem FullKey_of_aux {TUd : Type} (t : TrieStructure TUd) :
    ∀ (f i : Nat) (fk : List Nibble), node_full_key_aux t f i = some fk →
      FullKey t i fk := by
  intro f
  induction f with
  | zero => intro i fk h; simp [node_full_key_aux] at h
  | succ f ih =>
    intro i fk h
    rw [node_full_key_aux] at h
    cases hg : t.nodes.get i with
    | none => rw [hg] at h; exact absurd h (by simp)
    | some n =>
      rw [hg] at h
      dsimp only at h
      cases hp : n.parent with
      | none =>
        rw [hp] at h
        dsimp only at h
        obtain rfl := Option.some.inj h
        exact ⟨[i], .root hg hp⟩
      | some pc =>
        obtain ⟨p, c⟩ := pc
        rw [hp] at h
        dsimp only at h
        cases hrec : node_full_key_aux t f p with
        | none => rw [hrec] at h; exact absurd h (by simp)
        | some fp =>
          rw [hrec] at h
          obtain rfl : fp ++ c :: n.partial_key = fk := Option.some.inj h
          obtain ⟨seen, hd⟩ := ih p fp hrec
          exact ⟨i :: seen, .child hd hg hp⟩

/-- Every occupied slot has a full key (the parent walk terminates). -/
theorem WF.fullKey_exists {TUd : Type} {t : TrieStructure TUd} (hwf : WF t) :
    ∀ i n, t.nodes.get i = some n → ∃ fk, FullKey t i fk := by
  obtain ⟨rk, hrk⟩ := hwf.rank_exists
  suffices H : ∀ N i n, rk i < N → t.nodes.get i = some n → ∃ fk, FullKey t i fk by
    intro i n h
    exact H (rk i + 1) i n (by omega) h
  intro N
  induction N with
  | zero => intro i n h; omega
  | succ N ih =>
    intro i n hlt hg
    cases hp : n.parent with
    | none => exact ⟨n.partial_key, [i], .root hg hp⟩
    | some pc =>
      obtain ⟨p, c⟩ := pc
      obtain ⟨m, hm, -⟩ := hwf.parent_child i n p c hg hp
      have hrkp := hrk i n p c hg hp
      obtain ⟨fp, seen, hd⟩ := ih p m (by omega) hm
      exact ⟨fp ++ c :: n.partial_key, i :: seen, .child hd hg hp⟩

/-! ## Decomposition facts about the partial-key stripping -/

theorem stripMatch_append_self : ∀ (pk s : List Nibble), stripMatch pk (pk ++ s) = some s := by
  intro pk
  induction pk with
  | nil => intro s; rfl
  | cons p ps ih => intro s; simp [stripMatch, ih]

theorem stripMatch_some_decompose : ∀ (pk key rest : List Nibble),
    stripMatch pk key = some rest → key = pk ++ rest := by
  intro pk
  induction pk with
  | nil => intro key rest h; simp [stripMatch] at h; simp [h]
  | cons p ps ih =>
    intro key rest h
    cases key with
    | nil => simp [stripMatch] at h
    | cons k ks =>
      simp only [stripMatch] at h
      by_cases hk : k = p
      · subst hk
        simp only [if_pos rfl] at h
        rw [List.cons_append, ih ks rest h]
      · simp [hk] at h

/-- A failed strip is either the key ending mid-partial-key (the key is a
proper prefix of the partial key) or a genuine nibble divergence. -/
theorem stripMatch_none_cases : ∀ (pk key : List Nibble), stripMatch pk key = none →
    ∃ len, key.take len = pk.take len ∧
      ((len = key.length ∧ key.length < pk.length) ∨
       (∃ c1 c2, key.get? len = some c1 ∧ pk.get? len = some c2 ∧ c1 ≠ c2)) := by
  intro pk
  induction pk with
  | nil => intro key h; simp [stripMatch] at h
  | cons p ps ih =>
    intro key h
    cases key with
    | nil =>
      exact ⟨0, by simp, Or.inl ⟨rfl, by simp⟩⟩
    | cons k ks =>
      simp only [stripMatch] at h
      by_cases hk : k = p
      · subst hk
        simp only [if_pos rfl] at h
        obtain ⟨len, htake, hdisj⟩ := ih ks h
        refine ⟨len + 1, by simp [htake], ?_⟩
        rcases hdisj with ⟨h1, h2⟩ | ⟨c1, c2, h1, h2, h3⟩
        · exact Or.inl ⟨by simp [h1], by simp; omega⟩
        · exact Or.inr ⟨c1, c2, by simpa using h1, by simpa using h2, h3⟩
      · exact ⟨0, by simp, Or.inr ⟨k, p, rfl, rfl, hk⟩⟩

/-! ## Relating the lookup loop to full keys -/

/-- What the descent loop does at node `j` once `j`'s partial key has been
consumed, with `fuel` left for the rest of the descent. -/
def afterNode {TUd : Type} (t : TrieStructure TUd) (fuel j : Nat) (s : List Nibble) :
    Option ExistingNodeInnerResult :=
  match t.nodes.get j with
  | none => none
  | some nj =>
    match s with
    | [] => some (.Found j nj.has_storage_value)
    | c :: s' =>
      match nj.children c with
      | none => some (.NotFound (some j))
      | some next => existing_node_inner_go t fuel next s' (some j)

theorem existing_node_inner_go_step {TUd : Type} (t : TrieStructure TUd)
    {j : Nat} {nj : Node TUd} (hg : t.nodes.get j = some nj)
    (fuel : Nat) (s : List Nibble) (ca : Option Nat) :
    existing_node_inner_go t (fuel + 1) j (nj.partial_key ++ s) ca =
      afterNode t fuel j s := by
  rw [existing_node_inner_go, hg]
  dsimp only
  rw [stripMatch_append_self]
  unfold afterNode
  rw [hg]
  cases s with
  | nil => rfl
  | cons c s' =>
    dsimp only
    cases nj.children c with
    | none => rfl
    | some next => rfl

/-- Descending with a node's full key followed by `s` reaches that node with
`s` left over. -/
theorem lookup_descend {TUd : Type} {t : TrieStructure TUd}
    (hpr : ∀ i n, t.nodes.get i = some n → n.parent = none → t.root_index = some i)
    (hpc : ∀ i n p k, t.nodes.get i = some n → n.parent = some (p, k) →
      ∃ m, t.nodes.get p = some m ∧ m.children k = some i) :
    ∀ {j : Nat} {fk : List Nibble} {seen : List Nat}, FullKeyD t j fk seen →
    ∀ s : List Nibble, ∃ F, s.length ≤ F ∧
      existing_node_inner t (fk ++ s) = afterNode t F j s := by
  intro j fk seen h
  induction h with
  | root hg hp =>
    intro s
    rename_i r n
    have hroot := hpr r n hg hp
    refine ⟨n.partial_key.length + s.length, by omega, ?_⟩
    unfold existing_node_inner
    rw [hroot]
    have : (n.partial_key ++ s).length + 1 = (n.partial_key.length + s.length) + 1 := by
      simp
    rw [this]
    exact existing_node_inner_go_step t hg _ s none
  | child hpar hg hp ih =>
    rename_i p fp seen' j' n c
    intro s
    obtain ⟨F, hF, heq⟩ := ih (c :: (n.partial_key ++ s))
    obtain ⟨np, hnp⟩ := FullKeyD_occupied hpar
    obtain ⟨m, hm, hmc⟩ := hpc j' n p c hg hp
    rw [hm] at hnp
    obtain rfl := Option.some.inj hnp
    simp only [List.length_cons, List.length_append] at hF
    refine ⟨F - 1, by omega, ?_⟩
    have hassoc : (fp ++ c :: n.partial_key) ++ s = fp ++ (c :: (n.partial_key ++ s)) := by
      simp
    rw [hassoc, heq]
    unfold afterNode
    rw [hm]
    dsimp only
    rw [hmc]
    have hF' : F = (F - 1) + 1 := by omega
    rw [hF']
    exact existing_node_inner_go_step t hg _ s (some p)

/-- Lookup completeness: searching a node's exact full key finds it, with its
stored flag. -/
theorem lookup_complete {TUd : Type} {t : TrieStructure TUd}
    (hpr : ∀ i n, t.nodes.get i = some n → n.parent = none → t.root_index = some i)
    (hpc : ∀ i n p k, t.nodes.get i = some n → n.parent = some (p, k) →
      ∃ m, t.nodes.get p = some m ∧ m.children k = some i)
    {j : Nat} {fk : List Nibble} (h : FullKey t j fk) :
    ∃ nj, t.nodes.get j = some nj ∧
      existing_node_inner t fk = some (.Found j nj.has_storage_value) := by
  obtain ⟨seen, hd⟩ := h
  obtain ⟨nj, hg⟩ := FullKeyD_occupied hd
  obtain ⟨F, -, heq⟩ := lookup_descend hpr hpc hd []
  rw [List.append_nil] at heq
  refine ⟨nj, hg, ?_⟩
  rw [heq]
  unfold afterNode
  rw [hg]

/-- Lookup soundness for `Found`: the found node's full key is the whole
searched key, and the reported flag is its stored flag. -/
theorem go_found {TUd : Type} {t : TrieStructure TUd}
    (hcp : ∀ i n k j, t.nodes.get i = some n → n.children k = some j →
      ∃ m, t.nodes.get j = some m ∧ m.parent = some (i, k)) :
    ∀ (fuel i : Nat) (rest : List Nibble) (ca : Option Nat) (j : Nat) (b : Bool)
      (ni : Node TUd) (pre : List Nibble),
      t.nodes.get i = some ni → FullKey t i (pre ++ ni.partial_key) →
      existing_node_inner_go t fuel i rest ca = some (.Found j b) →
      FullKey t j (pre ++ rest) ∧ ∃ nj, t.nodes.get j = some nj ∧ nj.has_storage_value = b := by
  intro fuel
  induction fuel with
  | zero => intro i rest ca j b ni pre hg hfk h; simp [existing_node_inner_go] at h
  | succ f ih =>
    intro i rest ca j b ni pre hg hfk h
    rw [existing_node_inner_go, hg] at h
    dsimp only at h
    cases hs : stripMatch ni.partial_key rest with
    | none => rw [hs] at h; simp at h
    | some r2 =>
      rw [hs] at h
      have hdec := stripMatch_some_decompose _ _ _ hs
      cases r2 with
      | nil =>
        simp only [Option.some.injEq, ExistingNodeInnerResult.Found.injEq] at h
        obtain ⟨rfl, rfl⟩ := h
        rw [hdec, List.append_nil]
        exact ⟨hfk, ni, hg, rfl⟩
      | cons c r3 =>
        dsimp only at h
        cases hc : ni.children c with
        | none => rw [hc] at h; simp at h
        | some X =>
          rw [hc] at h
          dsimp only at h
          obtain ⟨nX, hXg, hXp⟩ := hcp i ni c X hg hc
          have hfkX : FullKey t X ((pre ++ ni.partial_key ++ [c]) ++ nX.partial_key) := by
            obtain ⟨seen, hd⟩ := hfk
            refine ⟨X :: seen, ?_⟩
            have heq : (pre ++ ni.partial_key ++ [c]) ++ nX.partial_key =
                (pre ++ ni.partial_key) ++ c :: nX.partial_key := by simp
            rw [heq]
            exact .child hd hXg hXp
          have hres := ih X r3 (some i) j b nX (pre ++ ni.partial_key ++ [c]) hXg hfkX h
          rw [hdec]
          have hpr : pre ++ (ni.partial_key ++ c :: r3) =
              (pre ++ ni.partial_key ++ [c]) ++ r3 := by simp
          rw [hpr]
          exact hres

theorem lookup_found_fullKey {TUd : Type} {t : TrieStructure TUd} (hwf : WF t)
    {k : List Nibble} {j : Nat} {b : Bool}
    (h : existing_node_inner t k = some (.Found j b)) :
    FullKey t j k ∧ ∃ nj, t.nodes.get j = some nj ∧ nj.has_storage_value = b := by
  unfold existing_node_inner at h
  cases hr : t.root_index with
  | none => rw [hr] at h; simp at h
  | some r =>
    rw [hr] at h
    obtain ⟨nr, hg, hp⟩ := hwf.root_node r hr
    have hfk : FullKey t r ([] ++ nr.partial_key) := ⟨[r], by simpa using FullKeyD.root hg hp⟩
    have hres := go_found hwf.child_parent _ r k none j b nr [] hg hfk h
    simpa using hres

/-- Characterization of `NotFound` results of the descent loop. -/
theorem go_notfound {TUd : Type} {t : TrieStructure TUd}
    (hcp : ∀ i n k j, t.nodes.get i = some n → n.children k = some j →
      ∃ m, t.nodes.get j = some m ∧ m.parent = some (i, k)) :
    ∀ (fuel i : Nat) (rest : List Nibble) (ca res : Option Nat)
      (ni : Node TUd) (pre k : List Nibble),
      t.nodes.get i = some ni → FullKey t i (pre ++ ni.partial_key) → k = pre ++ rest →
      (∀ b, ca = some b → ∃ nb fb cb, t.nodes.get b = some nb ∧ FullKey t b fb ∧
        k = fb ++ cb :: rest ∧ nb.children cb = some i) →
      existing_node_inner_go t fuel i rest ca = some (.NotFound res) →
      ((res = none → ca = none ∧ stripMatch ni.partial_key rest = none) ∧
       (∀ a, res = some a → ∃ na fa c2 r2, t.nodes.get a = some na ∧ FullKey t a fa ∧
         k = fa ++ c2 :: r2 ∧
         ((na.children c2 = none) ∨
          (∃ X nX, na.children c2 = some X ∧ t.nodes.get X = some nX ∧
            stripMatch nX.partial_key r2 = none)))) := by
  intro fuel
  induction fuel with
  | zero => intro i rest ca res ni pre k hg hfk hk hca h; simp [existing_node_inner_go] at h
  | succ f ih =>
    intro i rest ca res ni pre k hg hfk hk hca h
    rw [existing_node_inner_go, hg] at h
    dsimp only at h
    cases hs : stripMatch ni.partial_key rest with
    | none =>
      rw [hs] at h
      simp only [Option.some.injEq, ExistingNodeInnerResult.NotFound.injEq] at h
      subst h
      constructor
      · intro hres; exact ⟨hres, rfl⟩
      · intro a hres
        obtain ⟨nb, fb, cb, hbg, hbfk, hbk, hbc⟩ := hca a hres
        exact ⟨nb, fb, cb, rest, hbg, hbfk, hbk,
          Or.inr ⟨i, ni, hbc, hg, hs⟩⟩
    | some r2 =>
      rw [hs] at h
      have hdec := stripMatch_some_decompose _ _ _ hs
      cases r2 with
      | nil => simp at h
      | cons c r3 =>
        dsimp only at h
        cases hc : ni.children c with
        | none =>
          rw [hc] at h
          dsimp only at h
          simp only [Option.some.injEq, ExistingNodeInnerResult.NotFound.injEq] at h
          subst h
          constructor
          · intro hres; exact absurd hres (by simp)
          · intro a hres
            obtain rfl : i = a := by simpa using hres
            refine ⟨ni, pre ++ ni.partial_key, c, r3, hg, hfk, ?_, Or.inl hc⟩
            rw [hk, hdec]
            simp
        | some X =>
          rw [hc] at h
          dsimp only at h
          cases hXg : t.nodes.get X with
          | none =>
            cases f with
            | zero => simp [existing_node_inner_go] at h
            | succ f' => rw [existing_node_inner_go, hXg] at h; simp at h
          | some nX =>
            obtain ⟨nX', hXg', hXp⟩ := hcp i ni c X hg hc
            rw [hXg] at hXg'
            obtain rfl := Option.some.inj hXg'
            have hfkX : FullKey t X ((pre ++ ni.partial_key ++ [c]) ++ nX.partial_key) := by
              obtain ⟨seen, hd⟩ := hfk
              refine ⟨X :: seen, ?_⟩
              have heq : (pre ++ ni.partial_key ++ [c]) ++ nX.partial_key =
                  (pre ++ ni.partial_key) ++ c :: nX.partial_key := by simp
              rw [heq]
              exact .child hd hXg hXp
            have hk' : k = (pre ++ ni.partial_key ++ [c]) ++ r3 := by
              rw [hk, hdec]; simp
            have hca' : ∀ b, (some i : Option Nat) = some b →
                ∃ nb fb cb, t.nodes.get b = some nb ∧ FullKey t b fb ∧
                  k = fb ++ cb :: r3 ∧ nb.children cb = some X := by
              intro b hb
              obtain rfl : i = b := Option.some.inj hb
              refine ⟨ni, pre ++ ni.partial_key, c, hg, hfk, ?_, hc⟩
              rw [hk, hdec]
              simp
            have hres := ih X r3 (some i) res nX (pre ++ ni.partial_key ++ [c]) k
              hXg hfkX hk' hca' h
            constructor
            · intro hn
              exact absurd (hres.1 hn).1 (by simp)
            · exact hres.2

/-- Characterization of a vacant lookup with a closest ancestor `a`: `a`'s
full key is a proper prefix of the searched key, and at the next nibble `a`'s
child slot is either empty or holds a node whose partial key fails to match
the remaining tail. -/
theorem lookup_vacant_some {TUd : Type} {t : TrieStructure TUd} (hwf : WF t)
    {k : List Nibble} {a : Nat}
    (h : existing_node_inner t k = some (.NotFound (some a))) :
    ∃ na fa c2 r2, t.nodes.get a = some na ∧ FullKey t a fa ∧
      k = fa ++ c2 :: r2 ∧
      ((na.children c2 = none) ∨
       (∃ X nX, na.children c2 = some X ∧ t.nodes.get X = some nX ∧
         stripMatch nX.partial_key r2 = none)) := by
  unfold existing_node_inner at h
  cases hr : t.root_index with
  | none => rw [hr] at h; simp at h
  | some r =>
    rw [hr] at h
    obtain ⟨nr, hg, hp⟩ := hwf.root_node r hr
    have hfk : FullKey t r ([] ++ nr.partial_key) := ⟨[r], by simpa using FullKeyD.root hg hp⟩
    have hres := go_notfound hwf.child_parent _ r k none (some a) nr [] k hg hfk
      (by simp) (by simp) h
    exact hres.2 a rfl

/-- Characterization of a vacant lookup with no closest ancestor: the trie is
empty, or the search failed inside the root's partial key. -/
theorem lookup_vacant_none {TUd : Type} {t : TrieStructure TUd} (hwf : WF t)
    {k : List Nibble}
    (h : existing_node_inner t k = some (.NotFound none)) :
    t.root_index = none ∨ ∃ r nr, t.root_index = some r ∧ t.nodes.get r = some nr ∧
      stripMatch nr.partial_key k = none := by
  unfold existing_node_inner at h
  cases hr : t.root_index with
  | none => exact Or.inl rfl
  | some r =>
    rw [hr] at h
    obtain ⟨nr, hg, hp⟩ := hwf.root_node r hr
    have hfk : FullKey t r ([] ++ nr.partial_key) := ⟨[r], by simpa using FullKeyD.root hg hp⟩
    have hres := go_notfound hwf.child_parent _ r k none none nr [] k hg hfk
      (by simp) (by simp) h
    exact Or.inr ⟨r, nr, rfl, hg, (hres.1 rfl).2⟩

/-! ## List decomposition helpers -/

theorem get?_append_len : ∀ (l : List Nibble) (c : Nibble) (r : List Nibble),
    (l ++ c :: r).get? l.length = some c := by
  intro l
  induction l with
  | nil => intro c r; rfl
  | cons a as_ ih => intro c r; simpa using ih c r

theorem drop_append_len : ∀ (l : List Nibble) (c : Nibble) (r : List Nibble),
    (l ++ c :: r).drop (l.length + 1) = r := by
  intro l
  induction l with
  | nil => intro c r; rfl
  | cons a as_ ih => intro c r; simp [ih c r]

theorem take_get_drop : ∀ (l : List Nibble) (n : Nat) (c : Nibble),
    l.get? n = some c → l.take n ++ c :: l.drop (n + 1) = l := by
  intro l
  induction l with
  | nil => intro n c h; simp at h
  | cons a as_ ih =>
    intro n c h
    cases n with
    | zero => simp only [List.get?] at h; obtain rfl := Option.some.inj h; simp
    | succ m =>
      simp only [List.get?] at h
      simp [ih m c h]

theorem starts_with_length : ∀ (l1 l2 : List Nibble), starts_with l1 l2 = true →
    l2.length ≤ l1.length := by
  intro l1
  induction l1 with
  | nil =>
    intro l2 h
    cases l2 with
    | nil => simp
    | cons b bs => simp [starts_with] at h
  | cons a as_ ih =>
    intro l2 h
    cases l2 with
    | nil => simp
    | cons b bs =>
      simp only [starts_with, Bool.and_eq_true] at h
      have := ih bs h.2
      simp only [List.length_cons]
      omega

theorem starts_with_append_longer (l r : List Nibble) (c : Nibble) :
    starts_with l (l ++ c :: r) = false := by
  cases hsw : starts_with l (l ++ c :: r) with
  | false => rfl
  | true =>
    have := starts_with_length _ _ hsw
    simp only [List.length_append, List.length_cons] at this
    omega

theorem commonLen_self_append : ∀ (l r : List Nibble) (c : Nibble),
    commonLen l (l ++ c :: r) = some l.length := by
  intro l
  induction l with
  | nil => intro r c; rfl
  | cons a as_ ih =>
    intro r c
    rw [List.cons_append, commonLen, if_pos rfl, ih]
    rfl

/-- When the new key tail is a strict prefix of the occupying node's partial
key (case C of the spec), `prepare_with_existing` reaches the out-of-range
index `new_node_partial_key[branch_partial_key_len]` of line 974, because the
swapped `starts_with` test of line 841 sends it down the common-prefix path. -/
theorem prepare_with_existing_prefix_none {TUd : Type} (t : TrieStructure TUd)
    (key tail : List Nibble) (fp : Option (Nat × Nat)) (X : Nat) (xn : Node TUd)
    (c : Nibble) (r : List Nibble)
    (hX : t.nodes.get X = some xn)
    (htail : key.drop (match fp with | some (_, m) => m + 1 | none => 0) = tail)
    (hpk : xn.partial_key = tail ++ c :: r) :
    prepare_with_existing t key fp X = none := by
  unfold prepare_with_existing
  rw [hX]
  dsimp only
  rw [htail, hpk, starts_with_append_longer, if_neg Bool.false_ne_true,
    commonLen_self_append]
  dsimp only
  rw [get?_append_len]
  dsimp only
  rw [List.get?_eq_none.mpr (Nat.le_refl tail.length)]

/-! ## Child-count helpers -/

theorem length_filter_mono {α : Type} : ∀ (l : List α) (p q : α → Bool),
    (∀ a ∈ l, p a = true → q a = true) →
    (l.filter p).length ≤ (l.filter q).length := by
  intro l
  induction l with
  | nil => intro p q h; simp
  | cons a as_ ih =>
    intro p q h
    have hrec := ih p q (fun x hx => h x (List.mem_cons_of_mem a hx))
    by_cases hp : p a = true
    · rw [List.filter_cons_of_pos hp, List.filter_cons_of_pos (h a (List.mem_cons_self a as_) hp)]
      simpa using hrec
    · rw [List.filter_cons_of_neg (by simpa using hp)]
      by_cases hq : q a = true
      · rw [List.filter_cons_of_pos hq]
        simp only [List.length_cons]
        omega
      · rw [List.filter_cons_of_neg (by simpa using hq)]
        exact hrec

theorem countChildren_mono (ch1 ch2 : Fin 16 → Option Nat)
    (h : ∀ k, (ch1 k).isSome = true → (ch2 k).isSome = true) :
    countChildren ch1 ≤ countChildren ch2 := by
  unfold countChildren
  exact length_filter_mono _ _ _ (fun a _ ha => h a ha)

theorem two_le_countChildren (ch : Fin 16 → Option Nat) (k1 k2 : Fin 16)
    (h1 : (ch k1).isSome = true) (h2 : (ch k2).isSome = true) (hne : k1 ≠ k2) :
    2 ≤ countChildren ch := by
  unfold countChildren
  have hm1 : k1 ∈ (List.finRange 16).filter (fun c => (ch c).isSome) :=
    List.mem_filter.mpr ⟨List.mem_finRange k1, h1⟩
  have hm2 : k2 ∈ (List.finRange 16).filter (fun c => (ch c).isSome) :=
    List.mem_filter.mpr ⟨List.mem_finRange k2, h2⟩
  obtain ⟨l1, l2, hsplit⟩ := List.append_of_mem hm1
  rw [hsplit] at hm2 ⊢
  rw [List.length_append, List.length_cons]
  have hmem : k2 ∈ l1 ++ l2 := by
    rcases List.mem_append.mp hm2 with h | h
    · exact List.mem_append.mpr (Or.inl h)
    · rcases List.mem_cons.mp h with heq | h
      · exact absurd heq.symm hne
      · exact List.mem_append.mpr (Or.inr h)
  have := List.length_pos_of_mem hmem
  rw [List.length_append] at this
  omega

theorem countChildren_le_one_unique (ch : Fin 16 → Option Nat)
    (h : countChildren ch ≤ 1) (k1 k2 : Fin 16)
    (h1 : (ch k1).isSome = true) (h2 : (ch k2).isSome = true) : k1 = k2 := by
  by_contra hne
  have := two_le_countChildren ch k1 k2 h1 h2 hne
  omega

theorem firstChild_none_all {ch : Fin 16 → Option Nat} (h : firstChild ch = none) :
    ∀ k, ch k = none := by
  intro k
  unfold firstChild at h
  rw [List.head?_eq_none_iff] at h
  cases hc : ch k with
  | none => rfl
  | some v =>
    have hmem : v ∈ (List.finRange 16).filterMap ch :=
      List.mem_filterMap.mpr ⟨k, List.mem_finRange k, hc⟩
    rw [h] at hmem
    simp at hmem

theorem firstChild_some_exists {ch : Fin 16 → Option Nat} {c : Nat}
    (h : firstChild ch = some c) : ∃ k, ch k = some c := by
  unfold firstChild at h
  cases hl : (List.finRange 16).filterMap ch with
  | nil => rw [hl] at h; simp at h
  | cons x xs =>
    rw [hl] at h
    have hx : x = c := by simpa using h
    have hmem : c ∈ (List.finRange 16).filterMap ch := by
      rw [hl, ← hx]
      exact List.mem_cons_self _ _
    obtain ⟨k, -, hk⟩ := List.mem_filterMap.mp hmem
    exact ⟨k, hk⟩

/-! ## Transfer of full keys across surgeries -/

/-- Full keys only determine node identity through the lookup, so link
coherence alone gives injectivity. -/
theorem fullkey_inj_of_links {TUd : Type} {t : TrieStructure TUd}
    (hpr : ∀ i n, t.nodes.get i = some n → n.parent = none → t.root_index = some i)
    (hpc : ∀ i n p k, t.nodes.get i = some n → n.parent = some (p, k) →
      ∃ m, t.nodes.get p = some m ∧ m.children k = some i) :
    ∀ i j fi fj, FullKey t i fi → FullKey t j fj → fi = fj → i = j := by
  intro i j fi fj h1 h2 he
  obtain ⟨ni, hgi, hli⟩ := lookup_complete hpr hpc h1
  obtain ⟨nj, hgj, hlj⟩ := lookup_complete hpr hpc h2
  rw [he, hlj] at hli
  simp only [Option.some.injEq, ExistingNodeInnerResult.Found.injEq] at hli
  exact hli.1.symm

/-- Strong induction over the length of the visited chain. -/
theorem FullKeyD_strong_ind {TUd : Type} {t : TrieStructure TUd}
    (C : Nat → List Nibble → Prop)
    (step : ∀ j fk seen, FullKeyD t j fk seen →
      (∀ j2 fk2 seen2, FullKeyD t j2 fk2 seen2 → seen2.length < seen.length → C j2 fk2) →
      C j fk) :
    ∀ j fk seen, FullKeyD t j fk seen → C j fk := by
  suffices H : ∀ L j fk seen, seen.length ≤ L → FullKeyD t j fk seen → C j fk by
    intro j fk seen h
    exact H seen.length j fk seen (Nat.le_refl _) h
  intro L
  induction L with
  | zero =>
    intro j fk seen hle h
    cases h with
    | root hg hp => simp at hle
    | child hpar hg hp => simp at hle
  | succ L ih =>
    intro j fk seen hle h
    exact step j fk seen h (fun j2 fk2 seen2 h2 hlt => ih j2 fk2 seen2 (by omega) h2)

/-- Any surgery preserving the parent and partial key of every occupied slot
preserves all full-key derivations. -/
theorem FullKeyD_mono {TUd : Type} {t t' : TrieStructure TUd}
    (h : ∀ i n, t.nodes.get i = some n → ∃ n', t'.nodes.get i = some n' ∧
      n'.parent = n.parent ∧ n'.partial_key = n.partial_key) :
    ∀ {j fk seen}, FullKeyD t j fk seen → FullKeyD t' j fk seen := by
  intro j fk seen hd
  induction hd with
  | root hg hp =>
    obtain ⟨n', hg', hp', hpk'⟩ := h _ _ hg
    rw [← hpk']
    exact .root hg' (by rw [hp', hp])
  | child hpar hg hp ih =>
    obtain ⟨n', hg', hp', hpk'⟩ := h _ _ hg
    rw [← hpk']
    exact .child ih hg' (by rw [hp', hp])

/-- Full keys survive the branch-split insertion: the new branch takes over
`X`'s old attachment and `X` keeps its full key through the branch. -/
theorem FullKey_transfer_split {TUd : Type} {t t' : TrieStructure TUd}
    {X bIdx : Nat} {cx : Nibble} {xn xn' bn : Node TUd}
    (hX : t.nodes.get X = some xn)
    (hX' : t'.nodes.get X = some xn')
    (hb' : t'.nodes.get bIdx = some bn)
    (hbp : bn.parent = xn.parent)
    (hpk : bn.partial_key ++ cx :: xn'.partial_key = xn.partial_key)
    (hxp' : xn'.parent = some (bIdx, cx))
    (hframe : ∀ j n, j ≠ X → t.nodes.get j = some n → ∃ n', t'.nodes.get j = some n' ∧
      n'.parent = n.parent ∧ n'.partial_key = n.partial_key) :
    ∀ {j fk seen}, FullKeyD t j fk seen → FullKey t' j fk := by
  intro j fk seen hd
  induction hd with
  | root hg hp =>
    rename_i j0 n
    by_cases hj : j0 = X
    · subst hj
      rw [hX] at hg
      obtain rfl := Option.some.inj hg
      have hbroot : FullKeyD t' bIdx bn.partial_key [bIdx] := .root hb' (by rw [hbp, hp])
      have hchild : FullKeyD t' j0 (bn.partial_key ++ cx :: xn'.partial_key) [j0, bIdx] :=
        .child hbroot hX' hxp'
      rw [hpk] at hchild
      exact ⟨_, hchild⟩
    · obtain ⟨n', hg', hp', hpk'⟩ := hframe _ _ hj hg
      refine ⟨[j0], ?_⟩
      rw [← hpk']
      exact .root hg' (by rw [hp', hp])
  | child hpar hg hp ih =>
    rename_i q fq seenq j0 n c
    obtain ⟨sp, hdp⟩ := ih
    by_cases hj : j0 = X
    · subst hj
      rw [hX] at hg
      obtain rfl := Option.some.inj hg
      have hbchild : FullKeyD t' bIdx (fq ++ c :: bn.partial_key) (bIdx :: sp) :=
        .child hdp hb' (by rw [hbp, hp])
      have hXchild : FullKeyD t' j0 ((fq ++ c :: bn.partial_key) ++ cx :: xn'.partial_key)
          (j0 :: bIdx :: sp) := .child hbchild hX' hxp'
      have heq : (fq ++ c :: bn.partial_key) ++ cx :: xn'.partial_key =
          fq ++ c :: xn.partial_key := by
        rw [← hpk]
        simp
      rw [heq] at hXchild
      exact ⟨_, hXchild⟩
    · obtain ⟨n', hg', hp', hpk'⟩ := hframe _ _ hj hg
      refine ⟨j0 :: sp, ?_⟩
      rw [← hpk']
      exact .child hdp hg' (by rw [hp', hp])

/-- Full keys of surviving nodes after a removal: the collapsed node `p`'s
surviving children are re-attached to `p`'s parent with compensated partial
keys; every other surviving node keeps its record's shape.  `dead` lists the
freed slots. -/
theorem FullKey_transfer_collapse {TUd : Type} {t t' : TrieStructure TUd}
    (dead : List Nat) (p : Nat) (pn : Node TUd)
    (hp : t.nodes.get p = some pn)
    (hq : ∀ q k, pn.parent = some (q, k) → q ∉ dead)
    (hnochild : ∀ j n q k, j ∉ dead → t.nodes.get j = some n →
      n.parent = some (q, k) → q ∈ dead → q = p)
    (hchild : ∀ j n k, j ∉ dead → t.nodes.get j = some n → n.parent = some (p, k) →
      ∃ n', t'.nodes.get j = some n' ∧ n'.parent = pn.parent ∧
        n'.partial_key = pn.partial_key ++ k :: n.partial_key)
    (hframe : ∀ j n, j ∉ dead → t.nodes.get j = some n →
      (∀ k, n.parent ≠ some (p, k)) →
      ∃ n', t'.nodes.get j = some n' ∧ n'.parent = n.parent ∧
        n'.partial_key = n.partial_key) :
    ∀ j fk seen, FullKeyD t j fk seen → j ∉ dead → FullKey t' j fk := by
  refine FullKeyD_strong_ind (fun j fk => j ∉ dead → FullKey t' j fk) ?_
  intro j fk seen hd ihs hjd
  cases hd with
  | root hg hp0 =>
    rename_i n
    obtain ⟨n', hg', hp', hpk'⟩ := hframe _ _ hjd hg
      (by rw [hp0]; intro k h; exact Option.noConfusion h)
    refine ⟨[j], ?_⟩
    rw [← hpk']
    exact .root hg' (by rw [hp', hp0])
  | child hpar hg hp0 =>
    rename_i q fq seenq n c
    by_cases hqp : q = p
    · subst hqp
      obtain ⟨n', hg', hp', hpk'⟩ := hchild _ _ _ hjd hg hp0
      cases hpar with
      | root hgp hpp =>
        rename_i pn2
        rw [hp] at hgp
        obtain rfl := Option.some.inj hgp
        refine ⟨[j], ?_⟩
        have hd' : FullKeyD t' j n'.partial_key [j] := .root hg' (by rw [hp', hpp])
        rw [hpk'] at hd'
        exact hd'
      | child hpar2 hgp hpp =>
        rename_i q2 fq2 seen2 pn2 c2
        rw [hp] at hgp
        obtain rfl := Option.some.inj hgp
        have hq2 : q2 ∉ dead := hq q2 c2 hpp
        have hlt : seen2.length < (j :: q :: seen2).length := by simp; omega
        obtain ⟨s2, hd2⟩ := ihs q2 fq2 seen2 hpar2 hlt hq2
        have hd' : FullKeyD t' j (fq2 ++ c2 :: n'.partial_key) (j :: s2) :=
          .child hd2 hg' (by rw [hp', hpp])
        refine ⟨j :: s2, ?_⟩
        have heq : fq2 ++ c2 :: n'.partial_key = (fq2 ++ c2 :: pn.partial_key) ++
            c :: n.partial_key := by
          rw [hpk']
          simp
        rw [heq] at hd'
        exact hd'
    · have hqd : q ∉ dead := by
        intro hmem
        exact hqp (hnochild j n q c hjd hg hp0 hmem)
      have hlt : seenq.length < (j :: seenq).length := by simp
      obtain ⟨sq, hdq⟩ := ihs q fq seenq hpar hlt hqd
      obtain ⟨n', hg', hp', hpk'⟩ := hframe _ _ hjd hg
        (by rw [hp0]; intro k h; exact hqp (congrArg Prod.fst (Option.some.inj h)))
      refine ⟨j :: sq, ?_⟩
      rw [← hpk']
      exact .child hdq hg' (by rw [hp', hp0])

/-! ## Operation sequences over the public API -/

/-- One public mutation: a fresh-key insertion (`node` then
`Vacant::insert_storage_value` then commit), a flag insertion on an existing
branch node, or a removal. -/
inductive Op (TUd : Type) where
  | ins (key : List Nibble) (storage_ud branch_ud : TUd)
  | insFlag (key : List Nibble)
  | del (key : List Nibble)

def applyOp {TUd : Type} (t : TrieStructure TUd) : Op TUd → Option (TrieStructure TUd)
  | .ins key u bud => insertOp t key u bud
  | .insFlag key => insertAtBranchOp t key
  | .del key => (removeOp t key).map (·.2)

def runOps {TUd : Type} : TrieStructure TUd → List (Op TUd) → Option (TrieStructure TUd)
  | t, [] => some t
  | t, op :: ops =>
    match applyOp t op with
    | none => none
    | some t2 => runOps t2 ops

/-! ## Committing a one-node plan -/

/-- Committing a one-node plan with no linked children and no parent: the new
node lands in the first vacant slot and becomes the root. -/
theorem prepareInsertOne_insert_root_spec {TUd : Type} (t : TrieStructure TUd)
    (pk : List Nibble) (u : TUd) :
    ∃ t' w,
      PrepareInsertOne.insert ⟨t, none, pk, fun _ => none⟩ u = some ⟨t', w⟩ ∧
      t.nodes.get w = none ∧
      t'.nodes.get w = some {
        parent := none, partial_key := pk,
        children := fun _ => none, has_storage_value := true, user_data := u } ∧
      t'.root_index = some w ∧
      (∀ j, j ≠ w → t'.nodes.get j = t.nodes.get j) := by
  obtain ⟨nodes1, w, hn1⟩ : ∃ ns w0, t.nodes.insertNew
      { parent := none, partial_key := pk, children := fun _ => none,
        has_storage_value := true, user_data := u } = (ns, w0) := ⟨_, _, rfl⟩
  refine ⟨⟨nodes1, some w⟩, w, ?_, ?_, ?_, rfl, ?_⟩
  · unfold PrepareInsertOne.insert
    dsimp only
    rw [hn1]
    dsimp only
    rw [updateChildrenParents_all_none _ _ _ _ (fun ci => rfl)]
  · have := Slab.get_insertNew_idx_before t.nodes
      { parent := none, partial_key := pk, children := fun _ => none,
        has_storage_value := true, user_data := u }
    rwa [hn1] at this
  · have := Slab.get_insertNew_self t.nodes
      { parent := none, partial_key := pk, children := fun _ => none,
        has_storage_value := true, user_data := u }
    rwa [hn1] at this
  · intro j hj
    have := Slab.get_insertNew_ne t.nodes
      { parent := none, partial_key := pk, children := fun _ => none,
        has_storage_value := true, user_data := u } j (by rw [hn1]; exact hj)
    rwa [hn1] at this

/-- Committing a one-node plan with no linked children under parent `(a, c)`:
the new node lands in the first vacant slot and the parent's child slot is
pointed at it. -/
theorem prepareInsertOne_insert_child_spec {TUd : Type} (t : TrieStructure TUd)
    (a : Nat) (c : Nibble) (pk : List Nibble) (u : TUd) (an : Node TUd)
    (ha : t.nodes.get a = some an) :
    ∃ t' w,
      PrepareInsertOne.insert ⟨t, some (a, c), pk, fun _ => none⟩ u = some ⟨t', w⟩ ∧
      t.nodes.get w = none ∧ a ≠ w ∧
      t'.nodes.get w = some {
        parent := some (a, c), partial_key := pk,
        children := fun _ => none, has_storage_value := true, user_data := u } ∧
      t'.nodes.get a = some {
        an with
        children := fun j => if j = c then some w else an.children j } ∧
      t'.root_index = t.root_index ∧
      (∀ j, j ≠ w → j ≠ a → t'.nodes.get j = t.nodes.get j) := by
  obtain ⟨nodes1, w, hn1⟩ : ∃ ns w0, t.nodes.insertNew
      { parent := some (a, c), partial_key := pk, children := fun _ => none,
        has_storage_value := true, user_data := u } = (ns, w0) := ⟨_, _, rfl⟩
  have hwfresh : t.nodes.get w = none := by
    have := Slab.get_insertNew_idx_before t.nodes
      { parent := some (a, c), partial_key := pk, children := fun _ => none,
        has_storage_value := true, user_data := u }
    rwa [hn1] at this
  have haw : a ≠ w := fun he => by rw [he, hwfresh] at ha; exact Option.noConfusion ha
  have hw1 : nodes1.get w = some {
      parent := some (a, c), partial_key := pk,
      children := fun _ => none, has_storage_value := true, user_data := u } := by
    have := Slab.get_insertNew_self t.nodes
      { parent := some (a, c), partial_key := pk, children := fun _ => none,
        has_storage_value := true, user_data := u }
    rwa [hn1] at this
  have ha1 : nodes1.get a = some an := by
    have := Slab.get_insertNew_ne t.nodes
      { parent := some (a, c), partial_key := pk, children := fun _ => none,
        has_storage_value := true, user_data := u } a (by rw [hn1]; exact haw)
    rw [hn1] at this
    rw [this, ha]
  refine ⟨⟨nodes1.setAt a { an with
      children := fun j => if j = c then some w else an.children j }, t.root_index⟩,
    w, ?_, hwfresh, haw, ?_, ?_, rfl, ?_⟩
  · unfold PrepareInsertOne.insert
    dsimp only
    rw [hn1]
    dsimp only
    rw [updateChildrenParents_all_none _ _ _ _ (fun ci => rfl)]
    dsimp only
    rw [ha1]
  · rw [Slab.get_setAt_ne _ _ _ _ (fun he => haw he.symm)]
    exact hw1
  · exact Slab.get_setAt_self _ _ _ (Slab.get_lt_length ha1)
  · intro j hjw hja
    rw [Slab.get_setAt_ne _ _ _ _ hja]
    have := Slab.get_insertNew_ne t.nodes
      { parent := some (a, c), partial_key := pk, children := fun _ => none,
        has_storage_value := true, user_data := u } j (by rw [hn1]; exact hjw)
    rwa [hn1] at this

/-! ## Case analysis of a successful fresh-key insertion -/

/-- Complete description of the state after a successful `insertOp`, following
the case analysis of `Vacant::insert_storage_value`: a first node in an empty
trie, a fresh leaf under the closest ancestor's empty child slot, or a branch
split of the occupying node `X`. -/
inductive InsOutcome {TUd : Type} (t : TrieStructure TUd) (key : List Nibble)
    (u bud : TUd) : TrieStructure TUd → Prop where
  | empty (t' : TrieStructure TUd) (w : Nat) :
      t.root_index = none →
      t.nodes.get w = none →
      t'.root_index = some w →
      t'.nodes.get w = some {
        parent := none, partial_key := key,
        children := fun _ => none, has_storage_value := true, user_data := u } →
      (∀ j, j ≠ w → t'.nodes.get j = t.nodes.get j) →
      InsOutcome t key u bud t'
  | leaf (t' : TrieStructure TUd) (w a : Nat) (c : Nibble) (fa r2 : List Nibble)
      (an : Node TUd) :
      FullKey t a fa →
      key = fa ++ c :: r2 →
      t.nodes.get a = some an →
      an.children c = none →
      t.nodes.get w = none →
      a ≠ w →
      t'.root_index = t.root_index →
      t'.nodes.get w = some {
        parent := some (a, c), partial_key := r2,
        children := fun _ => none, has_storage_value := true, user_data := u } →
      t'.nodes.get a = some {
        an with children := fun j => if j = c then some w else an.children j } →
      (∀ j, j ≠ w → j ≠ a → t'.nodes.get j = t.nodes.get j) →
      InsOutcome t key u bud t'
  | split (t' : TrieStructure TUd) (bIdx sIdx X : Nat)
      (bp : Option (Nat × Nibble)) (tail : List Nibble) (len : Nat)
      (cs cx : Nibble) (xn : Node TUd) :
      t.nodes.get X = some xn →
      xn.parent = bp →
      (match bp with
       | some (a, c) => ∃ fa, FullKey t a fa ∧ key = fa ++ c :: tail
       | none => t.root_index = some X ∧ key = tail) →
      tail.take len = xn.partial_key.take len →
      tail.get? len = some cs →
      xn.partial_key.get? len = some cx →
      cs ≠ cx →
      bIdx ≠ sIdx → X ≠ bIdx → X ≠ sIdx →
      t.nodes.get bIdx = none →
      t.nodes.get sIdx = none →
      t'.nodes.get bIdx = some {
        parent := bp, partial_key := tail.take len,
        children := fun j => if j = cs then some sIdx
          else if j = cx then some X else none,
        has_storage_value := false, user_data := bud } →
      t'.nodes.get sIdx = some {
        parent := some (bIdx, cs), partial_key := tail.drop (len + 1),
        children := fun _ => none, has_storage_value := true, user_data := u } →
      t'.nodes.get X = some {
        xn with
        parent := some (bIdx, cx),
        partial_key := xn.partial_key.drop (len + 1) } →
      (match bp with
       | some (a, c) =>
         (∃ an, t.nodes.get a = some an ∧ t'.nodes.get a = some {
           an with children := fun j => if j = c then some bIdx else an.children j }) ∧
         t'.root_index = t.root_index
       | none => t'.root_index = some bIdx) →
      (∀ j, j ≠ bIdx → j ≠ sIdx → j ≠ X →
        (match bp with | some (a, _) => j ≠ a | none => True) →
        t'.nodes.get j = t.nodes.get j) →
      InsOutcome t key u bud t'

theorem node_vacant_inner {TUd : Type} {t : TrieStructure TUd} {key : List Nibble}
    {ca : Option Nat} (h : t.node key = some (.Vacant ca)) :
    existing_node_inner t key = some (.NotFound ca) := by
  unfold TrieStructure.node at h
  cases hi : existing_node_inner t key with
  | none => rw [hi] at h; exact absurd h (by simp)
  | some r =>
    rw [hi] at h
    cases r with
    | Found i b =>
      cases b with
      | false => exact absurd h (by simp)
      | true => exact absurd h (by simp)
    | NotFound ca2 =>
      dsimp only at h
      simp only [Option.some.injEq, Entry.Vacant.injEq] at h
      rw [h]

theorem node_storage_inner {TUd : Type} {t : TrieStructure TUd} {key : List Nibble}
    {i : Nat} (h : t.node key = some (.Occupied (.Storage i))) :
    existing_node_inner t key = some (.Found i true) := by
  unfold TrieStructure.node at h
  cases hi : existing_node_inner t key with
  | none => rw [hi] at h; exact absurd h (by simp)
  | some r =>
    rw [hi] at h
    cases r with
    | Found i2 b =>
      cases b with
      | false => exact absurd h (by simp)
      | true =>
        dsimp only at h
        simp only [Option.some.injEq, Entry.Occupied.injEq,
          NodeAccessRef.Storage.injEq] at h
        rw [h]
    | NotFound ca2 => exact absurd h (by simp)

theorem node_branch_inner {TUd : Type} {t : TrieStructure TUd} {key : List Nibble}
    {i : Nat} (h : t.node key = some (.Occupied (.Branch i))) :
    existing_node_inner t key = some (.Found i false) := by
  unfold TrieStructure.node at h
  cases hi : existing_node_inner t key with
  | none => rw [hi] at h; exact absurd h (by simp)
  | some r =>
    rw [hi] at h
    cases r with
    | Found i2 b =>
      cases b with
      | true => exact absurd h (by simp)
      | false =>
        dsimp only at h
        simp only [Option.some.injEq, Entry.Occupied.injEq,
          NodeAccessRef.Branch.injEq] at h
        rw [h]
    | NotFound ca2 => exact absurd h (by simp)

/-- Dissection of a successful `insertOp` into the three spec cases. -/
theorem insertOp_shape {TUd : Type} {t t' : TrieStructure TUd} {key : List Nibble}
    {u bud : TUd} (hwf : WF t) (h : insertOp t key u bud = some t') :
    InsOutcome t key u bud t' := by
  unfold insertOp at h
  cases hnode : t.node key with
  | none => rw [hnode] at h; exact absurd h (by simp)
  | some e =>
    rw [hnode] at h
    cases e with
    | Occupied acc => dsimp only at h; exact absurd h (by simp)
    | Vacant ca =>
      dsimp only at h
      have hinner := node_vacant_inner hnode
      cases ca with
      | none =>
        cases hr : t.root_index with
        | none =>
          have hv : Vacant.insert_storage_value ⟨t, key, none⟩ =
              some (.One ⟨t, none, key, fun _ => none⟩) := by
            unfold Vacant.insert_storage_value
            dsimp only
            rw [hr]
          rw [hv] at h
          dsimp only [PrepareInsert.insert] at h
          obtain ⟨t2, w, hins, hfresh, hw, hroot, hframe⟩ :=
            prepareInsertOne_insert_root_spec t key u
          rw [hins] at h
          dsimp only [Option.map] at h
          obtain rfl : t2 = t' := Option.some.inj h
          exact .empty t2 w hr hfresh hroot hw hframe
        | some rootIdx =>
          have hv : Vacant.insert_storage_value ⟨t, key, none⟩ =
              prepare_with_existing t key none rootIdx := by
            unfold Vacant.insert_storage_value
            dsimp only
            rw [hr]
          rw [hv] at h
          rcases lookup_vacant_none hwf hinner with hnone | ⟨r, nr, hr2, hgr0, hstrip⟩
          · rw [hnone] at hr; exact absurd hr (by simp)
          · have hrr : r = rootIdx := by
              rw [hr] at hr2
              exact (Option.some.inj hr2).symm
            have hgr : t.nodes.get rootIdx = some nr := by rw [← hrr]; exact hgr0
            obtain ⟨len, htake, hdisj⟩ := stripMatch_none_cases nr.partial_key key hstrip
            rcases hdisj with ⟨hlen1, hlen2⟩ | ⟨c1, c2, hc1, hc2, hne⟩
            · have hkeq : key.take len = key := by rw [hlen1]; exact List.take_length key
              have htk : nr.partial_key.take len = key := by rw [← htake, hkeq]
              cases hdp : nr.partial_key.drop len with
              | nil =>
                have hld := List.length_drop len nr.partial_key
                rw [hdp] at hld
                simp only [List.length_nil] at hld
                omega
              | cons cD rD =>
                have hpk : nr.partial_key = key ++ cD :: rD := by
                  conv_lhs => rw [← List.take_append_drop len nr.partial_key]
                  rw [htk, hdp]
                rw [prepare_with_existing_prefix_none t key key none rootIdx nr cD rD
                  hgr rfl hpk] at h
                exact absurd h (by simp)
            · have hprep := prepare_with_existing_diverge_root t key key rootIdx nr len c1 c2
                hgr rfl htake hc1 hc2 hne
              have hlentake : (key.take len).length = len := by
                rw [List.length_take]
                obtain ⟨hl, -⟩ := List.get?_eq_some.mp hc1
                omega
              have hlenx : (key.take len).length + 1 ≤ nr.partial_key.length := by
                rw [hlentake]
                obtain ⟨hl, -⟩ := List.get?_eq_some.mp hc2
                omega
              obtain ⟨t2, bIdx, sIdx, hins, hbs, hXb, hXs, hbfresh, hsfresh, hbfv,
                hgb, hgs, hgX, hmatch, hframe⟩ :=
                prepareInsertTwo_insert_spec t c1 c2 (key.drop (len + 1)) (key.take len)
                  none rootIdx nr u bud hgr hlenx trivial
              rw [hprep] at h
              dsimp only [PrepareInsert.insert] at h
              rw [hins] at h
              dsimp only [Option.map] at h
              obtain rfl : t2 = t' := Option.some.inj h
              obtain ⟨n0, hn0, hp0⟩ := hwf.root_node rootIdx hr
              rw [hgr] at hn0
              have hp0' : nr.parent = none := by rw [Option.some.inj hn0]; exact hp0
              rw [hlentake] at hgX
              exact .split t2 bIdx sIdx rootIdx none key len c1 c2 nr hgr hp0' ⟨hr, rfl⟩
                htake hc1 hc2 hne hbs hXb hXs hbfresh hsfresh hgb hgs hgX hmatch hframe
      | some a =>
        cases hr : t.root_index with
        | none =>
          have hv : Vacant.insert_storage_value ⟨t, key, some a⟩ = none := by
            unfold Vacant.insert_storage_value
            dsimp only
            rw [hr]
          rw [hv] at h
          exact absurd h (by simp)
        | some rid =>
          obtain ⟨na, fa, c2, r2, hna, hfa, hkey, hdisj⟩ := lookup_vacant_some hwf hinner
          have hnfk : node_full_key t a = some fa := FullKey_node_full_key hwf hfa
          have hkget : key.get? fa.length = some c2 := by
            rw [hkey]
            exact get?_append_len fa c2 r2
          have hkdrop : key.drop (fa.length + 1) = r2 := by
            rw [hkey]
            exact drop_append_len fa c2 r2
          have hv : Vacant.insert_storage_value ⟨t, key, some a⟩ =
              (match na.children c2 with
               | some i => prepare_with_existing t key (some (a, fa.length)) i
               | none =>
                 some (.One ⟨t, some (a, c2), key.drop (fa.length + 1), fun _ => none⟩)) := by
            unfold Vacant.insert_storage_value
            dsimp only
            rw [hr]
            dsimp only
            rw [hnfk]
            dsimp only
            rw [hkget]
            dsimp only
            rw [hna]
          rw [hv] at h
          rcases hdisj with hnone | ⟨X, nX, hchX, hgX, hstripX⟩
          · rw [hnone] at h
            dsimp only [PrepareInsert.insert] at h
            rw [hkdrop] at h
            obtain ⟨t2, w, hins, hfresh, haw, hw, ha2, hroot2, hframe2⟩ :=
              prepareInsertOne_insert_child_spec t a c2 r2 u na hna
            rw [hins] at h
            dsimp only [Option.map] at h
            obtain rfl : t2 = t' := Option.some.inj h
            exact .leaf t2 w a c2 fa r2 na hfa hkey hna hnone hfresh haw hroot2 hw ha2 hframe2
          · rw [hchX] at h
            dsimp only at h
            have haX : a ≠ X := by
              intro he
              obtain ⟨rk, hrk⟩ := hwf.rank_exists
              obtain ⟨m, hm, hpar⟩ := hwf.child_parent a na c2 X hna hchX
              have hlt := hrk X m a c2 hm hpar
              rw [he] at hlt
              omega
            obtain ⟨m, hm, hxp0⟩ := hwf.child_parent a na c2 X hna hchX
            rw [hgX] at hm
            have hxp : nX.parent = some (a, c2) := by
              rw [Option.some.inj hm]
              exact hxp0
            obtain ⟨len, htake, hdisj2⟩ := stripMatch_none_cases nX.partial_key r2 hstripX
            rcases hdisj2 with ⟨hlen1, hlen2⟩ | ⟨c1, c2', hc1, hc2', hne⟩
            · have hkeq : r2.take len = r2 := by rw [hlen1]; exact List.take_length r2
              have htk : nX.partial_key.take len = r2 := by rw [← htake, hkeq]
              cases hdp : nX.partial_key.drop len with
              | nil =>
                have hld := List.length_drop len nX.partial_key
                rw [hdp] at hld
                simp only [List.length_nil] at hld
                omega
              | cons cD rD =>
                have hpk : nX.partial_key = r2 ++ cD :: rD := by
                  conv_lhs => rw [← List.take_append_drop len nX.partial_key]
                  rw [htk, hdp]
                rw [prepare_with_existing_prefix_none t key r2 (some (a, fa.length)) X nX
                  cD rD hgX hkdrop hpk] at h
                exact absurd h (by simp)
            · have hprep := prepare_with_existing_diverge_child t key r2 a fa.length X nX
                len c1 c2' c2 hgX hkget hkdrop htake hc1 hc2' hne
              have hlentake : (r2.take len).length = len := by
                rw [List.length_take]
                obtain ⟨hl, -⟩ := List.get?_eq_some.mp hc1
                omega
              have hlenx : (r2.take len).length + 1 ≤ nX.partial_key.length := by
                rw [hlentake]
                obtain ⟨hl, -⟩ := List.get?_eq_some.mp hc2'
                omega
              obtain ⟨t2, bIdx, sIdx, hins, hbs, hXb, hXs, hbfresh, hsfresh, hbfv,
                hgb, hgs, hgX2, hmatch, hframe⟩ :=
                prepareInsertTwo_insert_spec t c1 c2' (r2.drop (len + 1)) (r2.take len)
                  (some (a, c2)) X nX u bud hgX hlenx ⟨haX, na, hna⟩
              rw [hprep] at h
              dsimp only [PrepareInsert.insert] at h
              rw [hins] at h
              dsimp only [Option.map] at h
              obtain rfl : t2 = t' := Option.some.inj h
              rw [hlentake] at hgX2
              exact .split t2 bIdx sIdx X (some (a, c2)) r2 len c1 c2' nX hgX hxp
                ⟨fa, hfa, hkey⟩ htake hc1 hc2' hne hbs hXb hXs hbfresh hsfresh
                hgb hgs hgX2 hmatch hframe

/-- Description of the state after a flag insertion on an existing branch
node: only that node's flag changes. -/
theorem insertAtBranchOp_shape {TUd : Type} {t t' : TrieStructure TUd}
    {key : List Nibble} (h : insertAtBranchOp t key = some t') :
    ∃ i n, existing_node_inner t key = some (.Found i false) ∧
      t.nodes.get i = some n ∧
      t'.root_index = t.root_index ∧
      t'.nodes.get i = some { n with has_storage_value := true } ∧
      (∀ j, j ≠ i → t'.nodes.get j = t.nodes.get j) := by
  unfold insertAtBranchOp at h
  cases hnode : t.node key with
  | none => rw [hnode] at h; exact absurd h (by simp)
  | some e =>
    rw [hnode] at h
    cases e with
    | Vacant ca => dsimp only at h; exact absurd h (by simp)
    | Occupied acc =>
      cases acc with
      | Storage i => dsimp only at h; exact absurd h (by simp)
      | Branch i =>
        dsimp only at h
        have hinner := node_branch_inner hnode
        unfold BranchNodeAccess.insert_storage_value at h
        cases hg : t.nodes.get i with
        | none => rw [hg] at h; exact absurd h (by simp)
        | some n =>
          rw [hg] at h
          dsimp only [Option.map] at h
          obtain rfl := Option.some.inj h
          refine ⟨i, n, hinner, hg, rfl, ?_, ?_⟩
          · exact Slab.get_setAt_self _ _ _ (Slab.get_lt_length hg)
          · intro j hj
            exact Slab.get_setAt_ne _ _ _ _ hj

/-! ## Case analysis of a successful removal -/

/-- Complete description of the state after a successful `removeOp`, by the
decision table of `StorageNodeAccess::remove`. -/
inductive RemOutcome {TUd : Type} (t : TrieStructure TUd) (key : List Nibble) :
    TrieStructure TUd → Prop where
  | stb (i : Nat) (n : Node TUd) :
      existing_node_inner t key = some (.Found i true) →
      t.nodes.get i = some n →
      2 ≤ countChildren n.children →
      RemOutcome t key t
  | rootLeaf (t' : TrieStructure TUd) (i : Nat) (rn : Node TUd) :
      existing_node_inner t key = some (.Found i true) →
      t.nodes.get i = some rn →
      rn.parent = none →
      (∀ k, rn.children k = none) →
      t'.root_index = none →
      t'.nodes.get i = none →
      (∀ j, j ≠ i → t'.nodes.get j = t.nodes.get j) →
      RemOutcome t key t'
  | rootChild (t' : TrieStructure TUd) (i c : Nat) (cib : Nibble) (rn cn : Node TUd) :
      existing_node_inner t key = some (.Found i true) →
      t.nodes.get i = some rn →
      rn.parent = none →
      countChildren rn.children ≤ 1 →
      rn.children cib = some c →
      t.nodes.get c = some cn →
      cn.parent = some (i, cib) →
      c ≠ i →
      t'.root_index = some c →
      t'.nodes.get i = none →
      t'.nodes.get c = some {
        cn with
        partial_key := rn.partial_key ++ cib :: cn.partial_key,
        parent := none } →
      (∀ j, j ≠ i → j ≠ c → t'.nodes.get j = t.nodes.get j) →
      RemOutcome t key t'
  | keep (t' : TrieStructure TUd) (i p : Nat) (ci : Nibble) (rn pn : Node TUd)
      (copt : Option Nat) :
      existing_node_inner t key = some (.Found i true) →
      t.nodes.get i = some rn →
      rn.parent = some (p, ci) →
      p ≠ i →
      countChildren rn.children ≤ 1 →
      t.nodes.get p = some pn →
      pn.children ci = some i →
      (pn.has_storage_value = true ∨
        2 ≤ countChildren (fun j => if j = ci then copt else pn.children j)) →
      (match copt with
       | none => ∀ k, rn.children k = none
       | some c => ∃ cib cn, rn.children cib = some c ∧ t.nodes.get c = some cn ∧
           cn.parent = some (i, cib) ∧ c ≠ i ∧ c ≠ p ∧
           t'.nodes.get c = some {
             cn with
             partial_key := rn.partial_key ++ cib :: cn.partial_key,
             parent := some (p, ci) }) →
      t'.root_index = t.root_index →
      t'.nodes.get i = none →
      t'.nodes.get p = some {
        pn with children := fun j => if j = ci then copt else pn.children j } →
      (∀ j, j ≠ i → j ≠ p → (match copt with | some c => j ≠ c | none => True) →
        t'.nodes.get j = t.nodes.get j) →
      RemOutcome t key t'
  | collapse (t' : TrieStructure TUd) (i p s : Nat) (ci cs : Nibble)
      (rn pn sn : Node TUd) :
      existing_node_inner t key = some (.Found i true) →
      t.nodes.get i = some rn →
      rn.parent = some (p, ci) →
      (∀ k, rn.children k = none) →
      t.nodes.get p = some pn →
      pn.has_storage_value = false →
      pn.children ci = some i →
      pn.children cs = some s →
      cs ≠ ci →
      s ≠ i → s ≠ p → p ≠ i →
      (∀ k, k ≠ ci → k ≠ cs → pn.children k = none) →
      t.nodes.get s = some sn →
      sn.parent = some (p, cs) →
      t'.nodes.get i = none →
      t'.nodes.get p = none →
      t'.nodes.get s = some {
        sn with
        partial_key := pn.partial_key ++ cs :: sn.partial_key,
        parent := pn.parent } →
      (match pn.parent with
       | some (pp, si) =>
         (∃ ppn, t.nodes.get pp = some ppn ∧ pp ≠ i ∧ pp ≠ p ∧ pp ≠ s ∧
           ppn.children si = some p ∧
           t'.nodes.get pp = some {
             ppn with children := fun j => if j = si then some s else ppn.children j }) ∧
         t'.root_index = t.root_index
       | none => t'.root_index = some s) →
      (∀ j, j ≠ i → j ≠ p → j ≠ s →
        (match pn.parent with | some (pp, _) => j ≠ pp | none => True) →
        t'.nodes.get j = t.nodes.get j) →
      RemOutcome t key t'

theorem countChildren_two_exists {ch : Fin 16 → Option Nat} (h : 2 ≤ countChildren ch) :
    ∃ k1 k2, k1 ≠ k2 ∧ (ch k1).isSome = true ∧ (ch k2).isSome = true := by
  unfold countChildren at h
  cases hle : (List.finRange 16).filter (fun c => (ch c).isSome) with
  | nil => rw [hle] at h; simp at h
  | cons a tl =>
    cases htl : tl with
    | nil => rw [hle, htl] at h; simp at h
    | cons b tl2 =>
      have hma : a ∈ (List.finRange 16).filter (fun c => (ch c).isSome) := by
        rw [hle]
        exact List.mem_cons_self a tl
      have hmb : b ∈ (List.finRange 16).filter (fun c => (ch c).isSome) := by
        rw [hle, htl]
        exact List.mem_cons_of_mem a (List.mem_cons_self b tl2)
      have hnd := (List.nodup_finRange 16).filter (fun c => (ch c).isSome)
      rw [hle, htl] at hnd
      have hab : a ≠ b := by
        have hni := (List.nodup_cons.mp hnd).1
        exact fun he => hni (by rw [he]; exact List.mem_cons_self b tl2)
      exact ⟨a, b, hab, (List.mem_filter.mp hma).2, (List.mem_filter.mp hmb).2⟩

/-- Dissection of a successful `removeOp` into the decision-table cases. -/
theorem removeOp_shape {TUd : Type} {t t' : TrieStructure TUd} {key : List Nibble}
    {r : Remove TUd} (hwf : WF t) (h : removeOp t key = some (r, t')) :
    RemOutcome t key t' := by
  obtain ⟨rk, hrk⟩ := hwf.rank_exists
  unfold removeOp at h
  cases hnode : t.node key with
  | none => rw [hnode] at h; exact absurd h (by simp)
  | some e =>
    rw [hnode] at h
    cases e with
    | Vacant ca => dsimp only at h; exact absurd h (by simp)
    | Occupied acc =>
      cases acc with
      | Branch i => dsimp only at h; exact absurd h (by simp)
      | Storage i =>
        dsimp only at h
        have hinner := node_storage_inner hnode
        unfold StorageNodeAccess.remove at h
        cases hg : t.nodes.get i with
        | none => rw [hg] at h; exact absurd h (by simp)
        | some rn =>
          rw [hg] at h
          dsimp only at h
          by_cases h2 : 2 ≤ countChildren rn.children
          · rw [if_pos h2] at h
            obtain rfl : t = t' := congrArg Prod.snd (Option.some.inj h)
            exact .stb i rn hinner hg h2
          · rw [if_neg h2] at h
            have hcnt : countChildren rn.children ≤ 1 := by omega
            cases hfc : firstChild rn.children with
            | none =>
              rw [hfc] at h
              dsimp only at h
              have hchnone := firstChild_none_all hfc
              cases hp : rn.parent with
              | none =>
                rw [hp] at h
                dsimp only at h
                obtain rfl := congrArg Prod.snd (Option.some.inj h)
                exact .rootLeaf _ i rn hinner hg hp hchnone rfl
                  (Slab.get_removeAt_self _ _)
                  (fun j hj => Slab.get_removeAt_ne _ _ _ hj)
              | some pci =>
                obtain ⟨p, ci⟩ := pci
                rw [hp] at h
                dsimp only at h
                obtain ⟨pn0, hgp0, hpc0⟩ := hwf.parent_child i rn p ci hg hp
                have hpi : p ≠ i := by
                  intro he
                  have hlt := hrk i rn p ci hg hp
                  rw [he] at hlt
                  omega
                have hnp : (t.nodes.removeAt i).get p = some pn0 := by
                  rw [Slab.get_removeAt_ne _ _ _ hpi]
                  exact hgp0
                rw [hnp] at h
                dsimp only at h
                by_cases hguard : pn0.has_storage_value = true ∨
                    2 ≤ countChildren (fun j => if j = ci then none else pn0.children j)
                · rw [if_pos hguard] at h
                  obtain rfl := congrArg Prod.snd (Option.some.inj h)
                  refine .keep _ i p ci rn pn0 none hinner hg hp hpi hcnt hgp0 hpc0
                    hguard hchnone rfl ?_ ?_ ?_
                  · rw [Slab.get_setAt_ne _ _ _ _ (fun he => hpi he.symm),
                      Slab.get_removeAt_self]
                  · exact Slab.get_setAt_self _ _ _
                      (by rw [Slab.length_removeAt]; exact Slab.get_lt_length hgp0)
                  · intro j hji hjp hjc
                    rw [Slab.get_setAt_ne _ _ _ _ hjp, Slab.get_removeAt_ne _ _ _ hji]
                · rw [if_neg hguard] at h
                  push_neg at hguard
                  obtain ⟨hgA, hgB⟩ := hguard
                  have hff : pn0.has_storage_value = false := by
                    revert hgA
                    cases pn0.has_storage_value <;> simp
                  have h2p : 2 ≤ countChildren pn0.children := hwf.branch_two p pn0 hgp0 hff
                  have hle1 : countChildren (fun j => if j = ci then none
                      else pn0.children j) ≤ 1 := by omega
                  cases hfc2 : firstChild (fun j => if j = ci then none
                      else pn0.children j) with
                  | none =>
                    exfalso
                    have hall := firstChild_none_all hfc2
                    obtain ⟨k1, k2, hk12, hs1, hs2⟩ := countChildren_two_exists h2p
                    have hex : ∃ k, k ≠ ci ∧ (pn0.children k).isSome = true := by
                      by_cases h1 : k1 = ci
                      · refine ⟨k2, ?_, hs2⟩
                        intro he
                        exact hk12 (by rw [h1, he])
                      · exact ⟨k1, h1, hs1⟩
                    obtain ⟨k, hkci, hks⟩ := hex
                    have hk := hall k
                    rw [if_neg hkci] at hk
                    rw [hk] at hks
                    simp at hks
                  | some s =>
                    rw [hfc2] at h
                    dsimp only at h
                    obtain ⟨cs, hcs0⟩ := firstChild_some_exists hfc2
                    have hcsci : cs ≠ ci := by
                      intro he
                      rw [if_pos he] at hcs0
                      exact Option.noConfusion hcs0
                    have hcs : pn0.children cs = some s := by
                      rw [if_neg hcsci] at hcs0
                      exact hcs0
                    obtain ⟨sn, hgs0, hsnp⟩ := hwf.child_parent p pn0 cs s hgp0 hcs
                    have hsi : s ≠ i := by
                      intro he
                      have hrs : rn = sn := by
                        rw [he] at hgs0
                        rw [hg] at hgs0
                        exact Option.some.inj hgs0
                      rw [← hrs, hp] at hsnp
                      have := Option.some.inj hsnp
                      exact hcsci (congrArg Prod.snd this).symm
                    have hsp : s ≠ p := by
                      intro he
                      have hlt := hrk s sn p cs hgs0 hsnp
                      rw [he] at hlt
                      omega
                    have hothers : ∀ k, k ≠ ci → k ≠ cs → pn0.children k = none := by
                      intro k hkci hkcs
                      by_contra hocc
                      have hks : (pn0.children k).isSome = true :=
                        Option.ne_none_iff_isSome.mp hocc
                      have hks' : ((fun j => if j = ci then none
                          else pn0.children j) k).isSome = true := by
                        dsimp only
                        rw [if_neg hkci]
                        exact hks
                      have hcs' : ((fun j => if j = ci then none
                          else pn0.children j) cs).isSome = true := by
                        dsimp only
                        rw [if_neg hcsci, hcs]
                        rfl
                      exact hkcs (countChildren_le_one_unique _ hle1 k cs hks' hcs')
                    have hgs4 : ((((t.nodes.removeAt i).setAt p
                        { pn0 with children := fun j => if j = ci then none
                            else pn0.children j }).removeAt p).get s) = some sn := by
                      rw [Slab.get_removeAt_ne _ _ _ hsp, Slab.get_setAt_ne _ _ _ _ hsp,
                        Slab.get_removeAt_ne _ _ _ hsi]
                      exact hgs0
                    rw [hgs4] at h
                    dsimp only at h
                    rw [hsnp] at h
                    dsimp only at h
                    cases hpp : pn0.parent with
                    | none =>
                      rw [hpp] at h hgs4
                      dsimp only at h
                      obtain rfl := congrArg Prod.snd (Option.some.inj h)
                      refine .collapse _ i p s ci cs rn pn0 sn hinner hg hp hchnone
                        hgp0 hff hpc0 hcs hcsci hsi hsp hpi hothers hgs0 hsnp
                        ?_ ?_ ?_ ?_ ?_
                      · rw [Slab.get_setAt_ne _ _ _ _ (fun he => hsi he.symm),
                          Slab.get_removeAt_ne _ _ _ (fun he => hpi he.symm),
                          Slab.get_setAt_ne _ _ _ _ (fun he => hpi he.symm),
                          Slab.get_removeAt_self]
                      · rw [Slab.get_setAt_ne _ _ _ _ (fun he => hsp he.symm),
                          Slab.get_removeAt_self]
                      · rw [hpp]
                        exact Slab.get_setAt_self _ _ _ (Slab.get_lt_length hgs4)
                      · simp only [hpp]
                      · intro j hji hjp hjs hjpp
                        rw [Slab.get_setAt_ne _ _ _ _ hjs, Slab.get_removeAt_ne _ _ _ hjp,
                          Slab.get_setAt_ne _ _ _ _ hjp, Slab.get_removeAt_ne _ _ _ hji]
                    | some ppsi =>
                      obtain ⟨pp, si⟩ := ppsi
                      rw [hpp] at h hgs4
                      dsimp only at h
                      obtain ⟨ppn, hgpp, hppc⟩ := hwf.parent_child p pn0 pp si hgp0 hpp
                      have hppp : pp ≠ p := by
                        intro he
                        have hlt := hrk p pn0 pp si hgp0 hpp
                        rw [he] at hlt
                        omega
                      have hppi : pp ≠ i := by
                        intro he
                        have h1 := hrk p pn0 pp si hgp0 hpp
                        have h2' := hrk i rn p ci hg hp
                        rw [he] at h1
                        omega
                      have hpps : pp ≠ s := by
                        intro he
                        have h1 := hrk p pn0 pp si hgp0 hpp
                        have h2' := hrk s sn p cs hgs0 hsnp
                        rw [he] at h1
                        omega
                      have hgpp5 : (((((t.nodes.removeAt i).setAt p
                          { parent := some (pp, si), partial_key := pn0.partial_key,
                            children := fun j => if j = ci then none else pn0.children j,
                            has_storage_value := pn0.has_storage_value,
                            user_data := pn0.user_data }).removeAt p).setAt s
                          { parent := some (pp, si),
                            partial_key := pn0.partial_key ++ cs :: sn.partial_key,
                            children := sn.children,
                            has_storage_value := sn.has_storage_value,
                            user_data := sn.user_data }).get pp) = some ppn := by
                        rw [Slab.get_setAt_ne _ _ _ _ hpps, Slab.get_removeAt_ne _ _ _ hppp,
                          Slab.get_setAt_ne _ _ _ _ hppp, Slab.get_removeAt_ne _ _ _ hppi]
                        exact hgpp
                      rw [hgpp5] at h
                      dsimp only at h
                      obtain rfl := congrArg Prod.snd (Option.some.inj h)
                      refine .collapse _ i p s ci cs rn pn0 sn hinner hg hp hchnone
                        hgp0 hff hpc0 hcs hcsci hsi hsp hpi hothers hgs0 hsnp
                        ?_ ?_ ?_ ?_ ?_
                      · rw [Slab.get_setAt_ne _ _ _ _ (fun he => hppi he.symm),
                          Slab.get_setAt_ne _ _ _ _ (fun he => hsi he.symm),
                          Slab.get_removeAt_ne _ _ _ (fun he => hpi he.symm),
                          Slab.get_setAt_ne _ _ _ _ (fun he => hpi he.symm),
                          Slab.get_removeAt_self]
                      · rw [Slab.get_setAt_ne _ _ _ _ (fun he => hppp he.symm),
                          Slab.get_setAt_ne _ _ _ _ (fun he => hsp he.symm),
                          Slab.get_removeAt_self]
                      · rw [hpp]
                        rw [Slab.get_setAt_ne _ _ _ _ (fun he => hpps he.symm)]
                        exact Slab.get_setAt_self _ _ _ (Slab.get_lt_length hgs4)
                      · simp only [hpp]
                        refine ⟨⟨ppn, hgpp, hppi, hppp, hpps, hppc, ?_⟩, trivial⟩
                        exact Slab.get_setAt_self _ _ _ (Slab.get_lt_length hgpp5)
                      · intro j hji hjp hjs hjpp
                        simp only [hpp] at hjpp
                        rw [Slab.get_setAt_ne _ _ _ _ hjpp, Slab.get_setAt_ne _ _ _ _ hjs,
                          Slab.get_removeAt_ne _ _ _ hjp, Slab.get_setAt_ne _ _ _ _ hjp,
                          Slab.get_removeAt_ne _ _ _ hji]
            | some c =>
              rw [hfc] at h
              dsimp only at h
              obtain ⟨k0, hk0⟩ := firstChild_some_exists hfc
              obtain ⟨cn, hgc0, hcnp⟩ := hwf.child_parent i rn k0 c hg hk0
              have hci : c ≠ i := by
                intro he
                have hlt := hrk c cn i k0 hgc0 hcnp
                rw [he] at hlt
                omega
              have hnc : (t.nodes.removeAt i).get c = some cn := by
                rw [Slab.get_removeAt_ne _ _ _ hci]
                exact hgc0
              rw [hnc] at h
              dsimp only at h
              rw [hcnp] at h
              dsimp only at h
              cases hp : rn.parent with
              | none =>
                rw [hp] at h
                dsimp only at h
                have hgc2 : ((t.nodes.removeAt i).setAt c
                    { cn with
                      partial_key := rn.partial_key ++ k0 :: cn.partial_key,
                      parent := none }).get c = some {
                    cn with
                    partial_key := rn.partial_key ++ k0 :: cn.partial_key,
                    parent := none } :=
                  Slab.get_setAt_self _ _ _
                    (by rw [Slab.length_removeAt]; exact Slab.get_lt_length hgc0)
                rw [hgc2] at h
                dsimp only at h
                obtain rfl := congrArg Prod.snd (Option.some.inj h)
                refine .rootChild _ i c k0 rn cn hinner hg hp hcnt hk0 hgc0 hcnp hci
                  rfl ?_ hgc2 ?_
                · rw [Slab.get_setAt_ne _ _ _ _ (fun he => hci he.symm),
                    Slab.get_removeAt_self]
                · intro j hji hjc
                  rw [Slab.get_setAt_ne _ _ _ _ hjc, Slab.get_removeAt_ne _ _ _ hji]
              | some pci =>
                obtain ⟨p, ci⟩ := pci
                rw [hp] at h
                dsimp only at h
                obtain ⟨pn0, hgp0, hpc0⟩ := hwf.parent_child i rn p ci hg hp
                have hpi : p ≠ i := by
                  intro he
                  have hlt := hrk i rn p ci hg hp
                  rw [he] at hlt
                  omega
                have hpc' : p ≠ c := by
                  intro he
                  have h1 := hrk i rn p ci hg hp
                  have h2' := hrk c cn i k0 hgc0 hcnp
                  rw [he] at h1
                  omega
                have hnp : ((t.nodes.removeAt i).setAt c
                    { cn with
                      partial_key := rn.partial_key ++ k0 :: cn.partial_key,
                      parent := some (p, ci) }).get p = some pn0 := by
                  rw [Slab.get_setAt_ne _ _ _ _ hpc', Slab.get_removeAt_ne _ _ _ hpi]
                  exact hgp0
                rw [hnp] at h
                dsimp only at h
                by_cases hguard : pn0.has_storage_value = true ∨
                    2 ≤ countChildren (fun j => if j = ci then some c else pn0.children j)
                · rw [if_pos hguard] at h
                  have hnc3 : ((((t.nodes.removeAt i).setAt c
                      { cn with
                        partial_key := rn.partial_key ++ k0 :: cn.partial_key,
                        parent := some (p, ci) }).setAt p
                      { pn0 with children := fun j => if j = ci then some c
                          else pn0.children j }).get c) = some {
                      cn with
                      partial_key := rn.partial_key ++ k0 :: cn.partial_key,
                      parent := some (p, ci) } := by
                    rw [Slab.get_setAt_ne _ _ _ _ (fun he => hpc' he.symm)]
                    exact Slab.get_setAt_self _ _ _
                      (by rw [Slab.length_removeAt]; exact Slab.get_lt_length hgc0)
                  rw [hnc3] at h
                  dsimp only at h
                  obtain rfl := congrArg Prod.snd (Option.some.inj h)
                  refine .keep _ i p ci rn pn0 (some c) hinner hg hp hpi hcnt hgp0 hpc0
                    hguard ⟨k0, cn, hk0, hgc0, hcnp, hci, fun he => hpc' he.symm, hnc3⟩
                    rfl ?_ ?_ ?_
                  · rw [Slab.get_setAt_ne _ _ _ _ (fun he => hpi he.symm),
                      Slab.get_setAt_ne _ _ _ _ (fun he => hci he.symm),
                      Slab.get_removeAt_self]
                  · exact Slab.get_setAt_self _ _ _
                      (by
                        rw [Slab.length_setAt, Slab.length_removeAt]
                        exact Slab.get_lt_length hgp0)
                  · intro j hji hjp hjc
                    rw [Slab.get_setAt_ne _ _ _ _ hjp, Slab.get_setAt_ne _ _ _ _ hjc,
                      Slab.get_removeAt_ne _ _ _ hji]
                · exfalso
                  apply hguard
                  right
                  push_neg at hguard
                  have hff : pn0.has_storage_value = false := by
                    have hgA := hguard.1
                    revert hgA
                    cases pn0.has_storage_value <;> simp
                  have h2p : 2 ≤ countChildren pn0.children :=
                    hwf.branch_two p pn0 hgp0 hff
                  refine le_trans h2p (countChildren_mono _ _ ?_)
                  intro k hk
                  by_cases hkci : k = ci
                  · rw [hkci]
                    simp
                  · dsimp only
                    rw [if_neg hkci]
                    exact hk

/-! ## Preservation of the invariant -/

theorem WF_new {TUd : Type} : WF (TrieStructure.new : TrieStructure TUd) := by
  have hget : ∀ i, (TrieStructure.new : TrieStructure TUd).nodes.get i = none := by
    intro i
    rfl
  refine ⟨?_, ?_, ?_, ?_, ?_, ⟨fun _ => 0, ?_⟩, ?_, ?_⟩
  · intro r hr
    exact absurd hr (by simp [TrieStructure.new])
  · intro _ i
    exact hget i
  · intro i n hg
    rw [hget i] at hg
    exact absurd hg (by simp)
  · intro i n p k hg
    rw [hget i] at hg
    exact absurd hg (by simp)
  · intro i n k j hg
    rw [hget i] at hg
    exact absurd hg (by simp)
  · intro i n p k hg
    rw [hget i] at hg
    exact absurd hg (by simp)
  · intro i n hg
    rw [hget i] at hg
    exact absurd hg (by simp)
  · intro i j fi fj h1 h2 he
    obtain ⟨s1, hd1⟩ := h1
    obtain ⟨n, hn⟩ := FullKeyD_occupied hd1
    rw [hget i] at hn
    exact absurd hn (by simp)

/-- Invariant preservation for a first insertion into an empty trie. -/
theorem WF_ins_empty {TUd : Type} {t t' : TrieStructure TUd} {key : List Nibble}
    {u : TUd} {w : Nat} (hwf : WF t)
    (hroot0 : t.root_index = none)
    (hfresh : t.nodes.get w = none)
    (hroot' : t'.root_index = some w)
    (hw : t'.nodes.get w = some {
      parent := none, partial_key := key,
      children := fun _ => none, has_storage_value := true, user_data := u })
    (hframe : ∀ j, j ≠ w → t'.nodes.get j = t.nodes.get j) : WF t' := by
  have hempty : ∀ j, t.nodes.get j = none := hwf.no_root_empty hroot0
  have hocc : ∀ j n, t'.nodes.get j = some n → j = w := by
    intro j n hg
    by_contra hj
    rw [hframe j hj, hempty j] at hg
    exact Option.noConfusion hg
  have h3 : ∀ i n, t'.nodes.get i = some n → n.parent = none → t'.root_index = some i := by
    intro i n hg _
    rw [hocc i n hg]
    exact hroot'
  have h4 : ∀ i n p k, t'.nodes.get i = some n → n.parent = some (p, k) →
      ∃ m, t'.nodes.get p = some m ∧ m.children k = some i := by
    intro i n p k hg hp
    obtain rfl := hocc i n hg
    rw [hw] at hg
    obtain rfl := Option.some.inj hg
    exact absurd hp (by simp)
  refine ⟨?_, ?_, h3, h4, ?_, ⟨fun _ => 0, ?_⟩, ?_, fullkey_inj_of_links h3 h4⟩
  · intro r hr
    rw [hroot'] at hr
    obtain rfl := Option.some.inj hr.symm
    exact ⟨_, hw, rfl⟩
  · intro hn
    rw [hroot'] at hn
    exact absurd hn (by simp)
  · intro i n k j hg hc
    obtain rfl := hocc i n hg
    rw [hw] at hg
    obtain rfl := Option.some.inj hg
    exact absurd hc (by simp)
  · intro i n p k hg hp
    obtain rfl := hocc i n hg
    rw [hw] at hg
    obtain rfl := Option.some.inj hg
    exact absurd hp (by simp)
  · intro i n hg hf
    obtain rfl := hocc i n hg
    rw [hw] at hg
    obtain rfl := Option.some.inj hg
    exact absurd hf (by simp)

/-- Invariant preservation for a leaf insertion under an empty child slot. -/
theorem WF_ins_leaf {TUd : Type} {t t' : TrieStructure TUd}
    {u : TUd} {w a : Nat} {c : Nibble} {r2 : List Nibble} {an : Node TUd}
    (hwf : WF t)
    (hna : t.nodes.get a = some an)
    (hch : an.children c = none)
    (hfresh : t.nodes.get w = none)
    (haw : a ≠ w)
    (hroot' : t'.root_index = t.root_index)
    (hw : t'.nodes.get w = some {
      parent := some (a, c), partial_key := r2,
      children := fun _ => none, has_storage_value := true, user_data := u })
    (ha' : t'.nodes.get a = some {
      an with children := fun j => if j = c then some w else an.children j })
    (hframe : ∀ j, j ≠ w → j ≠ a → t'.nodes.get j = t.nodes.get j) : WF t' := by
  obtain ⟨rk, hrk⟩ := hwf.rank_exists
  have hocc_ne : ∀ j n, t.nodes.get j = some n → j ≠ w := by
    intro j n hg he
    rw [he, hfresh] at hg
    exact Option.noConfusion hg
  have hget' : ∀ j n, t.nodes.get j = some n → j ≠ a → t'.nodes.get j = some n := by
    intro j n hg hja
    rw [hframe j (hocc_ne j n hg) hja]
    exact hg
  have hget : ∀ j n, t'.nodes.get j = some n → j ≠ w → j ≠ a → t.nodes.get j = some n := by
    intro j n hg hjw hja
    rw [← hframe j hjw hja]
    exact hg
  have h3 : ∀ i n, t'.nodes.get i = some n → n.parent = none →
      t'.root_index = some i := by
    intro i n hg hp
    by_cases hiw : w = i
    · subst hiw
      rw [hw] at hg
      obtain rfl := Option.some.inj hg
      exact absurd hp (by simp)
    · by_cases hia : a = i
      · subst hia
        rw [ha'] at hg
        obtain rfl := Option.some.inj hg
        rw [hroot']
        exact hwf.parentless_root a an hna hp
      · rw [hroot']
        exact hwf.parentless_root i n
          (hget i n hg (fun he => hiw he.symm) (fun he => hia he.symm)) hp
  have h4 : ∀ i n p k, t'.nodes.get i = some n → n.parent = some (p, k) →
      ∃ m, t'.nodes.get p = some m ∧ m.children k = some i := by
    intro i n p k hg hp
    by_cases hiw : w = i
    · subst hiw
      rw [hw] at hg
      obtain rfl := Option.some.inj hg
      have hpa : a = p := congrArg Prod.fst (Option.some.inj hp)
      have hkc : c = k := congrArg Prod.snd (Option.some.inj hp)
      subst hpa
      subst hkc
      refine ⟨_, ha', ?_⟩
      show (if c = c then some w else an.children c) = some w
      rw [if_pos rfl]
    · have hiw' : i ≠ w := fun he => hiw he.symm
      have hedge : ∃ n0, t.nodes.get i = some n0 ∧ n0.parent = some (p, k) := by
        by_cases hia : a = i
        · subst hia
          rw [ha'] at hg
          obtain rfl := Option.some.inj hg
          exact ⟨an, hna, hp⟩
        · exact ⟨n, hget i n hg hiw' (fun he => hia he.symm), hp⟩
      obtain ⟨n0, hg0, hp0⟩ := hedge
      obtain ⟨m, hm, hmc⟩ := hwf.parent_child i n0 p k hg0 hp0
      by_cases hpa : a = p
      · subst hpa
        have hma : an = m := by rw [hna] at hm; exact Option.some.inj hm
        have hmc' : an.children k = some i := by rw [hma]; exact hmc
        have hkc : k ≠ c := by
          intro he
          rw [he, hch] at hmc'
          exact Option.noConfusion hmc'
        refine ⟨_, ha', ?_⟩
        show (if k = c then some w else an.children k) = some i
        rw [if_neg hkc]
        exact hmc'
      · exact ⟨m, hget' p m hm (fun he => hpa he.symm), hmc⟩
  have h5 : ∀ i n k j, t'.nodes.get i = some n → n.children k = some j →
      ∃ m, t'.nodes.get j = some m ∧ m.parent = some (i, k) := by
    intro i n k j hg hc
    by_cases hiw : w = i
    · subst hiw
      rw [hw] at hg
      obtain rfl := Option.some.inj hg
      exact absurd hc (by simp)
    · have hiw' : i ≠ w := fun he => hiw he.symm
      by_cases hia : a = i
      · subst hia
        rw [ha'] at hg
        obtain rfl := Option.some.inj hg
        have hc' : (if k = c then some w else an.children k) = some j := hc
        by_cases hkc : c = k
        · subst hkc
          rw [if_pos rfl] at hc'
          have hjw : w = j := Option.some.inj hc'
          subst hjw
          exact ⟨_, hw, rfl⟩
        · rw [if_neg (fun he => hkc he.symm)] at hc'
          obtain ⟨m, hm, hmp⟩ := hwf.child_parent a an k j hna hc'
          have hja : j ≠ a := by
            intro he
            have hlt := hrk j m a k hm hmp
            rw [he] at hlt
            omega
          exact ⟨m, hget' j m hm hja, hmp⟩
      · have hgt := hget i n hg hiw' (fun he => hia he.symm)
        obtain ⟨m, hm, hmp⟩ := hwf.child_parent i n k j hgt hc
        by_cases hja : a = j
        · subst hja
          have hma : an = m := by rw [hna] at hm; exact Option.some.inj hm
          refine ⟨_, ha', ?_⟩
          show an.parent = some (i, k)
          rw [hma]
          exact hmp
        · exact ⟨m, hget' j m hm (fun he => hja he.symm), hmp⟩
  have h6 : ∃ rk2 : Nat → Nat, ∀ i n p k, t'.nodes.get i = some n →
      n.parent = some (p, k) → rk2 p < rk2 i := by
    refine ⟨fun j => if j = w then rk a + 1 else rk j, ?_⟩
    intro i n p k hg hp
    by_cases hiw : w = i
    · subst hiw
      rw [hw] at hg
      obtain rfl := Option.some.inj hg
      have hpa : a = p := congrArg Prod.fst (Option.some.inj hp)
      subst hpa
      show (if a = w then rk a + 1 else rk a) < (if w = w then rk a + 1 else rk w)
      rw [if_neg haw, if_pos rfl]
      omega
    · have hiw' : i ≠ w := fun he => hiw he.symm
      have hedge : ∃ n0, t.nodes.get i = some n0 ∧ n0.parent = some (p, k) := by
        by_cases hia : a = i
        · subst hia
          rw [ha'] at hg
          obtain rfl := Option.some.inj hg
          exact ⟨an, hna, hp⟩
        · exact ⟨n, hget i n hg hiw' (fun he => hia he.symm), hp⟩
      obtain ⟨n0, hg0, hp0⟩ := hedge
      obtain ⟨m, hm, -⟩ := hwf.parent_child i n0 p k hg0 hp0
      show (if p = w then rk a + 1 else rk p) < (if i = w then rk a + 1 else rk i)
      rw [if_neg (hocc_ne p m hm), if_neg hiw']
      exact hrk i n0 p k hg0 hp0
  have h7 : ∀ i n, t'.nodes.get i = some n → n.has_storage_value = false →
      2 ≤ countChildren n.children := by
    intro i n hg hf
    by_cases hiw : w = i
    · subst hiw
      rw [hw] at hg
      obtain rfl := Option.some.inj hg
      exact absurd hf (by simp)
    · have hiw' : i ≠ w := fun he => hiw he.symm
      by_cases hia : a = i
      · subst hia
        rw [ha'] at hg
        obtain rfl := Option.some.inj hg
        have h2 := hwf.branch_two a an hna hf
        refine le_trans h2 (countChildren_mono _ _ ?_)
        intro k hk
        by_cases hkc : k = c
        · rw [hkc, hch] at hk
          exact absurd hk (by simp)
        · show (if k = c then some w else an.children k).isSome = true
          rw [if_neg hkc]
          exact hk
      · exact hwf.branch_two i n (hget i n hg hiw' (fun he => hia he.symm)) hf
  have h1 : ∀ r, t'.root_index = some r → ∃ n, t'.nodes.get r = some n ∧
      n.parent = none := by
    intro r hr
    rw [hroot'] at hr
    obtain ⟨n, hn, hpn⟩ := hwf.root_node r hr
    by_cases hra : a = r
    · subst hra
      have hma : an = n := by rw [hna] at hn; exact Option.some.inj hn
      refine ⟨_, ha', ?_⟩
      show an.parent = none
      rw [hma]
      exact hpn
    · exact ⟨n, hget' r n hn (fun he => hra he.symm), hpn⟩
  have h2' : t'.root_index = none → ∀ i, t'.nodes.get i = none := by
    intro hn
    exfalso
    rw [hroot'] at hn
    have he := hwf.no_root_empty hn a
    rw [he] at hna
    exact Option.noConfusion hna
  exact ⟨h1, h2', h3, h4, h5, h6, h7, fullkey_inj_of_links h3 h4⟩

/-- Invariant preservation for a branch-split insertion. -/
theorem WF_ins_split {TUd : Type} {t t' : TrieStructure TUd}
    {u bud : TUd} {bIdx sIdx X : Nat} {bp : Option (Nat × Nibble)}
    {tail : List Nibble} {len : Nat} {cs cx : Nibble} {xn : Node TUd}
    (hwf : WF t)
    (hX : t.nodes.get X = some xn)
    (hxp : xn.parent = bp)
    (hne : cs ≠ cx)
    (hbs : bIdx ≠ sIdx) (hXb : X ≠ bIdx) (hXs : X ≠ sIdx)
    (hbfresh : t.nodes.get bIdx = none) (hsfresh : t.nodes.get sIdx = none)
    (hgb : t'.nodes.get bIdx = some {
      parent := bp, partial_key := tail.take len,
      children := fun j => if j = cs then some sIdx else if j = cx then some X else none,
      has_storage_value := false, user_data := bud })
    (hgs : t'.nodes.get sIdx = some {
      parent := some (bIdx, cs), partial_key := tail.drop (len + 1),
      children := fun _ => none, has_storage_value := true, user_data := u })
    (hgX : t'.nodes.get X = some {
      xn with
      parent := some (bIdx, cx),
      partial_key := xn.partial_key.drop (len + 1) })
    (hmatch : match bp with
       | some (a, c) =>
         (∃ an, t.nodes.get a = some an ∧ t'.nodes.get a = some {
           an with children := fun j => if j = c then some bIdx else an.children j }) ∧
         t'.root_index = t.root_index
       | none => t'.root_index = some bIdx)
    (hframe : ∀ j, j ≠ bIdx → j ≠ sIdx → j ≠ X →
        (match bp with | some (a, _) => j ≠ a | none => True) →
        t'.nodes.get j = t.nodes.get j) : WF t' := by
  obtain ⟨rk, hrk⟩ := hwf.rank_exists
  have hocc_b : ∀ j n, t.nodes.get j = some n → j ≠ bIdx := by
    intro j n hg he
    rw [he, hbfresh] at hg
    exact Option.noConfusion hg
  have hocc_s : ∀ j n, t.nodes.get j = some n → j ≠ sIdx := by
    intro j n hg he
    rw [he, hsfresh] at hg
    exact Option.noConfusion hg
  cases bp with
  | none =>
    have hrootX : t.root_index = some X := hwf.parentless_root X xn hX hxp
    have hget' : ∀ j n, t.nodes.get j = some n → j ≠ X → t'.nodes.get j = some n := by
      intro j n hg hjX
      rw [hframe j (hocc_b j n hg) (hocc_s j n hg) hjX trivial]
      exact hg
    have hget : ∀ j n, t'.nodes.get j = some n → j ≠ bIdx → j ≠ sIdx → j ≠ X →
        t.nodes.get j = some n := by
      intro j n hg hb hs hx
      rw [← hframe j hb hs hx trivial]
      exact hg
    have h3 : ∀ i n, t'.nodes.get i = some n → n.parent = none →
        t'.root_index = some i := by
      intro i n hg hp
      by_cases hib : bIdx = i
      · subst hib
        exact hmatch
      · by_cases his : sIdx = i
        · subst his
          rw [hgs] at hg
          obtain rfl := Option.some.inj hg
          exact absurd hp (by simp)
        · by_cases hiX : X = i
          · subst hiX
            rw [hgX] at hg
            obtain rfl := Option.some.inj hg
            exact absurd hp (by simp)
          · exfalso
            have hgt := hget i n hg (fun he => hib he.symm) (fun he => his he.symm)
              (fun he => hiX he.symm)
            have hri := hwf.parentless_root i n hgt hp
            rw [hrootX] at hri
            exact hiX (Option.some.inj hri)
    have h4 : ∀ i n p k, t'.nodes.get i = some n → n.parent = some (p, k) →
        ∃ m, t'.nodes.get p = some m ∧ m.children k = some i := by
      intro i n p k hg hp
      by_cases hib : bIdx = i
      · subst hib
        rw [hgb] at hg
        obtain rfl := Option.some.inj hg
        exact absurd hp (by simp)
      · by_cases his : sIdx = i
        · subst his
          rw [hgs] at hg
          obtain rfl := Option.some.inj hg
          have hpb : bIdx = p := congrArg Prod.fst (Option.some.inj hp)
          have hkc : cs = k := congrArg Prod.snd (Option.some.inj hp)
          subst hpb
          subst hkc
          refine ⟨_, hgb, ?_⟩
          show (if cs = cs then some sIdx else if cs = cx then some X else none) = some sIdx
          rw [if_pos rfl]
        · by_cases hiX : X = i
          · subst hiX
            rw [hgX] at hg
            obtain rfl := Option.some.inj hg
            have hpb : bIdx = p := congrArg Prod.fst (Option.some.inj hp)
            have hkc : cx = k := congrArg Prod.snd (Option.some.inj hp)
            subst hpb
            subst hkc
            refine ⟨_, hgb, ?_⟩
            show (if cx = cs then some sIdx else if cx = cx then some X else none) = some X
            rw [if_neg (fun he => hne he.symm), if_pos rfl]
          · have hgt := hget i n hg (fun he => hib he.symm) (fun he => his he.symm)
              (fun he => hiX he.symm)
            obtain ⟨m, hm, hmc⟩ := hwf.parent_child i n p k hgt hp
            by_cases hpX : X = p
            · subst hpX
              have hmx : xn = m := by rw [hX] at hm; exact Option.some.inj hm
              refine ⟨_, hgX, ?_⟩
              show xn.children k = some i
              rw [hmx]
              exact hmc
            · exact ⟨m, hget' p m hm (fun he => hpX he.symm), hmc⟩
    have h5 : ∀ i n k j, t'.nodes.get i = some n → n.children k = some j →
        ∃ m, t'.nodes.get j = some m ∧ m.parent = some (i, k) := by
      intro i n k j hg hc
      by_cases hib : bIdx = i
      · subst hib
        rw [hgb] at hg
        obtain rfl := Option.some.inj hg
        have hc' : (if k = cs then some sIdx else if k = cx then some X else none) =
            some j := hc
        by_cases hks : k = cs
        · subst hks
          rw [if_pos rfl] at hc'
          have hjs : sIdx = j := Option.some.inj hc'
          subst hjs
          exact ⟨_, hgs, rfl⟩
        · rw [if_neg hks] at hc'
          by_cases hkx : k = cx
          · subst hkx
            rw [if_pos rfl] at hc'
            have hjX : X = j := Option.some.inj hc'
            subst hjX
            exact ⟨_, hgX, rfl⟩
          · rw [if_neg hkx] at hc'
            exact absurd hc' (by simp)
      · by_cases his : sIdx = i
        · subst his
          rw [hgs] at hg
          obtain rfl := Option.some.inj hg
          exact absurd hc (by simp)
        · by_cases hiX : X = i
          · subst hiX
            rw [hgX] at hg
            obtain rfl := Option.some.inj hg
            have hc' : xn.children k = some j := hc
            obtain ⟨m, hm, hmp⟩ := hwf.child_parent X xn k j hX hc'
            have hjX : j ≠ X := by
              intro he
              have hlt := hrk j m X k hm hmp
              rw [he] at hlt
              omega
            exact ⟨m, hget' j m hm hjX, hmp⟩
          · have hgt := hget i n hg (fun he => hib he.symm) (fun he => his he.symm)
              (fun he => hiX he.symm)
            obtain ⟨m, hm, hmp⟩ := hwf.child_parent i n k j hgt hc
            by_cases hjX : X = j
            · subst hjX
              have hmx : xn = m := by rw [hX] at hm; exact Option.some.inj hm
              rw [← hmx, hxp] at hmp
              exact absurd hmp (by simp)
            · exact ⟨m, hget' j m hm (fun he => hjX he.symm), hmp⟩
    have h6 : ∃ rk2 : Nat → Nat, ∀ i n p k, t'.nodes.get i = some n →
        n.parent = some (p, k) → rk2 p < rk2 i := by
      refine ⟨fun j => if j = bIdx then 2 * rk X + 1
        else if j = sIdx then 2 * rk X + 2 else 2 * rk j + 2, ?_⟩
      intro i n p k hg hp
      by_cases hib : bIdx = i
      · subst hib
        rw [hgb] at hg
        obtain rfl := Option.some.inj hg
        exact absurd hp (by simp)
      · by_cases his : sIdx = i
        · subst his
          rw [hgs] at hg
          obtain rfl := Option.some.inj hg
          have hpb : bIdx = p := congrArg Prod.fst (Option.some.inj hp)
          subst hpb
          show (if bIdx = bIdx then 2 * rk X + 1 else _) <
            (if sIdx = bIdx then _ else if sIdx = sIdx then 2 * rk X + 2 else _)
          rw [if_pos rfl, if_neg (fun he => hbs he.symm), if_pos rfl]
          omega
        · by_cases hiX : X = i
          · subst hiX
            rw [hgX] at hg
            obtain rfl := Option.some.inj hg
            have hpb : bIdx = p := congrArg Prod.fst (Option.some.inj hp)
            subst hpb
            show (if bIdx = bIdx then 2 * rk X + 1 else _) <
              (if X = bIdx then _ else if X = sIdx then _ else 2 * rk X + 2)
            rw [if_pos rfl, if_neg hXb, if_neg hXs]
            omega
          · have hgt := hget i n hg (fun he => hib he.symm) (fun he => his he.symm)
              (fun he => hiX he.symm)
            obtain ⟨m, hm, hmc⟩ := hwf.parent_child i n p k hgt hp
            have hlt := hrk i n p k hgt hp
            show (if p = bIdx then _ else if p = sIdx then _ else 2 * rk p + 2) <
              (if i = bIdx then _ else if i = sIdx then _ else 2 * rk i + 2)
            rw [if_neg (hocc_b p m hm), if_neg (hocc_s p m hm),
              if_neg (fun he => hib he.symm), if_neg (fun he => his he.symm)]
            omega
    have h7 : ∀ i n, t'.nodes.get i = some n → n.has_storage_value = false →
        2 ≤ countChildren n.children := by
      intro i n hg hf
      by_cases hib : bIdx = i
      · subst hib
        rw [hgb] at hg
        obtain rfl := Option.some.inj hg
        refine two_le_countChildren _ cs cx ?_ ?_ hne
        · show (if cs = cs then some sIdx else if cs = cx then some X else none).isSome = true
          rw [if_pos rfl]
          rfl
        · show (if cx = cs then some sIdx else if cx = cx then some X else none).isSome = true
          rw [if_neg (fun he => hne he.symm), if_pos rfl]
          rfl
      · by_cases his : sIdx = i
        · subst his
          rw [hgs] at hg
          obtain rfl := Option.some.inj hg
          exact absurd hf (by simp)
        · by_cases hiX : X = i
          · subst hiX
            rw [hgX] at hg
            obtain rfl := Option.some.inj hg
            exact hwf.branch_two X xn hX hf
          · exact hwf.branch_two i n (hget i n hg (fun he => hib he.symm)
              (fun he => his he.symm) (fun he => hiX he.symm)) hf
    have h1 : ∀ r, t'.root_index = some r → ∃ n, t'.nodes.get r = some n ∧
        n.parent = none := by
      intro r hr
      rw [hmatch] at hr
      obtain rfl : bIdx = r := Option.some.inj hr
      exact ⟨_, hgb, rfl⟩
    have h2' : t'.root_index = none → ∀ i, t'.nodes.get i = none := by
      intro hn
      rw [hmatch] at hn
      exact absurd hn (by simp)
    exact ⟨h1, h2', h3, h4, h5, h6, h7, fullkey_inj_of_links h3 h4⟩
  | some ac =>
    obtain ⟨a, c⟩ := ac
    obtain ⟨⟨an, han, hga'⟩, hroot'⟩ := hmatch
    have haX : a ≠ X := by
      intro he
      have hlt := hrk X xn a c hX hxp
      rw [he] at hlt
      omega
    have hchaX : an.children c = some X := by
      obtain ⟨m, hm, hmc⟩ := hwf.parent_child X xn a c hX hxp
      have hma : an = m := by rw [han] at hm; exact Option.some.inj hm
      rw [hma]
      exact hmc
    have hget' : ∀ j n, t.nodes.get j = some n → j ≠ X → j ≠ a →
        t'.nodes.get j = some n := by
      intro j n hg hjX hja
      rw [hframe j (hocc_b j n hg) (hocc_s j n hg) hjX hja]
      exact hg
    have hget : ∀ j n, t'.nodes.get j = some n → j ≠ bIdx → j ≠ sIdx → j ≠ X →
        j ≠ a → t.nodes.get j = some n := by
      intro j n hg hb hs hx ha2
      rw [← hframe j hb hs hx ha2]
      exact hg
    have h3 : ∀ i n, t'.nodes.get i = some n → n.parent = none →
        t'.root_index = some i := by
      intro i n hg hp
      by_cases hib : bIdx = i
      · subst hib
        rw [hgb] at hg
        obtain rfl := Option.some.inj hg
        exact absurd hp (by simp)
      · by_cases his : sIdx = i
        · subst his
          rw [hgs] at hg
          obtain rfl := Option.some.inj hg
          exact absurd hp (by simp)
        · by_cases hiX : X = i
          · subst hiX
            rw [hgX] at hg
            obtain rfl := Option.some.inj hg
            exact absurd hp (by simp)
          · by_cases hia : a = i
            · subst hia
              rw [hga'] at hg
              obtain rfl := Option.some.inj hg
              rw [hroot']
              exact hwf.parentless_root a an han hp
            · rw [hroot']
              exact hwf.parentless_root i n (hget i n hg (fun he => hib he.symm)
                (fun he => his he.symm) (fun he => hiX he.symm) (fun he => hia he.symm)) hp
    have h4 : ∀ i n p k, t'.nodes.get i = some n → n.parent = some (p, k) →
        ∃ m, t'.nodes.get p = some m ∧ m.children k = some i := by
      intro i n p k hg hp
      by_cases hib : bIdx = i
      · subst hib
        rw [hgb] at hg
        obtain rfl := Option.some.inj hg
        have hpa : a = p := congrArg Prod.fst (Option.some.inj hp)
        have hkc : c = k := congrArg Prod.snd (Option.some.inj hp)
        subst hpa
        subst hkc
        refine ⟨_, hga', ?_⟩
        show (if c = c then some bIdx else an.children c) = some bIdx
        rw [if_pos rfl]
      · by_cases his : sIdx = i
        · subst his
          rw [hgs] at hg
          obtain rfl := Option.some.inj hg
          have hpb : bIdx = p := congrArg Prod.fst (Option.some.inj hp)
          have hkc : cs = k := congrArg Prod.snd (Option.some.inj hp)
          subst hpb
          subst hkc
          refine ⟨_, hgb, ?_⟩
          show (if cs = cs then some sIdx else if cs = cx then some X else none) = some sIdx
          rw [if_pos rfl]
        · by_cases hiX : X = i
          · subst hiX
            rw [hgX] at hg
            obtain rfl := Option.some.inj hg
            have hpb : bIdx = p := congrArg Prod.fst (Option.some.inj hp)
            have hkc : cx = k := congrArg Prod.snd (Option.some.inj hp)
            subst hpb
            subst hkc
            refine ⟨_, hgb, ?_⟩
            show (if cx = cs then some sIdx else if cx = cx then some X else none) = some X
            rw [if_neg (fun he => hne he.symm), if_pos rfl]
          · have hedge : ∃ n0, t.nodes.get i = some n0 ∧ n0.parent = some (p, k) := by
              by_cases hia : a = i
              · subst hia
                rw [hga'] at hg
                obtain rfl := Option.some.inj hg
                exact ⟨an, han, hp⟩
              · exact ⟨n, hget i n hg (fun he => hib he.symm) (fun he => his he.symm)
                  (fun he => hiX he.symm) (fun he => hia he.symm), hp⟩
            obtain ⟨n0, hg0, hp0⟩ := hedge
            obtain ⟨m, hm, hmc⟩ := hwf.parent_child i n0 p k hg0 hp0
            by_cases hpX : X = p
            · subst hpX
              have hmx : xn = m := by rw [hX] at hm; exact Option.some.inj hm
              refine ⟨_, hgX, ?_⟩
              show xn.children k = some i
              rw [hmx]
              exact hmc
            · by_cases hpa : a = p
              · subst hpa
                have hma : an = m := by rw [han] at hm; exact Option.some.inj hm
                have hmc' : an.children k = some i := by rw [hma]; exact hmc
                have hkc : k ≠ c := by
                  intro he
                  rw [he, hchaX] at hmc'
                  exact hiX (Option.some.inj hmc')
                refine ⟨_, hga', ?_⟩
                show (if k = c then some bIdx else an.children k) = some i
                rw [if_neg hkc]
                exact hmc'
              · refine ⟨m, hget' p m hm (fun he => hpX he.symm) (fun he => hpa he.symm), hmc⟩
    have h5 : ∀ i n k j, t'.nodes.get i = some n → n.children k = some j →
        ∃ m, t'.nodes.get j = some m ∧ m.parent = some (i, k) := by
      intro i n k j hg hc
      by_cases hib : bIdx = i
      · subst hib
        rw [hgb] at hg
        obtain rfl := Option.some.inj hg
        have hc' : (if k = cs then some sIdx else if k = cx then some X else none) =
            some j := hc
        by_cases hks : k = cs
        · subst hks
          rw [if_pos rfl] at hc'
          have hjs : sIdx = j := Option.some.inj hc'
          subst hjs
          exact ⟨_, hgs, rfl⟩
        · rw [if_neg hks] at hc'
          by_cases hkx : k = cx
          · subst hkx
            rw [if_pos rfl] at hc'
            have hjX : X = j := Option.some.inj hc'
            subst hjX
            exact ⟨_, hgX, rfl⟩
          · rw [if_neg hkx] at hc'
            exact absurd hc' (by simp)
      · by_cases his : sIdx = i
        · subst his
          rw [hgs] at hg
          obtain rfl := Option.some.inj hg
          exact absurd hc (by simp)
        · by_cases hiX : X = i
          · subst hiX
            rw [hgX] at hg
            obtain rfl := Option.some.inj hg
            have hc' : xn.children k = some j := hc
            obtain ⟨m, hm, hmp⟩ := hwf.child_parent X xn k j hX hc'
            have hjX : j ≠ X := by
              intro he
              have hlt := hrk j m X k hm hmp
              rw [he] at hlt
              omega
            have hja : j ≠ a := by
              intro he
              have hma : an = m := by rw [he, han] at hm; exact Option.some.inj hm
              have h1 := hrk j m X k hm hmp
              have h2 := hrk X xn a c hX hxp
              rw [he] at h1
              omega
            exact ⟨m, hget' j m hm hjX hja, hmp⟩
          · by_cases hia : a = i
            · subst hia
              rw [hga'] at hg
              obtain rfl := Option.some.inj hg
              have hc' : (if k = c then some bIdx else an.children k) = some j := hc
              by_cases hkc : k = c
              · subst hkc
                rw [if_pos rfl] at hc'
                have hjb : bIdx = j := Option.some.inj hc'
                subst hjb
                exact ⟨_, hgb, rfl⟩
              · rw [if_neg hkc] at hc'
                obtain ⟨m, hm, hmp⟩ := hwf.child_parent a an k j han hc'
                have hjX : j ≠ X := by
                  intro he
                  have hmx : xn = m := by rw [he, hX] at hm; exact Option.some.inj hm
                  rw [← hmx, hxp] at hmp
                  have := congrArg Prod.snd (Option.some.inj hmp)
                  exact hkc this.symm
                have hja : j ≠ a := by
                  intro he
                  have hlt := hrk j m a k hm hmp
                  rw [he] at hlt
                  omega
                exact ⟨m, hget' j m hm hjX hja, hmp⟩
            · have hgt := hget i n hg (fun he => hib he.symm) (fun he => his he.symm)
                (fun he => hiX he.symm) (fun he => hia he.symm)
              obtain ⟨m, hm, hmp⟩ := hwf.child_parent i n k j hgt hc
              by_cases hjX : X = j
              · subst hjX
                have hmx : xn = m := by rw [hX] at hm; exact Option.some.inj hm
                rw [← hmx, hxp] at hmp
                have hia2 : a = i := congrArg Prod.fst (Option.some.inj hmp)
                exact absurd hia2 hia
              · by_cases hja : a = j
                · subst hja
                  have hma : an = m := by rw [han] at hm; exact Option.some.inj hm
                  refine ⟨_, hga', ?_⟩
                  show an.parent = some (i, k)
                  rw [hma]
                  exact hmp
                · exact ⟨m, hget' j m hm (fun he => hjX he.symm)
                    (fun he => hja he.symm), hmp⟩
    have h6 : ∃ rk2 : Nat → Nat, ∀ i n p k, t'.nodes.get i = some n →
        n.parent = some (p, k) → rk2 p < rk2 i := by
      refine ⟨fun j => if j = bIdx then 2 * rk X + 1
        else if j = sIdx then 2 * rk X + 2 else 2 * rk j + 2, ?_⟩
      intro i n p k hg hp
      by_cases hib : bIdx = i
      · subst hib
        rw [hgb] at hg
        obtain rfl := Option.some.inj hg
        have hpa : a = p := congrArg Prod.fst (Option.some.inj hp)
        subst hpa
        have hlt : rk a < rk X := hrk X xn a c hX hxp
        show (if a = bIdx then _ else if a = sIdx then _ else 2 * rk a + 2) <
          (if bIdx = bIdx then 2 * rk X + 1 else _)
        rw [if_neg (hocc_b a an han), if_neg (hocc_s a an han), if_pos rfl]
        omega
      · by_cases his : sIdx = i
        · subst his
          rw [hgs] at hg
          obtain rfl := Option.some.inj hg
          have hpb : bIdx = p := congrArg Prod.fst (Option.some.inj hp)
          subst hpb
          show (if bIdx = bIdx then 2 * rk X + 1 else _) <
            (if sIdx = bIdx then _ else if sIdx = sIdx then 2 * rk X + 2 else _)
          rw [if_pos rfl, if_neg (fun he => hbs he.symm), if_pos rfl]
          omega
        · by_cases hiX : X = i
          · subst hiX
            rw [hgX] at hg
            obtain rfl := Option.some.inj hg
            have hpb : bIdx = p := congrArg Prod.fst (Option.some.inj hp)
            subst hpb
            show (if bIdx = bIdx then 2 * rk X + 1 else _) <
              (if X = bIdx then _ else if X = sIdx then _ else 2 * rk X + 2)
            rw [if_pos rfl, if_neg hXb, if_neg hXs]
            omega
          · have hedge : ∃ n0, t.nodes.get i = some n0 ∧ n0.parent = some (p, k) := by
              by_cases hia : a = i
              · subst hia
                rw [hga'] at hg
                obtain rfl := Option.some.inj hg
                exact ⟨an, han, hp⟩
              · exact ⟨n, hget i n hg (fun he => hib he.symm) (fun he => his he.symm)
                  (fun he => hiX he.symm) (fun he => hia he.symm), hp⟩
            obtain ⟨n0, hg0, hp0⟩ := hedge
            obtain ⟨m, hm, -⟩ := hwf.parent_child i n0 p k hg0 hp0
            have hlt := hrk i n0 p k hg0 hp0
            show (if p = bIdx then _ else if p = sIdx then _ else 2 * rk p + 2) <
              (if i = bIdx then _ else if i = sIdx then _ else 2 * rk i + 2)
            rw [if_neg (hocc_b p m hm), if_neg (hocc_s p m hm),
              if_neg (fun he => hib he.symm), if_neg (fun he => his he.symm)]
            omega
    have h7 : ∀ i n, t'.nodes.get i = some n → n.has_storage_value = false →
        2 ≤ countChildren n.children := by
      intro i n hg hf
      by_cases hib : bIdx = i
      · subst hib
        rw [hgb] at hg
        obtain rfl := Option.some.inj hg
        refine two_le_countChildren _ cs cx ?_ ?_ hne
        · show (if cs = cs then some sIdx else if cs = cx then some X else none).isSome = true
          rw [if_pos rfl]
          rfl
        · show (if cx = cs then some sIdx else if cx = cx then some X else none).isSome = true
          rw [if_neg (fun he => hne he.symm), if_pos rfl]
          rfl
      · by_cases his : sIdx = i
        · subst his
          rw [hgs] at hg
          obtain rfl := Option.some.inj hg
          exact absurd hf (by simp)
        · by_cases hiX : X = i
          · subst hiX
            rw [hgX] at hg
            obtain rfl := Option.some.inj hg
            exact hwf.branch_two X xn hX hf
          · by_cases hia : a = i
            · subst hia
              rw [hga'] at hg
              obtain rfl := Option.some.inj hg
              have h2 := hwf.branch_two a an han hf
              refine le_trans h2 (countChildren_mono _ _ ?_)
              intro k hk
              by_cases hkc : k = c
              · show (if k = c then some bIdx else an.children k).isSome = true
                rw [if_pos hkc]
                rfl
              · show (if k = c then some bIdx else an.children k).isSome = true
                rw [if_neg hkc]
                exact hk
            · exact hwf.branch_two i n (hget i n hg (fun he => hib he.symm)
                (fun he => his he.symm) (fun he => hiX he.symm) (fun he => hia he.symm)) hf
    have h1 : ∀ r, t'.root_index = some r → ∃ n, t'.nodes.get r = some n ∧
        n.parent = none := by
      intro r hr
      rw [hroot'] at hr
      obtain ⟨n, hn, hpn⟩ := hwf.root_node r hr
      by_cases hrX : X = r
      · subst hrX
        have hmx : xn = n := by rw [hX] at hn; exact Option.some.inj hn
        rw [← hmx, hxp] at hpn
        exact absurd hpn (by simp)
      · by_cases hra : a = r
        · subst hra
          have hma : an = n := by rw [han] at hn; exact Option.some.inj hn
          refine ⟨_, hga', ?_⟩
          show an.parent = none
          rw [hma]
          exact hpn
        · exact ⟨n, hget' r n hn (fun he => hrX he.symm) (fun he => hra he.symm), hpn⟩
    have h2' : t'.root_index = none → ∀ i, t'.nodes.get i = none := by
      intro hn
      exfalso
      rw [hroot'] at hn
      have he := hwf.no_root_empty hn X
      rw [he] at hX
      exact Option.noConfusion hX
    exact ⟨h1, h2', h3, h4, h5, h6, h7, fullkey_inj_of_links h3 h4⟩

/-- Invariant preservation when only one node's storage flag is raised. -/
theorem WF_flag {TUd : Type} {t t' : TrieStructure TUd} {i : Nat} {n : Node TUd}
    (hwf : WF t)
    (hg : t.nodes.get i = some n)
    (hroot' : t'.root_index = t.root_index)
    (hgi' : t'.nodes.get i = some { n with has_storage_value := true })
    (hframe : ∀ j, j ≠ i → t'.nodes.get j = t.nodes.get j) : WF t' := by
  have hget : ∀ j m, t'.nodes.get j = some m →
      ∃ m0, t.nodes.get j = some m0 ∧ m0.parent = m.parent ∧
        m0.children = m.children ∧ m0.partial_key = m.partial_key := by
    intro j m hm
    by_cases hji : i = j
    · subst hji
      rw [hgi'] at hm
      obtain rfl := Option.some.inj hm
      exact ⟨n, hg, rfl, rfl, rfl⟩
    · rw [hframe j (fun he => hji he.symm)] at hm
      exact ⟨m, hm, rfl, rfl, rfl⟩
  have hget' : ∀ j m, t.nodes.get j = some m → ∃ m2, t'.nodes.get j = some m2 ∧
      m2.parent = m.parent ∧ m2.children = m.children := by
    intro j m hm
    by_cases hji : i = j
    · subst hji
      rw [hg] at hm
      obtain rfl := Option.some.inj hm
      exact ⟨_, hgi', rfl, rfl⟩
    · exact ⟨m, by rw [hframe j (fun he => hji he.symm)]; exact hm, rfl, rfl⟩
  have h3 : ∀ i2 n2, t'.nodes.get i2 = some n2 → n2.parent = none →
      t'.root_index = some i2 := by
    intro i2 n2 hg2 hp2
    obtain ⟨m0, hm0, hp0, -, -⟩ := hget i2 n2 hg2
    rw [hroot']
    exact hwf.parentless_root i2 m0 hm0 (by rw [hp0, hp2])
  have h4 : ∀ i2 n2 p k, t'.nodes.get i2 = some n2 → n2.parent = some (p, k) →
      ∃ m, t'.nodes.get p = some m ∧ m.children k = some i2 := by
    intro i2 n2 p k hg2 hp2
    obtain ⟨m0, hm0, hp0, -, -⟩ := hget i2 n2 hg2
    obtain ⟨m, hm, hmc⟩ := hwf.parent_child i2 m0 p k hm0 (by rw [hp0, hp2])
    obtain ⟨m2, hm2, -, hch2⟩ := hget' p m hm
    exact ⟨m2, hm2, by rw [hch2]; exact hmc⟩
  have h5 : ∀ i2 n2 k j, t'.nodes.get i2 = some n2 → n2.children k = some j →
      ∃ m, t'.nodes.get j = some m ∧ m.parent = some (i2, k) := by
    intro i2 n2 k j hg2 hc2
    obtain ⟨m0, hm0, -, hch0, -⟩ := hget i2 n2 hg2
    obtain ⟨m, hm, hmp⟩ := hwf.child_parent i2 m0 k j hm0 (by rw [hch0, hc2])
    obtain ⟨m2, hm2, hp2, -⟩ := hget' j m hm
    exact ⟨m2, hm2, by rw [hp2]; exact hmp⟩
  have h6 : ∃ rk2 : Nat → Nat, ∀ i2 n2 p k, t'.nodes.get i2 = some n2 →
      n2.parent = some (p, k) → rk2 p < rk2 i2 := by
    obtain ⟨rk, hrk⟩ := hwf.rank_exists
    refine ⟨rk, ?_⟩
    intro i2 n2 p k hg2 hp2
    obtain ⟨m0, hm0, hp0, -, -⟩ := hget i2 n2 hg2
    exact hrk i2 m0 p k hm0 (by rw [hp0, hp2])
  have h7 : ∀ i2 n2, t'.nodes.get i2 = some n2 → n2.has_storage_value = false →
      2 ≤ countChildren n2.children := by
    intro i2 n2 hg2 hf2
    by_cases hji : i = i2
    · subst hji
      rw [hgi'] at hg2
      obtain rfl := Option.some.inj hg2
      exact absurd hf2 (by simp)
    · rw [hframe i2 (fun he => hji he.symm)] at hg2
      exact hwf.branch_two i2 n2 hg2 hf2
  have h1 : ∀ r, t'.root_index = some r → ∃ n2, t'.nodes.get r = some n2 ∧
      n2.parent = none := by
    intro r hr
    rw [hroot'] at hr
    obtain ⟨n0, hn0, hpn0⟩ := hwf.root_node r hr
    obtain ⟨m2, hm2, hp2, -⟩ := hget' r n0 hn0
    exact ⟨m2, hm2, by rw [hp2, hpn0]⟩
  have h2' : t'.root_index = none → ∀ j, t'.nodes.get j = none := by
    intro hn
    exfalso
    rw [hroot'] at hn
    have he := hwf.no_root_empty hn i
    rw [he] at hg
    exact Option.noConfusion hg
  exact ⟨h1, h2', h3, h4, h5, h6, h7, fullkey_inj_of_links h3 h4⟩

/-- A parentless node with no children is the only node of a well-formed
trie. -/
theorem root_leaf_only {TUd : Type} {t : TrieStructure TUd} (hwf : WF t)
    {i : Nat} {rn : Node TUd}
    (hg : t.nodes.get i = some rn) (hp : rn.parent = none)
    (hch : ∀ k, rn.children k = none) :
    ∀ j, j ≠ i → t.nodes.get j = none := by
  have honly : ∀ j fk seen, FullKeyD t j fk seen → j = i := by
    intro j fk seen hd
    induction hd with
    | root hgj hpj =>
      rename_i j0 n
      have h1 := hwf.parentless_root j0 n hgj hpj
      have h2 := hwf.parentless_root i rn hg hp
      rw [h1] at h2
      exact Option.some.inj h2
    | child hpar hgj hpj ih =>
      rename_i q fq seenq j0 n c
      exfalso
      obtain ⟨m, hm, hmc⟩ := hwf.parent_child j0 n q c hgj hpj
      rw [ih] at hm
      have hmr : rn = m := by rw [hg] at hm; exact Option.some.inj hm
      rw [← hmr] at hmc
      rw [hch c] at hmc
      exact Option.noConfusion hmc
  intro j hj
  cases hgj : t.nodes.get j with
  | none => rfl
  | some n =>
    exfalso
    obtain ⟨fk, seen, hd⟩ := hwf.fullKey_exists j n hgj
    exact hj (honly j fk seen hd)

/-- Invariant preservation for removing a childless root. -/
theorem WF_rem_rootLeaf {TUd : Type} {t t' : TrieStructure TUd} {i : Nat}
    {rn : Node TUd} (hwf : WF t)
    (hg : t.nodes.get i = some rn)
    (hp : rn.parent = none)
    (hch : ∀ k, rn.children k = none)
    (hroot' : t'.root_index = none)
    (hgi' : t'.nodes.get i = none)
    (hframe : ∀ j, j ≠ i → t'.nodes.get j = t.nodes.get j) : WF t' := by
  have hempty : ∀ j, t'.nodes.get j = none := by
    intro j
    by_cases hji : i = j
    · subst hji
      exact hgi'
    · rw [hframe j (fun he => hji he.symm)]
      exact root_leaf_only hwf hg hp hch j (fun he => hji he.symm)
  have h3 : ∀ i2 n, t'.nodes.get i2 = some n → n.parent = none →
      t'.root_index = some i2 := by
    intro i2 n hg2
    rw [hempty i2] at hg2
    exact absurd hg2 (by simp)
  have h4 : ∀ i2 n p k, t'.nodes.get i2 = some n → n.parent = some (p, k) →
      ∃ m, t'.nodes.get p = some m ∧ m.children k = some i2 := by
    intro i2 n p k hg2
    rw [hempty i2] at hg2
    exact absurd hg2 (by simp)
  refine ⟨?_, fun _ => hempty, h3, h4, ?_, ⟨fun _ => 0, ?_⟩, ?_,
    fullkey_inj_of_links h3 h4⟩
  · intro r hr
    rw [hroot'] at hr
    exact absurd hr (by simp)
  · intro i2 n k j hg2
    rw [hempty i2] at hg2
    exact absurd hg2 (by simp)
  · intro i2 n p k hg2
    rw [hempty i2] at hg2
    exact absurd hg2 (by simp)
  · intro i2 n hg2
    rw [hempty i2] at hg2
    exact absurd hg2 (by simp)

/-- Invariant preservation for removing a root whose single child takes its
place. -/
theorem WF_rem_rootChild {TUd : Type} {t t' : TrieStructure TUd} {i c : Nat}
    {cib : Nibble} {rn cn : Node TUd} (hwf : WF t)
    (hg : t.nodes.get i = some rn)
    (hp : rn.parent = none)
    (hcnt : countChildren rn.children ≤ 1)
    (hk0 : rn.children cib = some c)
    (hgc : t.nodes.get c = some cn)
    (hcnp : cn.parent = some (i, cib))
    (hci : c ≠ i)
    (hroot' : t'.root_index = some c)
    (hgi' : t'.nodes.get i = none)
    (hgc' : t'.nodes.get c = some {
      cn with
      partial_key := rn.partial_key ++ cib :: cn.partial_key,
      parent := none })
    (hframe : ∀ j, j ≠ i → j ≠ c → t'.nodes.get j = t.nodes.get j) : WF t' := by
  obtain ⟨rk, hrk⟩ := hwf.rank_exists
  have huniq : ∀ k x, rn.children k = some x → x = c := by
    intro k x hk
    have hkk : k = cib := countChildren_le_one_unique _ hcnt k cib
      (by rw [hk]; rfl) (by rw [hk0]; rfl)
    rw [hkk, hk0] at hk
    exact (Option.some.inj hk).symm
  have hget' : ∀ j n, t.nodes.get j = some n → j ≠ i → j ≠ c →
      t'.nodes.get j = some n := by
    intro j n hgj hji hjc
    rw [hframe j hji hjc]
    exact hgj
  have hget : ∀ j n, t'.nodes.get j = some n → j ≠ i → j ≠ c →
      t.nodes.get j = some n := by
    intro j n hgj hji hjc
    rw [← hframe j hji hjc]
    exact hgj
  have hrooti : t.root_index = some i := hwf.parentless_root i rn hg hp
  have h3 : ∀ i2 n, t'.nodes.get i2 = some n → n.parent = none →
      t'.root_index = some i2 := by
    intro i2 n hg2 hp2
    by_cases hic : c = i2
    · subst hic
      exact hroot'
    · by_cases hii : i = i2
      · subst hii
        rw [hgi'] at hg2
        exact absurd hg2 (by simp)
      · exfalso
        have hgt := hget i2 n hg2 (fun he => hii he.symm) (fun he => hic he.symm)
        have hri := hwf.parentless_root i2 n hgt hp2
        rw [hrooti] at hri
        exact hii (Option.some.inj hri)
  have h4 : ∀ i2 n p k, t'.nodes.get i2 = some n → n.parent = some (p, k) →
      ∃ m, t'.nodes.get p = some m ∧ m.children k = some i2 := by
    intro i2 n p k hg2 hp2
    by_cases hic : c = i2
    · subst hic
      rw [hgc'] at hg2
      obtain rfl := Option.some.inj hg2
      exact absurd hp2 (by simp)
    · by_cases hii : i = i2
      · subst hii
        rw [hgi'] at hg2
        exact absurd hg2 (by simp)
      · have hgt := hget i2 n hg2 (fun he => hii he.symm) (fun he => hic he.symm)
        obtain ⟨m, hm, hmc⟩ := hwf.parent_child i2 n p k hgt hp2
        have hpi : p ≠ i := by
          intro he
          rw [he] at hm
          have hmr : rn = m := by rw [hg] at hm; exact Option.some.inj hm
          rw [← hmr] at hmc
          exact hic (huniq k i2 hmc).symm
        by_cases hpc : c = p
        · subst hpc
          have hmc2 : cn = m := by rw [hgc] at hm; exact Option.some.inj hm
          refine ⟨_, hgc', ?_⟩
          show cn.children k = some i2
          rw [hmc2]
          exact hmc
        · exact ⟨m, hget' p m hm hpi (fun he => hpc he.symm), hmc⟩
  have h5 : ∀ i2 n k j, t'.nodes.get i2 = some n → n.children k = some j →
      ∃ m, t'.nodes.get j = some m ∧ m.parent = some (i2, k) := by
    intro i2 n k j hg2 hc2
    by_cases hic : c = i2
    · subst hic
      rw [hgc'] at hg2
      obtain rfl := Option.some.inj hg2
      have hc' : cn.children k = some j := hc2
      obtain ⟨m, hm, hmp⟩ := hwf.child_parent c cn k j hgc hc'
      have hji : j ≠ i := by
        intro he
        have hmr : rn = m := by rw [he, hg] at hm; exact Option.some.inj hm
        rw [← hmr, hp] at hmp
        exact Option.noConfusion hmp
      have hjc : j ≠ c := by
        intro he
        have hlt := hrk j m c k hm hmp
        rw [he] at hlt
        omega
      exact ⟨m, hget' j m hm hji hjc, hmp⟩
    · by_cases hii : i = i2
      · subst hii
        rw [hgi'] at hg2
        exact absurd hg2 (by simp)
      · have hgt := hget i2 n hg2 (fun he => hii he.symm) (fun he => hic he.symm)
        obtain ⟨m, hm, hmp⟩ := hwf.child_parent i2 n k j hgt hc2
        have hji : j ≠ i := by
          intro he
          have hmr : rn = m := by rw [he, hg] at hm; exact Option.some.inj hm
          rw [← hmr, hp] at hmp
          exact Option.noConfusion hmp
        by_cases hjc : c = j
        · subst hjc
          have hmc2 : cn = m := by rw [hgc] at hm; exact Option.some.inj hm
          rw [← hmc2, hcnp] at hmp
          have h0 := Option.some.inj hmp
          simp only [Prod.mk.injEq] at h0
          exact absurd h0.1 hii
        · exact ⟨m, hget' j m hm hji (fun he => hjc he.symm), hmp⟩
  have h6 : ∃ rk2 : Nat → Nat, ∀ i2 n p k, t'.nodes.get i2 = some n →
      n.parent = some (p, k) → rk2 p < rk2 i2 := by
    refine ⟨rk, ?_⟩
    intro i2 n p k hg2 hp2
    by_cases hic : c = i2
    · subst hic
      rw [hgc'] at hg2
      obtain rfl := Option.some.inj hg2
      exact absurd hp2 (by simp)
    · by_cases hii : i = i2
      · subst hii
        rw [hgi'] at hg2
        exact absurd hg2 (by simp)
      · have hgt := hget i2 n hg2 (fun he => hii he.symm) (fun he => hic he.symm)
        exact hrk i2 n p k hgt hp2
  have h7 : ∀ i2 n, t'.nodes.get i2 = some n → n.has_storage_value = false →
      2 ≤ countChildren n.children := by
    intro i2 n hg2 hf2
    by_cases hic : c = i2
    · subst hic
      rw [hgc'] at hg2
      obtain rfl := Option.some.inj hg2
      exact hwf.branch_two c cn hgc hf2
    · by_cases hii : i = i2
      · subst hii
        rw [hgi'] at hg2
        exact absurd hg2 (by simp)
      · exact hwf.branch_two i2 n
          (hget i2 n hg2 (fun he => hii he.symm) (fun he => hic he.symm)) hf2
  have h1 : ∀ r, t'.root_index = some r → ∃ n, t'.nodes.get r = some n ∧
      n.parent = none := by
    intro r hr
    rw [hroot'] at hr
    obtain rfl : c = r := Option.some.inj hr
    exact ⟨_, hgc', rfl⟩
  have h2' : t'.root_index = none → ∀ j, t'.nodes.get j = none := by
    intro hn
    rw [hroot'] at hn
    exact absurd hn (by simp)
  exact ⟨h1, h2', h3, h4, h5, h6, h7, fullkey_inj_of_links h3 h4⟩

/-- Invariant preservation for removing a childless non-root leaf whose
parent keeps standing. -/
theorem WF_rem_keep_none {TUd : Type} {t t' : TrieStructure TUd} {i p : Nat}
    {ci : Nibble} {rn pn : Node TUd} (hwf : WF t)
    (hg : t.nodes.get i = some rn)
    (hp : rn.parent = some (p, ci))
    (hpi : p ≠ i)
    (hgp : t.nodes.get p = some pn)
    (hpc : pn.children ci = some i)
    (hguard : pn.has_storage_value = true ∨
      2 ≤ countChildren (fun j => if j = ci then none else pn.children j))
    (hchnone : ∀ k, rn.children k = none)
    (hroot' : t'.root_index = t.root_index)
    (hgi' : t'.nodes.get i = none)
    (hgp' : t'.nodes.get p = some {
      pn with children := fun j => if j = ci then none else pn.children j })
    (hframe : ∀ j, j ≠ i → j ≠ p → t'.nodes.get j = t.nodes.get j) : WF t' := by
  obtain ⟨rk, hrk⟩ := hwf.rank_exists
  have hget' : ∀ j n, t.nodes.get j = some n → j ≠ i → j ≠ p →
      t'.nodes.get j = some n := by
    intro j n hgj hji hjp
    rw [hframe j hji hjp]
    exact hgj
  have hget : ∀ j n, t'.nodes.get j = some n → j ≠ i → j ≠ p →
      t.nodes.get j = some n := by
    intro j n hgj hji hjp
    rw [← hframe j hji hjp]
    exact hgj
  have h3 : ∀ i2 n, t'.nodes.get i2 = some n → n.parent = none →
      t'.root_index = some i2 := by
    intro i2 n hg2 hp2
    by_cases hip : p = i2
    · subst hip
      rw [hgp'] at hg2
      obtain rfl := Option.some.inj hg2
      rw [hroot']
      exact hwf.parentless_root p pn hgp hp2
    · by_cases hii : i = i2
      · subst hii
        rw [hgi'] at hg2
        exact absurd hg2 (by simp)
      · rw [hroot']
        exact hwf.parentless_root i2 n
          (hget i2 n hg2 (fun he => hii he.symm) (fun he => hip he.symm)) hp2
  have h4 : ∀ i2 n p2 k, t'.nodes.get i2 = some n → n.parent = some (p2, k) →
      ∃ m, t'.nodes.get p2 = some m ∧ m.children k = some i2 := by
    intro i2 n p2 k hg2 hp2
    by_cases hii : i = i2
    · subst hii
      rw [hgi'] at hg2
      exact absurd hg2 (by simp)
    · have hedge : ∃ n0, t.nodes.get i2 = some n0 ∧ n0.parent = some (p2, k) := by
        by_cases hip : p = i2
        · subst hip
          rw [hgp'] at hg2
          obtain rfl := Option.some.inj hg2
          exact ⟨pn, hgp, hp2⟩
        · exact ⟨n, hget i2 n hg2 (fun he => hii he.symm) (fun he => hip he.symm), hp2⟩
      obtain ⟨n0, hg0, hp0⟩ := hedge
      obtain ⟨m, hm, hmc⟩ := hwf.parent_child i2 n0 p2 k hg0 hp0
      have hp2i : p2 ≠ i := by
        intro he
        have hmr : rn = m := by rw [he, hg] at hm; exact Option.some.inj hm
        rw [← hmr, hchnone k] at hmc
        exact Option.noConfusion hmc
      by_cases hp2p : p = p2
      · subst hp2p
        have hmp2 : pn = m := by rw [hgp] at hm; exact Option.some.inj hm
        have hmc' : pn.children k = some i2 := by rw [hmp2]; exact hmc
        have hkci : k ≠ ci := by
          intro he
          rw [he, hpc] at hmc'
          exact hii (Option.some.inj hmc')
        refine ⟨_, hgp', ?_⟩
        show (if k = ci then none else pn.children k) = some i2
        rw [if_neg hkci]
        exact hmc'
      · exact ⟨m, hget' p2 m hm hp2i (fun he => hp2p he.symm), hmc⟩
  have h5 : ∀ i2 n k j, t'.nodes.get i2 = some n → n.children k = some j →
      ∃ m, t'.nodes.get j = some m ∧ m.parent = some (i2, k) := by
    intro i2 n k j hg2 hc2
    by_cases hii : i = i2
    · subst hii
      rw [hgi'] at hg2
      exact absurd hg2 (by simp)
    · by_cases hip : p = i2
      · subst hip
        rw [hgp'] at hg2
        obtain rfl := Option.some.inj hg2
        have hc' : (if k = ci then none else pn.children k) = some j := hc2
        by_cases hkci : k = ci
        · rw [if_pos hkci] at hc'
          exact absurd hc' (by simp)
        · rw [if_neg hkci] at hc'
          obtain ⟨m, hm, hmp⟩ := hwf.child_parent p pn k j hgp hc'
          have hji : j ≠ i := by
            intro he
            have hmr : rn = m := by rw [he, hg] at hm; exact Option.some.inj hm
            rw [← hmr, hp] at hmp
            have h0 := Option.some.inj hmp
            simp only [Prod.mk.injEq] at h0
            exact hkci h0.2.symm
          by_cases hjp : p = j
          · subst hjp
            have hlt := hrk p m p k hm hmp
            omega
          · exact ⟨m, hget' j m hm hji (fun he => hjp he.symm), hmp⟩
      · have hgt := hget i2 n hg2 (fun he => hii he.symm) (fun he => hip he.symm)
        obtain ⟨m, hm, hmp⟩ := hwf.child_parent i2 n k j hgt hc2
        have hji : j ≠ i := by
          intro he
          have hmr : rn = m := by rw [he, hg] at hm; exact Option.some.inj hm
          rw [← hmr, hp] at hmp
          have h0 := Option.some.inj hmp
          simp only [Prod.mk.injEq] at h0
          exact hip h0.1
        by_cases hjp : p = j
        · subst hjp
          have hmp2 : pn = m := by rw [hgp] at hm; exact Option.some.inj hm
          refine ⟨_, hgp', ?_⟩
          show pn.parent = some (i2, k)
          rw [hmp2]
          exact hmp
        · exact ⟨m, hget' j m hm hji (fun he => hjp he.symm), hmp⟩
  have h6 : ∃ rk2 : Nat → Nat, ∀ i2 n p2 k, t'.nodes.get i2 = some n →
      n.parent = some (p2, k) → rk2 p2 < rk2 i2 := by
    refine ⟨rk, ?_⟩
    intro i2 n p2 k hg2 hp2
    by_cases hii : i = i2
    · subst hii
      rw [hgi'] at hg2
      exact absurd hg2 (by simp)
    · have hedge : ∃ n0, t.nodes.get i2 = some n0 ∧ n0.parent = some (p2, k) := by
        by_cases hip : p = i2
        · subst hip
          rw [hgp'] at hg2
          obtain rfl := Option.some.inj hg2
          exact ⟨pn, hgp, hp2⟩
        · exact ⟨n, hget i2 n hg2 (fun he => hii he.symm) (fun he => hip he.symm), hp2⟩
      obtain ⟨n0, hg0, hp0⟩ := hedge
      exact hrk i2 n0 p2 k hg0 hp0
  have h7 : ∀ i2 n, t'.nodes.get i2 = some n → n.has_storage_value = false →
      2 ≤ countChildren n.children := by
    intro i2 n hg2 hf2
    by_cases hii : i = i2
    · subst hii
      rw [hgi'] at hg2
      exact absurd hg2 (by simp)
    · by_cases hip : p = i2
      · subst hip
        rw [hgp'] at hg2
        obtain rfl := Option.some.inj hg2
        rcases hguard with hflag | hcount
        · rw [hflag] at hf2
          exact absurd hf2 (by simp)
        · exact hcount
      · exact hwf.branch_two i2 n
          (hget i2 n hg2 (fun he => hii he.symm) (fun he => hip he.symm)) hf2
  have h1 : ∀ r, t'.root_index = some r → ∃ n, t'.nodes.get r = some n ∧
      n.parent = none := by
    intro r hr
    rw [hroot'] at hr
    obtain ⟨n, hn, hpn⟩ := hwf.root_node r hr
    have hri : r ≠ i := by
      intro he
      have hmr : rn = n := by rw [he, hg] at hn; exact Option.some.inj hn
      rw [← hmr, hp] at hpn
      exact Option.noConfusion hpn
    by_cases hrp : p = r
    · subst hrp
      have hmp2 : pn = n := by rw [hgp] at hn; exact Option.some.inj hn
      refine ⟨_, hgp', ?_⟩
      show pn.parent = none
      rw [hmp2]
      exact hpn
    · exact ⟨n, hget' r n hn hri (fun he => hrp he.symm), hpn⟩
  have h2' : t'.root_index = none → ∀ j, t'.nodes.get j = none := by
    intro hn
    exfalso
    rw [hroot'] at hn
    have he := hwf.no_root_empty hn p
    rw [he] at hgp
    exact Option.noConfusion hgp
  exact ⟨h1, h2', h3, h4, h5, h6, h7, fullkey_inj_of_links h3 h4⟩

/-- Invariant preservation for removing a one-child non-root node whose
parent keeps standing: the child replaces it in the parent's slot. -/
theorem WF_rem_keep_child {TUd : Type} {t t' : TrieStructure TUd} {i p c : Nat}
    {ci cib : Nibble} {rn pn cn : Node TUd} (hwf : WF t)
    (hg : t.nodes.get i = some rn)
    (hp : rn.parent = some (p, ci))
    (hpi : p ≠ i)
    (hcnt : countChildren rn.children ≤ 1)
    (hgp : t.nodes.get p = some pn)
    (hpc : pn.children ci = some i)
    (hguard : pn.has_storage_value = true ∨
      2 ≤ countChildren (fun j => if j = ci then some c else pn.children j))
    (hk0 : rn.children cib = some c)
    (hgc : t.nodes.get c = some cn)
    (hcnp : cn.parent = some (i, cib))
    (hci : c ≠ i)
    (hcp : c ≠ p)
    (hgc' : t'.nodes.get c = some {
      cn with
      partial_key := rn.partial_key ++ cib :: cn.partial_key,
      parent := some (p, ci) })
    (hroot' : t'.root_index = t.root_index)
    (hgi' : t'.nodes.get i = none)
    (hgp' : t'.nodes.get p = some {
      pn with children := fun j => if j = ci then some c else pn.children j })
    (hframe : ∀ j, j ≠ i → j ≠ p → j ≠ c → t'.nodes.get j = t.nodes.get j) : WF t' := by
  obtain ⟨rk, hrk⟩ := hwf.rank_exists
  have huniq : ∀ k x, rn.children k = some x → x = c := by
    intro k x hk
    have hkk : k = cib := countChildren_le_one_unique _ hcnt k cib
      (by rw [hk]; rfl) (by rw [hk0]; rfl)
    rw [hkk, hk0] at hk
    exact (Option.some.inj hk).symm
  have hget' : ∀ j n, t.nodes.get j = some n → j ≠ i → j ≠ p → j ≠ c →
      t'.nodes.get j = some n := by
    intro j n hgj hji hjp hjc
    rw [hframe j hji hjp hjc]
    exact hgj
  have hget : ∀ j n, t'.nodes.get j = some n → j ≠ i → j ≠ p → j ≠ c →
      t.nodes.get j = some n := by
    intro j n hgj hji hjp hjc
    rw [← hframe j hji hjp hjc]
    exact hgj
  have h3 : ∀ i2 n, t'.nodes.get i2 = some n → n.parent = none →
      t'.root_index = some i2 := by
    intro i2 n hg2 hp2
    by_cases hip : p = i2
    · subst hip
      rw [hgp'] at hg2
      obtain rfl := Option.some.inj hg2
      rw [hroot']
      exact hwf.parentless_root p pn hgp hp2
    · by_cases hii : i = i2
      · subst hii
        rw [hgi'] at hg2
        exact absurd hg2 (by simp)
      · by_cases hic : c = i2
        · subst hic
          rw [hgc'] at hg2
          obtain rfl := Option.some.inj hg2
          exact absurd hp2 (by simp)
        · rw [hroot']
          exact hwf.parentless_root i2 n (hget i2 n hg2 (fun he => hii he.symm)
            (fun he => hip he.symm) (fun he => hic he.symm)) hp2
  have h4 : ∀ i2 n p2 k, t'.nodes.get i2 = some n → n.parent = some (p2, k) →
      ∃ m, t'.nodes.get p2 = some m ∧ m.children k = some i2 := by
    intro i2 n p2 k hg2 hp2
    by_cases hii : i = i2
    · subst hii
      rw [hgi'] at hg2
      exact absurd hg2 (by simp)
    · by_cases hic : c = i2
      · subst hic
        rw [hgc'] at hg2
        obtain rfl := Option.some.inj hg2
        have hpp : p = p2 := congrArg Prod.fst (Option.some.inj hp2)
        have hkci : ci = k := congrArg Prod.snd (Option.some.inj hp2)
        subst hpp
        subst hkci
        refine ⟨_, hgp', ?_⟩
        show (if ci = ci then some c else pn.children ci) = some c
        rw [if_pos rfl]
      · have hedge : ∃ n0, t.nodes.get i2 = some n0 ∧ n0.parent = some (p2, k) := by
          by_cases hip : p = i2
          · subst hip
            rw [hgp'] at hg2
            obtain rfl := Option.some.inj hg2
            exact ⟨pn, hgp, hp2⟩
          · exact ⟨n, hget i2 n hg2 (fun he => hii he.symm) (fun he => hip he.symm)
              (fun he => hic he.symm), hp2⟩
        obtain ⟨n0, hg0, hp0⟩ := hedge
        obtain ⟨m, hm, hmc⟩ := hwf.parent_child i2 n0 p2 k hg0 hp0
        have hp2i : p2 ≠ i := by
          intro he
          have hmr : rn = m := by rw [he, hg] at hm; exact Option.some.inj hm
          rw [← hmr] at hmc
          exact hic (huniq k i2 hmc).symm
        by_cases hp2p : p = p2
        · subst hp2p
          have hmp2 : pn = m := by rw [hgp] at hm; exact Option.some.inj hm
          have hmc' : pn.children k = some i2 := by rw [hmp2]; exact hmc
          have hkci : k ≠ ci := by
            intro he
            rw [he, hpc] at hmc'
            exact hii (Option.some.inj hmc')
          refine ⟨_, hgp', ?_⟩
          show (if k = ci then some c else pn.children k) = some i2
          rw [if_neg hkci]
          exact hmc'
        · by_cases hp2c : c = p2
          · subst hp2c
            have hmc2 : cn = m := by rw [hgc] at hm; exact Option.some.inj hm
            refine ⟨_, hgc', ?_⟩
            show cn.children k = some i2
            rw [hmc2]
            exact hmc
          · exact ⟨m, hget' p2 m hm hp2i (fun he => hp2p he.symm)
              (fun he => hp2c he.symm), hmc⟩
  have h5 : ∀ i2 n k j, t'.nodes.get i2 = some n → n.children k = some j →
      ∃ m, t'.nodes.get j = some m ∧ m.parent = some (i2, k) := by
    intro i2 n k j hg2 hc2
    by_cases hii : i = i2
    · subst hii
      rw [hgi'] at hg2
      exact absurd hg2 (by simp)
    · by_cases hip : p = i2
      · subst hip
        rw [hgp'] at hg2
        obtain rfl := Option.some.inj hg2
        have hc' : (if k = ci then some c else pn.children k) = some j := hc2
        by_cases hkci : k = ci
        · subst hkci
          rw [if_pos rfl] at hc'
          have hjc : c = j := Option.some.inj hc'
          subst hjc
          exact ⟨_, hgc', rfl⟩
        · rw [if_neg hkci] at hc'
          obtain ⟨m, hm, hmp⟩ := hwf.child_parent p pn k j hgp hc'
          have hji : j ≠ i := by
            intro he
            have hmr : rn = m := by rw [he, hg] at hm; exact Option.some.inj hm
            rw [← hmr, hp] at hmp
            have h0 := Option.some.inj hmp
            simp only [Prod.mk.injEq] at h0
            exact hkci h0.2.symm
          have hjc : j ≠ c := by
            intro he
            have hmc2 : cn = m := by rw [he, hgc] at hm; exact Option.some.inj hm
            rw [← hmc2, hcnp] at hmp
            have h0 := Option.some.inj hmp
            simp only [Prod.mk.injEq] at h0
            exact hpi h0.1.symm
          by_cases hjp : p = j
          · subst hjp
            have hlt := hrk p m p k hm hmp
            omega
          · exact ⟨m, hget' j m hm hji (fun he => hjp he.symm) hjc, hmp⟩
      · by_cases hic : c = i2
        · subst hic
          rw [hgc'] at hg2
          obtain rfl := Option.some.inj hg2
          have hc' : cn.children k = some j := hc2
          obtain ⟨m, hm, hmp⟩ := hwf.child_parent c cn k j hgc hc'
          have hji : j ≠ i := by
            intro he
            have hmr : rn = m := by rw [he, hg] at hm; exact Option.some.inj hm
            rw [← hmr, hp] at hmp
            have h0 := Option.some.inj hmp
            simp only [Prod.mk.injEq] at h0
            exact hcp h0.1.symm
          have hjp : j ≠ p := by
            intro he
            have hmp2 : pn = m := by rw [he, hgp] at hm; exact Option.some.inj hm
            rw [← hmp2] at hmp
            have h1 := hrk p pn c k hgp hmp
            have h2 := hrk i rn p ci hg hp
            have h3' := hrk c cn i cib hgc hcnp
            omega
          have hjc : j ≠ c := by
            intro he
            have hlt := hrk j m c k hm hmp
            rw [he] at hlt
            omega
          exact ⟨m, hget' j m hm hji hjp hjc, hmp⟩
        · have hgt := hget i2 n hg2 (fun he => hii he.symm) (fun he => hip he.symm)
            (fun he => hic he.symm)
          obtain ⟨m, hm, hmp⟩ := hwf.child_parent i2 n k j hgt hc2
          have hji : j ≠ i := by
            intro he
            have hmr : rn = m := by rw [he, hg] at hm; exact Option.some.inj hm
            rw [← hmr, hp] at hmp
            have h0 := Option.some.inj hmp
            simp only [Prod.mk.injEq] at h0
            exact hip h0.1
          have hjc : j ≠ c := by
            intro he
            have hmc2 : cn = m := by rw [he, hgc] at hm; exact Option.some.inj hm
            rw [← hmc2, hcnp] at hmp
            have h0 := Option.some.inj hmp
            simp only [Prod.mk.injEq] at h0
            exact hii h0.1
          by_cases hjp : p = j
          · subst hjp
            have hmp2 : pn = m := by rw [hgp] at hm; exact Option.some.inj hm
            refine ⟨_, hgp', ?_⟩
            show pn.parent = some (i2, k)
            rw [hmp2]
            exact hmp
          · exact ⟨m, hget' j m hm hji (fun he => hjp he.symm) hjc, hmp⟩
  have h6 : ∃ rk2 : Nat → Nat, ∀ i2 n p2 k, t'.nodes.get i2 = some n →
      n.parent = some (p2, k) → rk2 p2 < rk2 i2 := by
    refine ⟨rk, ?_⟩
    intro i2 n p2 k hg2 hp2
    by_cases hii : i = i2
    · subst hii
      rw [hgi'] at hg2
      exact absurd hg2 (by simp)
    · by_cases hic : c = i2
      · subst hic
        rw [hgc'] at hg2
        obtain rfl := Option.some.inj hg2
        have hpp : p = p2 := congrArg Prod.fst (Option.some.inj hp2)
        subst hpp
        have h1 := hrk i rn p ci hg hp
        have h2 := hrk c cn i cib hgc hcnp
        omega
      · have hedge : ∃ n0, t.nodes.get i2 = some n0 ∧ n0.parent = some (p2, k) := by
          by_cases hip : p = i2
          · subst hip
            rw [hgp'] at hg2
            obtain rfl := Option.some.inj hg2
            exact ⟨pn, hgp, hp2⟩
          · exact ⟨n, hget i2 n hg2 (fun he => hii he.symm) (fun he => hip he.symm)
              (fun he => hic he.symm), hp2⟩
        obtain ⟨n0, hg0, hp0⟩ := hedge
        exact hrk i2 n0 p2 k hg0 hp0
  have h7 : ∀ i2 n, t'.nodes.get i2 = some n → n.has_storage_value = false →
      2 ≤ countChildren n.children := by
    intro i2 n hg2 hf2
    by_cases hii : i = i2
    · subst hii
      rw [hgi'] at hg2
      exact absurd hg2 (by simp)
    · by_cases hip : p = i2
      · subst hip
        rw [hgp'] at hg2
        obtain rfl := Option.some.inj hg2
        rcases hguard with hflag | hcount
        · rw [hflag] at hf2
          exact absurd hf2 (by simp)
        · exact hcount
      · by_cases hic : c = i2
        · subst hic
          rw [hgc'] at hg2
          obtain rfl := Option.some.inj hg2
          exact hwf.branch_two c cn hgc hf2
        · exact hwf.branch_two i2 n (hget i2 n hg2 (fun he => hii he.symm)
            (fun he => hip he.symm) (fun he => hic he.symm)) hf2
  have h1 : ∀ r, t'.root_index = some r → ∃ n, t'.nodes.get r = some n ∧
      n.parent = none := by
    intro r hr
    rw [hroot'] at hr
    obtain ⟨n, hn, hpn⟩ := hwf.root_node r hr
    have hri : r ≠ i := by
      intro he
      have hmr : rn = n := by rw [he, hg] at hn; exact Option.some.inj hn
      rw [← hmr, hp] at hpn
      exact Option.noConfusion hpn
    have hrc : r ≠ c := by
      intro he
      have hmc2 : cn = n := by rw [he, hgc] at hn; exact Option.some.inj hn
      rw [← hmc2, hcnp] at hpn
      exact Option.noConfusion hpn
    by_cases hrp : p = r
    · subst hrp
      have hmp2 : pn = n := by rw [hgp] at hn; exact Option.some.inj hn
      refine ⟨_, hgp', ?_⟩
      show pn.parent = none
      rw [hmp2]
      exact hpn
    · exact ⟨n, hget' r n hn hri (fun he => hrp he.symm) hrc, hpn⟩
  have h2' : t'.root_index = none → ∀ j, t'.nodes.get j = none := by
    intro hn
    exfalso
    rw [hroot'] at hn
    have he := hwf.no_root_empty hn p
    rw [he] at hgp
    exact Option.noConfusion hgp
  exact ⟨h1, h2', h3, h4, h5, h6, h7, fullkey_inj_of_links h3 h4⟩

/-- Invariant preservation for the `BranchAlsoRemoved` outcome: the leaf and
its two-child branch parent are freed and the sibling takes the branch's
place. -/
theorem WF_rem_collapse {TUd : Type} {t t' : TrieStructure TUd} {i p s : Nat}
    {ci cs : Nibble} {rn pn sn : Node TUd} (hwf : WF t)
    (hg : t.nodes.get i = some rn)
    (hp : rn.parent = some (p, ci))
    (hchnone : ∀ k, rn.children k = none)
    (hgp : t.nodes.get p = some pn)
    (hpc : pn.children ci = some i)
    (hcs : pn.children cs = some s)
    (hcsci : cs ≠ ci)
    (hsi : s ≠ i) (hsp : s ≠ p) (hpi : p ≠ i)
    (hothers : ∀ k, k ≠ ci → k ≠ cs → pn.children k = none)
    (hgs : t.nodes.get s = some sn)
    (hsnp : sn.parent = some (p, cs))
    (hgi' : t'.nodes.get i = none)
    (hgp' : t'.nodes.get p = none)
    (hgs' : t'.nodes.get s = some {
      sn with
      partial_key := pn.partial_key ++ cs :: sn.partial_key,
      parent := pn.parent })
    (hmatch : match pn.parent with
       | some (pp, si) =>
         (∃ ppn, t.nodes.get pp = some ppn ∧ pp ≠ i ∧ pp ≠ p ∧ pp ≠ s ∧
           ppn.children si = some p ∧
           t'.nodes.get pp = some {
             ppn with children := fun j => if j = si then some s else ppn.children j }) ∧
         t'.root_index = t.root_index
       | none => t'.root_index = some s)
    (hframe : ∀ j, j ≠ i → j ≠ p → j ≠ s →
        (match pn.parent with | some (pp, _) => j ≠ pp | none => True) →
        t'.nodes.get j = t.nodes.get j) : WF t' := by
  obtain ⟨rk, hrk⟩ := hwf.rank_exists
  have hchild_of_p : ∀ k x, pn.children k = some x → x = i ∨ x = s := by
    intro k x hk
    by_cases hkci : k = ci
    · rw [hkci, hpc] at hk
      exact Or.inl (Option.some.inj hk).symm
    · by_cases hkcs : k = cs
      · rw [hkcs, hcs] at hk
        exact Or.inr (Option.some.inj hk).symm
      · rw [hothers k hkci hkcs] at hk
        exact absurd hk (by simp)
  rcases hq : pn.parent with _ | ⟨pp, si⟩
  · rw [hq] at hgs'
    simp only [hq] at hmatch hframe
    have hget' : ∀ j n, t.nodes.get j = some n → j ≠ i → j ≠ p → j ≠ s →
        t'.nodes.get j = some n := by
      intro j n hgj hji hjp hjs
      rw [hframe j hji hjp hjs trivial]
      exact hgj
    have hget : ∀ j n, t'.nodes.get j = some n → j ≠ i → j ≠ p → j ≠ s →
        t.nodes.get j = some n := by
      intro j n hgj hji hjp hjs
      rw [← hframe j hji hjp hjs trivial]
      exact hgj
    have hrootp : t.root_index = some p := hwf.parentless_root p pn hgp hq
    have h3 : ∀ i2 n, t'.nodes.get i2 = some n → n.parent = none →
        t'.root_index = some i2 := by
      intro i2 n hg2 hp2
      by_cases his : s = i2
      · subst his
        exact hmatch
      · by_cases hii : i = i2
        · subst hii
          rw [hgi'] at hg2
          exact absurd hg2 (by simp)
        · by_cases hip : p = i2
          · subst hip
            rw [hgp'] at hg2
            exact absurd hg2 (by simp)
          · exfalso
            have hgt := hget i2 n hg2 (fun he => hii he.symm) (fun he => hip he.symm)
              (fun he => his he.symm)
            have hri := hwf.parentless_root i2 n hgt hp2
            rw [hrootp] at hri
            exact hip (Option.some.inj hri)
    have h4 : ∀ i2 n p2 k, t'.nodes.get i2 = some n → n.parent = some (p2, k) →
        ∃ m, t'.nodes.get p2 = some m ∧ m.children k = some i2 := by
      intro i2 n p2 k hg2 hp2
      by_cases his : s = i2
      · subst his
        rw [hgs'] at hg2
        obtain rfl := Option.some.inj hg2
        exact absurd hp2 (by simp)
      · by_cases hii : i = i2
        · subst hii
          rw [hgi'] at hg2
          exact absurd hg2 (by simp)
        · by_cases hip : p = i2
          · subst hip
            rw [hgp'] at hg2
            exact absurd hg2 (by simp)
          · have hgt := hget i2 n hg2 (fun he => hii he.symm) (fun he => hip he.symm)
              (fun he => his he.symm)
            obtain ⟨m, hm, hmc⟩ := hwf.parent_child i2 n p2 k hgt hp2
            have hp2i : p2 ≠ i := by
              intro he
              have hmr : rn = m := by rw [he, hg] at hm; exact Option.some.inj hm
              rw [← hmr, hchnone k] at hmc
              exact Option.noConfusion hmc
            have hp2p : p2 ≠ p := by
              intro he
              have hmp2 : pn = m := by rw [he, hgp] at hm; exact Option.some.inj hm
              rw [← hmp2] at hmc
              rcases hchild_of_p k i2 hmc with h | h
              · exact hii h.symm
              · exact his h.symm
            by_cases hp2s : s = p2
            · subst hp2s
              have hms : sn = m := by rw [hgs] at hm; exact Option.some.inj hm
              refine ⟨_, hgs', ?_⟩
              show sn.children k = some i2
              rw [hms]
              exact hmc
            · exact ⟨m, hget' p2 m hm hp2i hp2p (fun he => hp2s he.symm), hmc⟩
    have h5 : ∀ i2 n k j, t'.nodes.get i2 = some n → n.children k = some j →
        ∃ m, t'.nodes.get j = some m ∧ m.parent = some (i2, k) := by
      intro i2 n k j hg2 hc2
      by_cases his : s = i2
      · subst his
        rw [hgs'] at hg2
        obtain rfl := Option.some.inj hg2
        have hc' : sn.children k = some j := hc2
        obtain ⟨m, hm, hmp⟩ := hwf.child_parent s sn k j hgs hc'
        have hji : j ≠ i := by
          intro he
          have hmr : rn = m := by rw [he, hg] at hm; exact Option.some.inj hm
          rw [← hmr, hp] at hmp
          have h0 := Option.some.inj hmp
          simp only [Prod.mk.injEq] at h0
          exact hsp h0.1.symm
        have hjp : j ≠ p := by
          intro he
          have hmp2 : pn = m := by rw [he, hgp] at hm; exact Option.some.inj hm
          rw [← hmp2, hq] at hmp
          exact Option.noConfusion hmp
        have hjs : j ≠ s := by
          intro he
          have hlt := hrk j m s k hm hmp
          rw [he] at hlt
          omega
        exact ⟨m, hget' j m hm hji hjp hjs, hmp⟩
      · by_cases hii : i = i2
        · subst hii
          rw [hgi'] at hg2
          exact absurd hg2 (by simp)
        · by_cases hip : p = i2
          · subst hip
            rw [hgp'] at hg2
            exact absurd hg2 (by simp)
          · have hgt := hget i2 n hg2 (fun he => hii he.symm) (fun he => hip he.symm)
              (fun he => his he.symm)
            obtain ⟨m, hm, hmp⟩ := hwf.child_parent i2 n k j hgt hc2
            have hji : j ≠ i := by
              intro he
              have hmr : rn = m := by rw [he, hg] at hm; exact Option.some.inj hm
              rw [← hmr, hp] at hmp
              have h0 := Option.some.inj hmp
              simp only [Prod.mk.injEq] at h0
              exact hip h0.1
            have hjp : j ≠ p := by
              intro he
              have hmp2 : pn = m := by rw [he, hgp] at hm; exact Option.some.inj hm
              rw [← hmp2, hq] at hmp
              exact Option.noConfusion hmp
            by_cases hjs : s = j
            · subst hjs
              have hms : sn = m := by rw [hgs] at hm; exact Option.some.inj hm
              rw [← hms, hsnp] at hmp
              have h0 := Option.some.inj hmp
              simp only [Prod.mk.injEq] at h0
              exact absurd h0.1 hip
            · exact ⟨m, hget' j m hm hji hjp (fun he => hjs he.symm), hmp⟩
    have h6 : ∃ rk2 : Nat → Nat, ∀ i2 n p2 k, t'.nodes.get i2 = some n →
        n.parent = some (p2, k) → rk2 p2 < rk2 i2 := by
      refine ⟨rk, ?_⟩
      intro i2 n p2 k hg2 hp2
      by_cases his : s = i2
      · subst his
        rw [hgs'] at hg2
        obtain rfl := Option.some.inj hg2
        exact absurd hp2 (by simp)
      · by_cases hii : i = i2
        · subst hii
          rw [hgi'] at hg2
          exact absurd hg2 (by simp)
        · by_cases hip : p = i2
          · subst hip
            rw [hgp'] at hg2
            exact absurd hg2 (by simp)
          · exact hrk i2 n p2 k (hget i2 n hg2 (fun he => hii he.symm)
              (fun he => hip he.symm) (fun he => his he.symm)) hp2
    have h7 : ∀ i2 n, t'.nodes.get i2 = some n → n.has_storage_value = false →
        2 ≤ countChildren n.children := by
      intro i2 n hg2 hf2
      by_cases his : s = i2
      · subst his
        rw [hgs'] at hg2
        obtain rfl := Option.some.inj hg2
        exact hwf.branch_two s sn hgs hf2
      · by_cases hii : i = i2
        · subst hii
          rw [hgi'] at hg2
          exact absurd hg2 (by simp)
        · by_cases hip : p = i2
          · subst hip
            rw [hgp'] at hg2
            exact absurd hg2 (by simp)
          · exact hwf.branch_two i2 n (hget i2 n hg2 (fun he => hii he.symm)
              (fun he => hip he.symm) (fun he => his he.symm)) hf2
    have h1 : ∀ r, t'.root_index = some r → ∃ n, t'.nodes.get r = some n ∧
        n.parent = none := by
      intro r hr
      rw [hmatch] at hr
      obtain rfl : s = r := Option.some.inj hr
      exact ⟨_, hgs', rfl⟩
    have h2' : t'.root_index = none → ∀ j, t'.nodes.get j = none := by
      intro hn
      rw [hmatch] at hn
      exact absurd hn (by simp)
    exact ⟨h1, h2', h3, h4, h5, h6, h7, fullkey_inj_of_links h3 h4⟩
  · rw [hq] at hgs'
    simp only [hq] at hmatch hframe
    obtain ⟨⟨ppn, hgpp, hppi, hppp, hpps, hppc, hgpp'⟩, hroot'⟩ := hmatch
    have hget' : ∀ j n, t.nodes.get j = some n → j ≠ i → j ≠ p → j ≠ s → j ≠ pp →
        t'.nodes.get j = some n := by
      intro j n hgj hji hjp hjs hjpp
      rw [hframe j hji hjp hjs hjpp]
      exact hgj
    have hget : ∀ j n, t'.nodes.get j = some n → j ≠ i → j ≠ p → j ≠ s → j ≠ pp →
        t.nodes.get j = some n := by
      intro j n hgj hji hjp hjs hjpp
      rw [← hframe j hji hjp hjs hjpp]
      exact hgj
    have h3 : ∀ i2 n, t'.nodes.get i2 = some n → n.parent = none →
        t'.root_index = some i2 := by
      intro i2 n hg2 hp2
      by_cases his : s = i2
      · subst his
        rw [hgs'] at hg2
        obtain rfl := Option.some.inj hg2
        exact absurd hp2 (by simp)
      · by_cases hii : i = i2
        · subst hii
          rw [hgi'] at hg2
          exact absurd hg2 (by simp)
        · by_cases hip : p = i2
          · subst hip
            rw [hgp'] at hg2
            exact absurd hg2 (by simp)
          · by_cases hipp : pp = i2
            · subst hipp
              rw [hgpp'] at hg2
              obtain rfl := Option.some.inj hg2
              rw [hroot']
              exact hwf.parentless_root pp ppn hgpp hp2
            · rw [hroot']
              exact hwf.parentless_root i2 n (hget i2 n hg2 (fun he => hii he.symm)
                (fun he => hip he.symm) (fun he => his he.symm)
                (fun he => hipp he.symm)) hp2
    have h4 : ∀ i2 n p2 k, t'.nodes.get i2 = some n → n.parent = some (p2, k) →
        ∃ m, t'.nodes.get p2 = some m ∧ m.children k = some i2 := by
      intro i2 n p2 k hg2 hp2
      by_cases his : s = i2
      · subst his
        rw [hgs'] at hg2
        obtain rfl := Option.some.inj hg2
        have hp2pp : pp = p2 := congrArg Prod.fst (Option.some.inj hp2)
        have hksi : si = k := congrArg Prod.snd (Option.some.inj hp2)
        subst hp2pp
        subst hksi
        refine ⟨_, hgpp', ?_⟩
        show (if si = si then some s else ppn.children si) = some s
        rw [if_pos rfl]
      · by_cases hii : i = i2
        · subst hii
          rw [hgi'] at hg2
          exact absurd hg2 (by simp)
        · by_cases hip : p = i2
          · subst hip
            rw [hgp'] at hg2
            exact absurd hg2 (by simp)
          · have hedge : ∃ n0, t.nodes.get i2 = some n0 ∧ n0.parent = some (p2, k) := by
              by_cases hipp : pp = i2
              · subst hipp
                rw [hgpp'] at hg2
                obtain rfl := Option.some.inj hg2
                exact ⟨ppn, hgpp, hp2⟩
              · exact ⟨n, hget i2 n hg2 (fun he => hii he.symm) (fun he => hip he.symm)
                  (fun he => his he.symm) (fun he => hipp he.symm), hp2⟩
            obtain ⟨n0, hg0, hp0⟩ := hedge
            obtain ⟨m, hm, hmc⟩ := hwf.parent_child i2 n0 p2 k hg0 hp0
            have hp2i : p2 ≠ i := by
              intro he
              have hmr : rn = m := by rw [he, hg] at hm; exact Option.some.inj hm
              rw [← hmr, hchnone k] at hmc
              exact Option.noConfusion hmc
            have hp2p : p2 ≠ p := by
              intro he
              have hmp2 : pn = m := by rw [he, hgp] at hm; exact Option.some.inj hm
              rw [← hmp2] at hmc
              rcases hchild_of_p k i2 hmc with h | h
              · exact hii h.symm
              · exact his h.symm
            by_cases hp2s : s = p2
            · subst hp2s
              have hms : sn = m := by rw [hgs] at hm; exact Option.some.inj hm
              refine ⟨_, hgs', ?_⟩
              show sn.children k = some i2
              rw [hms]
              exact hmc
            · by_cases hp2pp : pp = p2
              · subst hp2pp
                have hmpp : ppn = m := by rw [hgpp] at hm; exact Option.some.inj hm
                have hmc' : ppn.children k = some i2 := by rw [hmpp]; exact hmc
                have hksi : k ≠ si := by
                  intro he
                  rw [he, hppc] at hmc'
                  exact hip (Option.some.inj hmc')
                refine ⟨_, hgpp', ?_⟩
                show (if k = si then some s else ppn.children k) = some i2
                rw [if_neg hksi]
                exact hmc'
              · exact ⟨m, hget' p2 m hm hp2i hp2p (fun he => hp2s he.symm)
                  (fun he => hp2pp he.symm), hmc⟩
    have h5 : ∀ i2 n k j, t'.nodes.get i2 = some n → n.children k = some j →
        ∃ m, t'.nodes.get j = some m ∧ m.parent = some (i2, k) := by
      intro i2 n k j hg2 hc2
      by_cases his : s = i2
      · subst his
        rw [hgs'] at hg2
        obtain rfl := Option.some.inj hg2
        have hc' : sn.children k = some j := hc2
        obtain ⟨m, hm, hmp⟩ := hwf.child_parent s sn k j hgs hc'
        have hji : j ≠ i := by
          intro he
          have hmr : rn = m := by rw [he, hg] at hm; exact Option.some.inj hm
          rw [← hmr, hp] at hmp
          have h0 := Option.some.inj hmp
          simp only [Prod.mk.injEq] at h0
          exact hsp h0.1.symm
        have hjp : j ≠ p := by
          intro he
          have hmp2 : pn = m := by rw [he, hgp] at hm; exact Option.some.inj hm
          rw [← hmp2, hq] at hmp
          have h0 := Option.some.inj hmp
          simp only [Prod.mk.injEq] at h0
          exact hpps h0.1
        have hjs : j ≠ s := by
          intro he
          have hlt := hrk j m s k hm hmp
          rw [he] at hlt
          omega
        have hjpp : j ≠ pp := by
          intro he
          have hmpp : ppn = m := by rw [he, hgpp] at hm; exact Option.some.inj hm
          rw [← hmpp] at hmp
          have h1 := hrk pp ppn s k hgpp hmp
          have h2 := hrk p pn pp si hgp hq
          have h3' := hrk s sn p cs hgs hsnp
          omega
        exact ⟨m, hget' j m hm hji hjp hjs hjpp, hmp⟩
      · by_cases hii : i = i2
        · subst hii
          rw [hgi'] at hg2
          exact absurd hg2 (by simp)
        · by_cases hip : p = i2
          · subst hip
            rw [hgp'] at hg2
            exact absurd hg2 (by simp)
          · by_cases hipp : pp = i2
            · subst hipp
              rw [hgpp'] at hg2
              obtain rfl := Option.some.inj hg2
              have hc' : (if k = si then some s else ppn.children k) = some j := hc2
              by_cases hksi : k = si
              · subst hksi
                rw [if_pos rfl] at hc'
                have hjs : s = j := Option.some.inj hc'
                subst hjs
                exact ⟨_, hgs', rfl⟩
              · rw [if_neg hksi] at hc'
                obtain ⟨m, hm, hmp⟩ := hwf.child_parent pp ppn k j hgpp hc'
                have hji : j ≠ i := by
                  intro he
                  have hmr : rn = m := by rw [he, hg] at hm; exact Option.some.inj hm
                  rw [← hmr, hp] at hmp
                  have h0 := Option.some.inj hmp
                  simp only [Prod.mk.injEq] at h0
                  exact hppp h0.1.symm
                have hjp : j ≠ p := by
                  intro he
                  have hmp2 : pn = m := by rw [he, hgp] at hm; exact Option.some.inj hm
                  rw [← hmp2, hq] at hmp
                  have h0 := Option.some.inj hmp
                  simp only [Prod.mk.injEq] at h0
                  exact hksi h0.2.symm
                have hjs : j ≠ s := by
                  intro he
                  have hms : sn = m := by rw [he, hgs] at hm; exact Option.some.inj hm
                  rw [← hms, hsnp] at hmp
                  have h0 := Option.some.inj hmp
                  simp only [Prod.mk.injEq] at h0
                  exact hppp h0.1.symm
                have hjpp : j ≠ pp := by
                  intro he
                  have hlt := hrk j m pp k hm hmp
                  rw [he] at hlt
                  omega
                exact ⟨m, hget' j m hm hji hjp hjs hjpp, hmp⟩
            · have hgt := hget i2 n hg2 (fun he => hii he.symm) (fun he => hip he.symm)
                (fun he => his he.symm) (fun he => hipp he.symm)
              obtain ⟨m, hm, hmp⟩ := hwf.child_parent i2 n k j hgt hc2
              have hji : j ≠ i := by
                intro he
                have hmr : rn = m := by rw [he, hg] at hm; exact Option.some.inj hm
                rw [← hmr, hp] at hmp
                have h0 := Option.some.inj hmp
                simp only [Prod.mk.injEq] at h0
                exact hip h0.1
              have hjp : j ≠ p := by
                intro he
                have hmp2 : pn = m := by rw [he, hgp] at hm; exact Option.some.inj hm
                rw [← hmp2, hq] at hmp
                have h0 := Option.some.inj hmp
                simp only [Prod.mk.injEq] at h0
                exact hipp h0.1
              have hjs : j ≠ s := by
                intro he
                have hms : sn = m := by rw [he, hgs] at hm; exact Option.some.inj hm
                rw [← hms, hsnp] at hmp
                have h0 := Option.some.inj hmp
                simp only [Prod.mk.injEq] at h0
                exact hip h0.1
              by_cases hjpp : pp = j
              · subst hjpp
                have hmpp : ppn = m := by rw [hgpp] at hm; exact Option.some.inj hm
                refine ⟨_, hgpp', ?_⟩
                show ppn.parent = some (i2, k)
                rw [hmpp]
                exact hmp
              · exact ⟨m, hget' j m hm hji hjp hjs (fun he => hjpp he.symm), hmp⟩
    have h6 : ∃ rk2 : Nat → Nat, ∀ i2 n p2 k, t'.nodes.get i2 = some n →
        n.parent = some (p2, k) → rk2 p2 < rk2 i2 := by
      refine ⟨rk, ?_⟩
      intro i2 n p2 k hg2 hp2
      by_cases his : s = i2
      · subst his
        rw [hgs'] at hg2
        obtain rfl := Option.some.inj hg2
        have hp2pp : pp = p2 := congrArg Prod.fst (Option.some.inj hp2)
        subst hp2pp
        have h1 := hrk p pn pp si hgp hq
        have h2 := hrk s sn p cs hgs hsnp
        omega
      · by_cases hii : i = i2
        · subst hii
          rw [hgi'] at hg2
          exact absurd hg2 (by simp)
        · by_cases hip : p = i2
          · subst hip
            rw [hgp'] at hg2
            exact absurd hg2 (by simp)
          · have hedge : ∃ n0, t.nodes.get i2 = some n0 ∧ n0.parent = some (p2, k) := by
              by_cases hipp : pp = i2
              · subst hipp
                rw [hgpp'] at hg2
                obtain rfl := Option.some.inj hg2
                exact ⟨ppn, hgpp, hp2⟩
              · exact ⟨n, hget i2 n hg2 (fun he => hii he.symm) (fun he => hip he.symm)
                  (fun he => his he.symm) (fun he => hipp he.symm), hp2⟩
            obtain ⟨n0, hg0, hp0⟩ := hedge
            exact hrk i2 n0 p2 k hg0 hp0
    have h7 : ∀ i2 n, t'.nodes.get i2 = some n → n.has_storage_value = false →
        2 ≤ countChildren n.children := by
      intro i2 n hg2 hf2
      by_cases his : s = i2
      · subst his
        rw [hgs'] at hg2
        obtain rfl := Option.some.inj hg2
        exact hwf.branch_two s sn hgs hf2
      · by_cases hii : i = i2
        · subst hii
          rw [hgi'] at hg2
          exact absurd hg2 (by simp)
        · by_cases hip : p = i2
          · subst hip
            rw [hgp'] at hg2
            exact absurd hg2 (by simp)
          · by_cases hipp : pp = i2
            · subst hipp
              rw [hgpp'] at hg2
              obtain rfl := Option.some.inj hg2
              have h2 := hwf.branch_two pp ppn hgpp hf2
              refine le_trans h2 (countChildren_mono _ _ ?_)
              intro k hk
              by_cases hksi : k = si
              · show (if k = si then some s else ppn.children k).isSome = true
                rw [if_pos hksi]
                rfl
              · show (if k = si then some s else ppn.children k).isSome = true
                rw [if_neg hksi]
                exact hk
            · exact hwf.branch_two i2 n (hget i2 n hg2 (fun he => hii he.symm)
                (fun he => hip he.symm) (fun he => his he.symm)
                (fun he => hipp he.symm)) hf2
    have h1 : ∀ r, t'.root_index = some r → ∃ n, t'.nodes.get r = some n ∧
        n.parent = none := by
      intro r hr
      rw [hroot'] at hr
      obtain ⟨n, hn, hpn⟩ := hwf.root_node r hr
      have hri : r ≠ i := by
        intro he
        have hmr : rn = n := by rw [he, hg] at hn; exact Option.some.inj hn
        rw [← hmr, hp] at hpn
        exact Option.noConfusion hpn
      have hrp : r ≠ p := by
        intro he
        have hmp2 : pn = n := by rw [he, hgp] at hn; exact Option.some.inj hn
        rw [← hmp2, hq] at hpn
        exact Option.noConfusion hpn
      have hrs : r ≠ s := by
        intro he
        have hms : sn = n := by rw [he, hgs] at hn; exact Option.some.inj hn
        rw [← hms, hsnp] at hpn
        exact Option.noConfusion hpn
      by_cases hrpp : pp = r
      · subst hrpp
        have hmpp : ppn = n := by rw [hgpp] at hn; exact Option.some.inj hn
        refine ⟨_, hgpp', ?_⟩
        show ppn.parent = none
        rw [hmpp]
        exact hpn
      · exact ⟨n, hget' r n hn hri hrp hrs (fun he => hrpp he.symm), hpn⟩
    have h2' : t'.root_index = none → ∀ j, t'.nodes.get j = none := by
      intro hn
      exfalso
      rw [hroot'] at hn
      have he := hwf.no_root_empty hn p
      rw [he] at hgp
      exact Option.noConfusion hgp
    exact ⟨h1, h2', h3, h4, h5, h6, h7, fullkey_inj_of_links h3 h4⟩

theorem WF_insOutcome {TUd : Type} {t t' : TrieStructure TUd} {key : List Nibble}
    {u bud : TUd} (hwf : WF t) (h : InsOutcome t key u bud t') : WF t' := by
  cases h with
  | empty w h1 h2 h3 h4 h5 =>
    exact WF_ins_empty hwf h1 h2 h3 h4 h5
  | leaf w a c fa r2 an hfa hkey hna hch hfresh haw hroot hw ha hfr =>
    exact WF_ins_leaf hwf hna hch hfresh haw hroot hw ha hfr
  | split b s X bp tail len cs cx xn hX hxp hbp htake hcs hcx hne hbs hXb hXs
      hbf hsf hgb hgs hgX hmatch hfr =>
    cases bp with
    | none => exact WF_ins_split hwf hX hxp hne hbs hXb hXs hbf hsf hgb hgs hgX hmatch hfr
    | some ac =>
      obtain ⟨a, c⟩ := ac
      exact WF_ins_split hwf hX hxp hne hbs hXb hXs hbf hsf hgb hgs hgX hmatch hfr

theorem WF_remOutcome {TUd : Type} {t t' : TrieStructure TUd} {key : List Nibble}
    (hwf : WF t) (h : RemOutcome t key t') : WF t' := by
  cases h with
  | stb i n h1 h2 h3 => exact hwf
  | rootLeaf t2 i rn hinner hg hp hch hroot hgi hfr =>
    exact WF_rem_rootLeaf hwf hg hp hch hroot hgi hfr
  | rootChild t2 i c cib rn cn hinner hg hp hcnt hk0 hgc hcnp hci hroot hgi hgc2 hfr =>
    exact WF_rem_rootChild hwf hg hp hcnt hk0 hgc hcnp hci hroot hgi hgc2 hfr
  | keep t2 i p ci rn pn copt hinner hg hp hpi hcnt hgp hpc hguard hchild hroot
      hgi hgp2 hfr =>
    cases copt with
    | none =>
      exact WF_rem_keep_none hwf hg hp hpi hgp hpc hguard hchild hroot hgi hgp2
        (fun j hji hjp => hfr j hji hjp trivial)
    | some c =>
      obtain ⟨cib, cn, hk0, hgc, hcnp, hci, hcp, hgc2⟩ := hchild
      exact WF_rem_keep_child hwf hg hp hpi hcnt hgp hpc hguard hk0 hgc hcnp hci hcp
        hgc2 hroot hgi hgp2 hfr
  | collapse t2 i p s ci cs rn pn sn hinner hg hp hchnone hgp hff hpc hcs hcsci
      hsi hsp hpi hothers hgs hsnp hgi2 hgp2 hgs2 hmatch hfr =>
    exact WF_rem_collapse hwf hg hp hchnone hgp hpc hcs hcsci hsi hsp hpi hothers
      hgs hsnp hgi2 hgp2 hgs2 hmatch hfr

theorem WF_applyOp {TUd : Type} {t t' : TrieStructure TUd} {op : Op TUd}
    (hwf : WF t) (h : applyOp t op = some t') : WF t' := by
  cases op with
  | ins key u bud =>
    have h' : insertOp t key u bud = some t' := h
    exact WF_insOutcome hwf (insertOp_shape hwf h')
  | insFlag key =>
    have h' : insertAtBranchOp t key = some t' := h
    obtain ⟨i, n, hinner, hg, hroot, hgi, hfr⟩ := insertAtBranchOp_shape h'
    exact WF_flag hwf hg hroot hgi hfr
  | del key =>
    have h' : (removeOp t key).map (·.2) = some t' := h
    cases hrm : removeOp t key with
    | none => rw [hrm] at h'; exact absurd h' (by simp)
    | some rt =>
      obtain ⟨r, t2⟩ := rt
      rw [hrm] at h'
      simp only [Option.map] at h'
      obtain rfl : t2 = t' := Option.some.inj h'
      exact WF_remOutcome hwf (removeOp_shape hwf hrm)

theorem runOps_WF {TUd : Type} : ∀ (ops : List (Op TUd)) (t0 t : TrieStructure TUd),
    WF t0 → runOps t0 ops = some t → WF t := by
  intro ops
  induction ops with
  | nil =>
    intro t0 t hwf h
    rw [runOps] at h
    obtain rfl := Option.some.inj h
    exact hwf
  | cons op ops ih =>
    intro t0 t hwf h
    rw [runOps] at h
    cases hap : applyOp t0 op with
    | none => rw [hap] at h; exact absurd h (by simp)
    | some t1 =>
      rw [hap] at h
      dsimp only at h
      exact ih t1 t (WF_applyOp hwf hap) h

/-! ## Presence of a key as a storage value -/

/-- The key `K` is present as a storage value: some occupied node carries the
storage flag and reconstructs `K` as its full key. -/
def HasStorageKey {TUd : Type} (t : TrieStructure TUd) (K : List Nibble) : Prop :=
  ∃ i n, t.nodes.get i = some n ∧ n.has_storage_value = true ∧ FullKey t i K

/-- A committed fresh-key insertion makes its key present. -/
theorem insOutcome_has_key {TUd : Type} {t t' : TrieStructure TUd} {key : List Nibble}
    {u bud : TUd} (h : InsOutcome t key u bud t') : HasStorageKey t' key := by
  cases h with
  | empty w h1 h2 h3 h4 h5 =>
    exact ⟨w, _, h4, rfl, ⟨[w], .root h4 rfl⟩⟩
  | leaf w a c fa r2 an hfa hkey hna hch hfresh haw hroot hw ha hfr =>
    have hmono : ∀ j n, t.nodes.get j = some n → ∃ n', t'.nodes.get j = some n' ∧
        n'.parent = n.parent ∧ n'.partial_key = n.partial_key := by
      intro j n hgj
      by_cases hja : a = j
      · subst hja
        have hna2 : an = n := by rw [hna] at hgj; exact Option.some.inj hgj
        subst hna2
        exact ⟨_, ha, rfl, rfl⟩
      · have hjw : j ≠ w := by
          intro he
          rw [he, hfresh] at hgj
          exact Option.noConfusion hgj
        refine ⟨n, ?_, rfl, rfl⟩
        rw [hfr j hjw (fun he => hja he.symm)]
        exact hgj
    obtain ⟨seen, hfa'⟩ := hfa
    have hda := FullKeyD_mono hmono hfa'
    have hd : FullKeyD t' w (fa ++ c :: r2) (w :: seen) := .child hda hw rfl
    refine ⟨w, _, hw, rfl, ⟨w :: seen, ?_⟩⟩
    rw [hkey]
    exact hd
  | split b s X bp tail len cs cx xn hX hxp hbp htake hcs hcx hne hbs hXb hXs
      hbf hsf hgb hgs hgX hmatch hfr =>
    have hpk : (tail.take len) ++ cx :: xn.partial_key.drop (len + 1) =
        xn.partial_key := by
      rw [htake]
      exact take_get_drop _ _ _ hcx
    have htail : (tail.take len) ++ cs :: tail.drop (len + 1) = tail :=
      take_get_drop _ _ _ hcs
    cases bp with
    | none =>
      obtain ⟨hrootX, hkeytail⟩ := hbp
      have hdb : FullKeyD t' b (tail.take len) [b] := .root hgb rfl
      have hds : FullKeyD t' s ((tail.take len) ++ cs :: tail.drop (len + 1)) [s, b] :=
        .child hdb hgs rfl
      rw [htail] at hds
      rw [hkeytail]
      exact ⟨s, _, hgs, rfl, ⟨[s, b], hds⟩⟩
    | some ac =>
      obtain ⟨a, c⟩ := ac
      obtain ⟨fa, hfa, hkey⟩ := hbp
      obtain ⟨⟨an, han, hga⟩, hroot'⟩ := hmatch
      have hframe2 : ∀ j n, j ≠ X → t.nodes.get j = some n →
          ∃ n', t'.nodes.get j = some n' ∧ n'.parent = n.parent ∧
            n'.partial_key = n.partial_key := by
        intro j n hjX hgj
        by_cases hja : a = j
        · subst hja
          have hna2 : an = n := by rw [han] at hgj; exact Option.some.inj hgj
          subst hna2
          exact ⟨_, hga, rfl, rfl⟩
        · have hjb : j ≠ b := by
            intro he
            rw [he, hbf] at hgj
            exact Option.noConfusion hgj
          have hjs2 : j ≠ s := by
            intro he
            rw [he, hsf] at hgj
            exact Option.noConfusion hgj
          refine ⟨n, ?_, rfl, rfl⟩
          rw [hfr j hjb hjs2 hjX (fun he => hja he.symm)]
          exact hgj
      obtain ⟨seen, hfa'⟩ := hfa
      obtain ⟨seen2, hda⟩ := FullKey_transfer_split hX hgX hgb (by rw [hxp]) hpk rfl
        hframe2 hfa'
      have hdb : FullKeyD t' b (fa ++ c :: tail.take len) (b :: seen2) :=
        .child hda hgb rfl
      have hds : FullKeyD t' s ((fa ++ c :: tail.take len) ++ cs :: tail.drop (len + 1))
          (s :: b :: seen2) := .child hdb hgs rfl
      have he2 : (fa ++ c :: tail.take len) ++ cs :: tail.drop (len + 1) =
          fa ++ c :: tail := by
        conv_rhs => rw [← htail]
        simp
      rw [he2] at hds
      refine ⟨s, _, hgs, rfl, ⟨s :: b :: seen2, ?_⟩⟩
      rw [hkey]
      exact hds

/-- A committed flag insertion makes its key present. -/
theorem insFlag_has_key {TUd : Type} {t t' : TrieStructure TUd} {key : List Nibble}
    (hwf : WF t) (h : insertAtBranchOp t key = some t') : HasStorageKey t' key := by
  obtain ⟨i, n, hinner, hg, hroot, hgi, hfr⟩ := insertAtBranchOp_shape h
  obtain ⟨hfk, -⟩ := lookup_found_fullKey hwf hinner
  have hmono : ∀ j m, t.nodes.get j = some m → ∃ m', t'.nodes.get j = some m' ∧
      m'.parent = m.parent ∧ m'.partial_key = m.partial_key := by
    intro j m hgj
    by_cases hji : i = j
    · subst hji
      have hnm : n = m := by rw [hg] at hgj; exact Option.some.inj hgj
      subst hnm
      exact ⟨_, hgi, rfl, rfl⟩
    · refine ⟨m, ?_, rfl, rfl⟩
      rw [hfr j (fun he => hji he.symm)]
      exact hgj
  obtain ⟨seen, hd⟩ := hfk
  exact ⟨i, _, hgi, rfl, ⟨seen, FullKeyD_mono hmono hd⟩⟩

/-- Fresh-key insertions preserve all present keys. -/
theorem hasKey_preserved_ins {TUd : Type} {t t' : TrieStructure TUd}
    {key K : List Nibble} {u bud : TUd} (hwf : WF t)
    (h : InsOutcome t key u bud t') (hk : HasStorageKey t K) : HasStorageKey t' K := by
  obtain ⟨j, n, hgj, hflag, hfk⟩ := hk
  cases h with
  | empty w h1 h2 h3 h4 h5 =>
    exfalso
    have he := hwf.no_root_empty h1 j
    rw [he] at hgj
    exact Option.noConfusion hgj
  | leaf w a c fa r2 an hfa hkey hna hch hfresh haw hroot hw ha hfr =>
    have hmono : ∀ j2 n2, t.nodes.get j2 = some n2 → ∃ n', t'.nodes.get j2 = some n' ∧
        n'.parent = n2.parent ∧ n'.partial_key = n2.partial_key := by
      intro j2 n2 hgj2
      by_cases hja : a = j2
      · subst hja
        have hna2 : an = n2 := by rw [hna] at hgj2; exact Option.some.inj hgj2
        subst hna2
        exact ⟨_, ha, rfl, rfl⟩
      · have hjw : j2 ≠ w := by
          intro he
          rw [he, hfresh] at hgj2
          exact Option.noConfusion hgj2
        refine ⟨n2, ?_, rfl, rfl⟩
        rw [hfr j2 hjw (fun he => hja he.symm)]
        exact hgj2
    obtain ⟨seen, hd⟩ := hfk
    refine ⟨j, ?_⟩
    by_cases hja : a = j
    · subst hja
      have h0 : an = n := by rw [hna] at hgj; exact Option.some.inj hgj
      refine ⟨_, ha, ?_, ⟨seen, FullKeyD_mono hmono hd⟩⟩
      show an.has_storage_value = true
      rw [h0]
      exact hflag
    · have hjw : j ≠ w := by
        intro he
        rw [he, hfresh] at hgj
        exact Option.noConfusion hgj
      refine ⟨n, ?_, hflag, ⟨seen, FullKeyD_mono hmono hd⟩⟩
      rw [hfr j hjw (fun he => hja he.symm)]
      exact hgj
  | split b s X bp tail len cs cx xn hX hxp hbp htake hcs hcx hne hbs hXb hXs
      hbf hsf hgb hgs hgX hmatch hfr =>
    have hpk : (tail.take len) ++ cx :: xn.partial_key.drop (len + 1) =
        xn.partial_key := by
      rw [htake]
      exact take_get_drop _ _ _ hcx
    have hjb : j ≠ b := by
      intro he
      rw [he, hbf] at hgj
      exact Option.noConfusion hgj
    have hjs : j ≠ s := by
      intro he
      rw [he, hsf] at hgj
      exact Option.noConfusion hgj
    obtain ⟨seen, hd⟩ := hfk
    cases bp with
    | none =>
      have hframe2 : ∀ j2 n2, j2 ≠ X → t.nodes.get j2 = some n2 →
          ∃ n', t'.nodes.get j2 = some n' ∧ n'.parent = n2.parent ∧
            n'.partial_key = n2.partial_key := by
        intro j2 n2 hjX hgj2
        have hj2b : j2 ≠ b := by
          intro he
          rw [he, hbf] at hgj2
          exact Option.noConfusion hgj2
        have hj2s : j2 ≠ s := by
          intro he
          rw [he, hsf] at hgj2
          exact Option.noConfusion hgj2
        refine ⟨n2, ?_, rfl, rfl⟩
        rw [hfr j2 hj2b hj2s hjX trivial]
        exact hgj2
      have hfk' := FullKey_transfer_split hX hgX hgb (by rw [hxp]) hpk rfl hframe2 hd
      by_cases hjX : X = j
      · subst hjX
        have h0 : xn = n := by rw [hX] at hgj; exact Option.some.inj hgj
        refine ⟨X, _, hgX, ?_, hfk'⟩
        show xn.has_storage_value = true
        rw [h0]
        exact hflag
      · refine ⟨j, n, ?_, hflag, hfk'⟩
        rw [hfr j hjb hjs (fun he => hjX he.symm) trivial]
        exact hgj
    | some ac =>
      obtain ⟨a, c⟩ := ac
      obtain ⟨⟨an, han, hga⟩, hroot'⟩ := hmatch
      have hframe2 : ∀ j2 n2, j2 ≠ X → t.nodes.get j2 = some n2 →
          ∃ n', t'.nodes.get j2 = some n' ∧ n'.parent = n2.parent ∧
            n'.partial_key = n2.partial_key := by
        intro j2 n2 hjX hgj2
        by_cases hja : a = j2
        · subst hja
          have hna2 : an = n2 := by rw [han] at hgj2; exact Option.some.inj hgj2
          subst hna2
          exact ⟨_, hga, rfl, rfl⟩
        · have hj2b : j2 ≠ b := by
            intro he
            rw [he, hbf] at hgj2
            exact Option.noConfusion hgj2
          have hj2s : j2 ≠ s := by
            intro he
            rw [he, hsf] at hgj2
            exact Option.noConfusion hgj2
          refine ⟨n2, ?_, rfl, rfl⟩
          rw [hfr j2 hj2b hj2s hjX (fun he => hja he.symm)]
          exact hgj2
      have hfk' := FullKey_transfer_split hX hgX hgb (by rw [hxp]) hpk rfl hframe2 hd
      by_cases hjX : X = j
      · subst hjX
        have h0 : xn = n := by rw [hX] at hgj; exact Option.some.inj hgj
        refine ⟨X, _, hgX, ?_, hfk'⟩
        show xn.has_storage_value = true
        rw [h0]
        exact hflag
      · by_cases hja : a = j
        · subst hja
          have h0 : an = n := by rw [han] at hgj; exact Option.some.inj hgj
          refine ⟨a, _, hga, ?_, hfk'⟩
          show an.has_storage_value = true
          rw [h0]
          exact hflag
        · refine ⟨j, n, ?_, hflag, hfk'⟩
          rw [hfr j hjb hjs (fun he => hjX he.symm) (fun he => hja he.symm)]
          exact hgj

/-- Flag insertions preserve all present keys. -/
theorem hasKey_preserved_insFlag {TUd : Type} {t t' : TrieStructure TUd}
    {key K : List Nibble} (h : insertAtBranchOp t key = some t')
    (hk : HasStorageKey t K) : HasStorageKey t' K := by
  obtain ⟨i, n, hinner, hg, hroot, hgi, hfr⟩ := insertAtBranchOp_shape h
  obtain ⟨j, m, hgj, hflag, hfk⟩ := hk
  have hmono : ∀ j2 m2, t.nodes.get j2 = some m2 → ∃ m', t'.nodes.get j2 = some m' ∧
      m'.parent = m2.parent ∧ m'.partial_key = m2.partial_key := by
    intro j2 m2 hgj2
    by_cases hji : i = j2
    · subst hji
      have hnm : n = m2 := by rw [hg] at hgj2; exact Option.some.inj hgj2
      subst hnm
      exact ⟨_, hgi, rfl, rfl⟩
    · refine ⟨m2, ?_, rfl, rfl⟩
      rw [hfr j2 (fun he => hji he.symm)]
      exact hgj2
  obtain ⟨seen, hd⟩ := hfk
  by_cases hji : i = j
  · subst hji
    refine ⟨i, _, hgi, rfl, ⟨seen, FullKeyD_mono hmono hd⟩⟩
  · refine ⟨j, m, ?_, hflag, ⟨seen, FullKeyD_mono hmono hd⟩⟩
    rw [hfr j (fun he => hji he.symm)]
    exact hgj

/-- Removals preserve every present key other than the removed one. -/
theorem hasKey_preserved_rem {TUd : Type} {t t' : TrieStructure TUd}
    {key K : List Nibble} (hwf : WF t) (h : RemOutcome t key t')
    (hKkey : K ≠ key) (hk : HasStorageKey t K) : HasStorageKey t' K := by
  obtain ⟨rk, hrk⟩ := hwf.rank_exists
  obtain ⟨j, n, hgj, hflag, hfk⟩ := hk
  cases h with
  | stb i n2 h1 h2 h3 => exact ⟨j, n, hgj, hflag, hfk⟩
  | rootLeaf t2 i rn hinner hg hp hch hroot hgi hfr =>
    exfalso
    by_cases hji : i = j
    · subst hji
      obtain ⟨hfki, -⟩ := lookup_found_fullKey hwf hinner
      exact hKkey (FullKey_functional hfk hfki)
    · have he := root_leaf_only hwf hg hp hch j (fun he => hji he.symm)
      rw [he] at hgj
      exact Option.noConfusion hgj
  | rootChild t2 i c cib rn cn hinner hg hp hcnt hk0 hgc hcnp hci hroot hgi hgc2 hfr =>
    obtain ⟨hfki, -⟩ := lookup_found_fullKey hwf hinner
    have hji : j ≠ i := by
      intro he
      rw [he] at hfk
      exact hKkey (FullKey_functional hfk hfki)
    have huniq : ∀ k x, rn.children k = some x → k = cib ∧ x = c := by
      intro k x hk2
      have hkk : k = cib := countChildren_le_one_unique _ hcnt k cib
        (by rw [hk2]; rfl) (by rw [hk0]; rfl)
      subst hkk
      rw [hk0] at hk2
      exact ⟨rfl, (Option.some.inj hk2).symm⟩
    have hq0 : ∀ q k, rn.parent = some (q, k) → q ∉ ([i] : List Nat) := by
      intro q k hx
      rw [hp] at hx
      exact absurd hx (by simp)
    have hno : ∀ j2 n2 q k, j2 ∉ ([i] : List Nat) → t.nodes.get j2 = some n2 →
        n2.parent = some (q, k) → q ∈ ([i] : List Nat) → q = i := by
      intro j2 n2 q k _ _ _ hmem
      simpa using hmem
    have hch : ∀ j2 n2 k, j2 ∉ ([i] : List Nat) → t.nodes.get j2 = some n2 →
        n2.parent = some (i, k) → ∃ n', t'.nodes.get j2 = some n' ∧
          n'.parent = rn.parent ∧ n'.partial_key = rn.partial_key ++ k :: n2.partial_key := by
      intro j2 n2 k _ hgj2 hpj2
      obtain ⟨m, hm, hmc⟩ := hwf.parent_child j2 n2 i k hgj2 hpj2
      have hmr : rn = m := by rw [hg] at hm; exact Option.some.inj hm
      rw [← hmr] at hmc
      obtain ⟨hk1, hj2c⟩ := huniq k j2 hmc
      subst hk1
      subst hj2c
      have hcn2 : cn = n2 := by rw [hgc] at hgj2; exact Option.some.inj hgj2
      subst hcn2
      refine ⟨_, hgc2, ?_, rfl⟩
      rw [hp]
    have hfr2 : ∀ j2 n2, j2 ∉ ([i] : List Nat) → t.nodes.get j2 = some n2 →
        (∀ k, n2.parent ≠ some (i, k)) →
        ∃ n', t'.nodes.get j2 = some n' ∧ n'.parent = n2.parent ∧
          n'.partial_key = n2.partial_key := by
      intro j2 n2 hmem hgj2 hnp
      have hj2i : j2 ≠ i := by simpa using hmem
      have hj2c : j2 ≠ c := by
        intro he
        have hcn2 : cn = n2 := by rw [he, hgc] at hgj2; exact Option.some.inj hgj2
        exact hnp cib (by rw [← hcn2]; exact hcnp)
      refine ⟨n2, ?_, rfl, rfl⟩
      rw [hfr j2 hj2i hj2c]
      exact hgj2
    obtain ⟨seen, hd⟩ := hfk
    have htr := FullKey_transfer_collapse [i] i rn hg hq0 hno hch hfr2 j K seen hd
      (by simpa using hji)
    by_cases hjc : c = j
    · subst hjc
      have hcn : cn = n := by rw [hgc] at hgj; exact Option.some.inj hgj
      refine ⟨c, _, hgc2, ?_, htr⟩
      show cn.has_storage_value = true
      rw [hcn]
      exact hflag
    · refine ⟨j, n, ?_, hflag, htr⟩
      rw [hfr j hji (fun he => hjc he.symm)]
      exact hgj
  | keep t2 i p ci rn pn copt hinner hg hp hpi hcnt hgp hpc hguard hchild hroot
      hgi hgp2 hfr =>
    obtain ⟨hfki, -⟩ := lookup_found_fullKey hwf hinner
    have hji : j ≠ i := by
      intro he
      rw [he] at hfk
      exact hKkey (FullKey_functional hfk hfki)
    have hq0 : ∀ q k, rn.parent = some (q, k) → q ∉ ([i] : List Nat) := by
      intro q k hx
      rw [hp] at hx
      have h0 := Option.some.inj hx
      simp only [Prod.mk.injEq] at h0
      rw [← h0.1]
      simpa using hpi
    have hno : ∀ j2 n2 q k, j2 ∉ ([i] : List Nat) → t.nodes.get j2 = some n2 →
        n2.parent = some (q, k) → q ∈ ([i] : List Nat) → q = i := by
      intro j2 n2 q k _ _ _ hmem
      simpa using hmem
    have hch : ∀ j2 n2 k, j2 ∉ ([i] : List Nat) → t.nodes.get j2 = some n2 →
        n2.parent = some (i, k) → ∃ n', t'.nodes.get j2 = some n' ∧
          n'.parent = rn.parent ∧ n'.partial_key = rn.partial_key ++ k :: n2.partial_key := by
      intro j2 n2 k _ hgj2 hpj2
      obtain ⟨m, hm, hmc⟩ := hwf.parent_child j2 n2 i k hgj2 hpj2
      have hmr : rn = m := by rw [hg] at hm; exact Option.some.inj hm
      rw [← hmr] at hmc
      cases copt with
      | none =>
        rw [hchild k] at hmc
        exact absurd hmc (by simp)
      | some c =>
        obtain ⟨cib, cn, hk0, hgc, hcnp, hci, hcp, hgc2⟩ := hchild
        have hkk : k = cib := countChildren_le_one_unique _ hcnt k cib
          (by rw [hmc]; rfl) (by rw [hk0]; rfl)
        subst hkk
        rw [hk0] at hmc
        obtain rfl : c = j2 := Option.some.inj hmc
        have hcn2 : cn = n2 := by rw [hgc] at hgj2; exact Option.some.inj hgj2
        subst hcn2
        refine ⟨_, hgc2, ?_, rfl⟩
        rw [hp]
    have hfr2 : ∀ j2 n2, j2 ∉ ([i] : List Nat) → t.nodes.get j2 = some n2 →
        (∀ k, n2.parent ≠ some (i, k)) →
        ∃ n', t'.nodes.get j2 = some n' ∧ n'.parent = n2.parent ∧
          n'.partial_key = n2.partial_key := by
      intro j2 n2 hmem hgj2 hnp
      have hj2i : j2 ≠ i := by simpa using hmem
      by_cases hj2p : p = j2
      · subst hj2p
        have hpn2 : pn = n2 := by rw [hgp] at hgj2; exact Option.some.inj hgj2
        subst hpn2
        exact ⟨_, hgp2, rfl, rfl⟩
      · cases copt with
        | none =>
          refine ⟨n2, ?_, rfl, rfl⟩
          rw [hfr j2 hj2i (fun he => hj2p he.symm) trivial]
          exact hgj2
        | some c =>
          obtain ⟨cib, cn, hk0, hgc, hcnp, hci, hcp, hgc2⟩ := hchild
          have hj2c : j2 ≠ c := by
            intro he
            have hcn2 : cn = n2 := by rw [he, hgc] at hgj2; exact Option.some.inj hgj2
            exact hnp cib (by rw [← hcn2]; exact hcnp)
          refine ⟨n2, ?_, rfl, rfl⟩
          rw [hfr j2 hj2i (fun he => hj2p he.symm) hj2c]
          exact hgj2
    obtain ⟨seen, hd⟩ := hfk
    have htr := FullKey_transfer_collapse [i] i rn hg hq0 hno hch hfr2 j K seen hd
      (by simpa using hji)
    by_cases hjp : p = j
    · subst hjp
      have hpn : pn = n := by rw [hgp] at hgj; exact Option.some.inj hgj
      refine ⟨p, _, hgp2, ?_, htr⟩
      show pn.has_storage_value = true
      rw [hpn]
      exact hflag
    · cases copt with
      | none =>
        refine ⟨j, n, ?_, hflag, htr⟩
        rw [hfr j hji (fun he => hjp he.symm) trivial]
        exact hgj
      | some c =>
        obtain ⟨cib, cn, hk0, hgc, hcnp, hci, hcp, hgc2⟩ := hchild
        by_cases hjc : c = j
        · subst hjc
          have hcn : cn = n := by rw [hgc] at hgj; exact Option.some.inj hgj
          refine ⟨c, _, hgc2, ?_, htr⟩
          show cn.has_storage_value = true
          rw [hcn]
          exact hflag
        · refine ⟨j, n, ?_, hflag, htr⟩
          rw [hfr j hji (fun he => hjp he.symm) (fun he => hjc he.symm)]
          exact hgj
  | collapse t2 i p s ci cs rn pn sn hinner hg hp hchnone hgp hff hpc hcs hcsci
      hsi hsp hpi hothers hgs hsnp hgi2 hgp2 hgs2 hmatch hfr =>
    obtain ⟨hfki, -⟩ := lookup_found_fullKey hwf hinner
    have hji : j ≠ i := by
      intro he
      rw [he] at hfk
      exact hKkey (FullKey_functional hfk hfki)
    have hjp : j ≠ p := by
      intro he
      have hpn : pn = n := by rw [he, hgp] at hgj; exact Option.some.inj hgj
      rw [← hpn] at hflag
      rw [hff] at hflag
      exact Bool.noConfusion hflag
    have hq0 : ∀ q k, pn.parent = some (q, k) → q ∉ ([i, p] : List Nat) := by
      intro q k hx hmem
      obtain ⟨m, hm, hmc⟩ := hwf.parent_child p pn q k hgp hx
      rcases List.mem_cons.mp hmem with rfl | hmem2
      · have hmr : rn = m := by rw [hg] at hm; exact Option.some.inj hm
        rw [← hmr, hchnone k] at hmc
        exact Option.noConfusion hmc
      · have hqp : q = p := by simpa using hmem2
        rw [hqp] at hx
        have hlt := hrk p pn p k hgp hx
        omega
    have hno : ∀ j2 n2 q k, j2 ∉ ([i, p] : List Nat) → t.nodes.get j2 = some n2 →
        n2.parent = some (q, k) → q ∈ ([i, p] : List Nat) → q = p := by
      intro j2 n2 q k hmem hgj2 hpj2 hqmem
      rcases List.mem_cons.mp hqmem with rfl | hmem2
      · exfalso
        obtain ⟨m, hm, hmc⟩ := hwf.parent_child j2 n2 q k hgj2 hpj2
        have hmr : rn = m := by rw [hg] at hm; exact Option.some.inj hm
        rw [← hmr, hchnone k] at hmc
        exact Option.noConfusion hmc
      · simpa using hmem2
    have hch : ∀ j2 n2 k, j2 ∉ ([i, p] : List Nat) → t.nodes.get j2 = some n2 →
        n2.parent = some (p, k) → ∃ n', t'.nodes.get j2 = some n' ∧
          n'.parent = pn.parent ∧ n'.partial_key = pn.partial_key ++ k :: n2.partial_key := by
      intro j2 n2 k hmem hgj2 hpj2
      obtain ⟨m, hm, hmc⟩ := hwf.parent_child j2 n2 p k hgj2 hpj2
      have hmp : pn = m := by rw [hgp] at hm; exact Option.some.inj hm
      rw [← hmp] at hmc
      have hj2i : j2 ≠ i := by
        intro he
        exact hmem (by rw [he]; exact List.mem_cons_self i [p])
      by_cases hkci : k = ci
      · exfalso
        rw [hkci, hpc] at hmc
        exact hj2i (Option.some.inj hmc).symm
      · by_cases hkcs : k = cs
        · subst hkcs
          rw [hcs] at hmc
          obtain rfl : s = j2 := Option.some.inj hmc
          have hsn2 : sn = n2 := by rw [hgs] at hgj2; exact Option.some.inj hgj2
          subst hsn2
          exact ⟨_, hgs2, rfl, rfl⟩
        · rw [hothers k hkci hkcs] at hmc
          exact absurd hmc (by simp)
    have hfr2 : ∀ j2 n2, j2 ∉ ([i, p] : List Nat) → t.nodes.get j2 = some n2 →
        (∀ k, n2.parent ≠ some (p, k)) →
        ∃ n', t'.nodes.get j2 = some n' ∧ n'.parent = n2.parent ∧
          n'.partial_key = n2.partial_key := by
      intro j2 n2 hmem hgj2 hnp
      have hj2i : j2 ≠ i := by
        intro he
        exact hmem (by rw [he]; exact List.mem_cons_self i [p])
      have hj2p : j2 ≠ p := by
        intro he
        exact hmem (by rw [he]; exact List.mem_cons_of_mem i (List.mem_cons_self p []))
      have hj2s : j2 ≠ s := by
        intro he
        have hsn2 : sn = n2 := by rw [he, hgs] at hgj2; exact Option.some.inj hgj2
        exact hnp cs (by rw [← hsn2]; exact hsnp)
      rcases hqpar : pn.parent with _ | ⟨pp, si⟩
      · simp only [hqpar] at hfr
        refine ⟨n2, ?_, rfl, rfl⟩
        rw [hfr j2 hj2i hj2p hj2s trivial]
        exact hgj2
      · simp only [hqpar] at hfr hmatch
        obtain ⟨⟨ppn, hgpp, hppi, hppp, hpps, hppc, hgpp2⟩, -⟩ := hmatch
        by_cases hj2pp : pp = j2
        · subst hj2pp
          have hppn2 : ppn = n2 := by rw [hgpp] at hgj2; exact Option.some.inj hgj2
          subst hppn2
          exact ⟨_, hgpp2, rfl, rfl⟩
        · refine ⟨n2, ?_, rfl, rfl⟩
          rw [hfr j2 hj2i hj2p hj2s (fun he => hj2pp he.symm)]
          exact hgj2
    obtain ⟨seen, hd⟩ := hfk
    have hjmem : j ∉ ([i, p] : List Nat) := by
      intro hmem
      rcases List.mem_cons.mp hmem with rfl | hmem2
      · exact hji rfl
      · exact hjp (by simpa using hmem2)
    have htr := FullKey_transfer_collapse [i, p] p pn hgp hq0 hno hch hfr2 j K seen hd hjmem
    by_cases hjs : s = j
    · subst hjs
      have hsn : sn = n := by rw [hgs] at hgj; exact Option.some.inj hgj
      refine ⟨s, _, hgs2, ?_, htr⟩
      show sn.has_storage_value = true
      rw [hsn]
      exact hflag
    · rcases hqpar : pn.parent with _ | ⟨pp, si⟩
      · simp only [hqpar] at hfr
        refine ⟨j, n, ?_, hflag, htr⟩
        rw [hfr j hji hjp (fun he => hjs he.symm) trivial]
        exact hgj
      · simp only [hqpar] at hfr hmatch
        obtain ⟨⟨ppn, hgpp, hppi, hppp, hpps, hppc, hgpp2⟩, -⟩ := hmatch
        by_cases hjpp : pp = j
        · subst hjpp
          have hppn : ppn = n := by rw [hgpp] at hgj; exact Option.some.inj hgj
          refine ⟨pp, _, hgpp2, ?_, htr⟩
          show ppn.has_storage_value = true
          rw [hppn]
          exact hflag
        · refine ⟨j, n, ?_, hflag, htr⟩
          rw [hfr j hji hjp (fun he => hjs he.symm) (fun he => hjpp he.symm)]
          exact hgj

/-! ## Which keys an operation inserts or removes -/

/-- `op` commits an insertion of storage key `K` (either flavor of
`insert_storage_value`). -/
def insertsKey {TUd : Type} : Op TUd → List Nibble → Prop
  | .ins k _ _, K => k = K
  | .insFlag k, K => k = K
  | .del _, _ => False

/-- `op` removes the storage key `K`. -/
def removesKey {TUd : Type} : Op TUd → List Nibble → Prop
  | .del k, K => k = K
  | .ins _ _ _, _ => False
  | .insFlag _, _ => False

/-- Any applied operation that does not remove `K` keeps `K` present. -/
theorem applyOp_hasKey {TUd : Type} {t t' : TrieStructure TUd} {op : Op TUd}
    {K : List Nibble} (hwf : WF t) (h : applyOp t op = some t')
    (hk : HasStorageKey t K) (hnr : ¬ removesKey op K) : HasStorageKey t' K := by
  cases op with
  | ins key u bud =>
    have h' : insertOp t key u bud = some t' := h
    exact hasKey_preserved_ins hwf (insertOp_shape hwf h') hk
  | insFlag key =>
    have h' : insertAtBranchOp t key = some t' := h
    exact hasKey_preserved_insFlag h' hk
  | del key =>
    have h' : (removeOp t key).map (·.2) = some t' := h
    cases hrm : removeOp t key with
    | none => rw [hrm] at h'; exact absurd h' (by simp)
    | some rt =>
      obtain ⟨r, t2⟩ := rt
      rw [hrm] at h'
      simp only [Option.map] at h'
      obtain rfl : t2 = t' := Option.some.inj h'
      have hKk : K ≠ key := fun he => hnr he.symm
      exact hasKey_preserved_rem hwf (removeOp_shape hwf hrm) hKk hk

/-- An applied operation that inserts `K` makes `K` present. -/
theorem applyOp_establishes {TUd : Type} {t t' : TrieStructure TUd} {op : Op TUd}
    {K : List Nibble} (hwf : WF t) (h : applyOp t op = some t')
    (hins : insertsKey op K) : HasStorageKey t' K := by
  cases op with
  | ins key u bud =>
    have h' : insertOp t key u bud = some t' := h
    have hkK : key = K := hins
    subst hkK
    exact insOutcome_has_key (insertOp_shape hwf h')
  | insFlag key =>
    have h' : insertAtBranchOp t key = some t' := h
    have hkK : key = K := hins
    subst hkK
    exact insFlag_has_key hwf h'
  | del key => exact (hins : False).elim

/-- Key presence survives any run of operations none of which removes it. -/
theorem runOps_hasKey {TUd : Type} : ∀ (ops : List (Op TUd)) (t0 t : TrieStructure TUd)
    (K : List Nibble), WF t0 → HasStorageKey t0 K →
    (∀ op ∈ ops, ¬ removesKey op K) → runOps t0 ops = some t → HasStorageKey t K := by
  intro ops
  induction ops with
  | nil =>
    intro t0 t K hwf hk hnr h
    rw [runOps] at h
    obtain rfl := Option.some.inj h
    exact hk
  | cons op ops ih =>
    intro t0 t K hwf hk hnr h
    rw [runOps] at h
    cases hap : applyOp t0 op with
    | none => rw [hap] at h; exact absurd h (by simp)
    | some t1 =>
      rw [hap] at h
      dsimp only at h
      exact ih t1 t K (WF_applyOp hwf hap)
        (applyOp_hasKey hwf hap hk (hnr op (List.mem_cons_self op ops)))
        (fun op2 hop2 => hnr op2 (List.mem_cons_of_mem op hop2)) h

/-- A run over an appended list splits at the junction. -/
theorem runOps_append {TUd : Type} : ∀ (l1 l2 : List (Op TUd)) (t0 t : TrieStructure TUd),
    runOps t0 (l1 ++ l2) = some t →
    ∃ tm, runOps t0 l1 = some tm ∧ runOps tm l2 = some t := by
  intro l1
  induction l1 with
  | nil => intro l2 t0 t h; exact ⟨t0, rfl, h⟩
  | cons op l1 ih =>
    intro l2 t0 t h
    rw [List.cons_append, runOps] at h
    cases hap : applyOp t0 op with
    | none => rw [hap] at h; exact absurd h (by simp)
    | some t1 =>
      rw [hap] at h
      dsimp only at h
      obtain ⟨tm, h1, h2⟩ := ih l2 t1 t h
      refine ⟨tm, ?_, h2⟩
      rw [runOps, hap]
      exact h1

/-- A present storage key is found by `node` as `Occupied(Storage)`, and the
executable `node_full_key` of the found node is the key. -/
theorem hasKey_node {TUd : Type} {t : TrieStructure TUd} {K : List Nibble}
    (hwf : WF t) (hk : HasStorageKey t K) :
    ∃ i, t.node K = some (.Occupied (.Storage i)) ∧ node_full_key t i = some K := by
  obtain ⟨i, n, hg, hflag, hfk⟩ := hk
  obtain ⟨nj, hgj, hlook⟩ := lookup_complete hwf.parentless_root hwf.parent_child hfk
  have hnn : n = nj := by rw [hg] at hgj; exact Option.some.inj hgj
  rw [← hnn, hflag] at hlook
  refine ⟨i, ?_, FullKey_node_full_key hwf hfk⟩
  unfold TrieStructure.node
  rw [hlook]

/-! ## The structural invariants as the spec states them -/

/-- The §3 structural invariants, phrased as the spec phrases them:
root/emptiness agreement, tree-shaped links with a parentless root, branch
minimality, pairwise-distinct full keys (via the executable walk), and no two
children of one parent on the same nibble. -/
structure Inv {TUd : Type} (t : TrieStructure TUd) : Prop where
  root_iff_empty : t.root_index = none ↔ t.nodes.IsEmpty
  tree_link : ∀ i n p k, t.nodes.get i = some n → n.parent = some (p, k) →
    ∃ m, t.nodes.get p = some m ∧ m.children k = some i
  root_no_parent : ∀ r n, t.root_index = some r → t.nodes.get r = some n →
    n.parent = none
  branch_min : ∀ i n, t.nodes.get i = some n → n.has_storage_value = false →
    t.root_index = some i ∨ 2 ≤ countChildren n.children
  fullkeys_distinct : ∀ i j fi fj, node_full_key t i = some fi →
    node_full_key t j = some fj → fi = fj → i = j
  children_distinct : ∀ i n k1 k2 j, t.nodes.get i = some n →
    n.children k1 = some j → n.children k2 = some j → k1 = k2

/-- The working invariant implies the spec's invariant bundle. -/
theorem WF_Inv {TUd : Type} {t : TrieStructure TUd} (hwf : WF t) : Inv t := by
  refine ⟨?_, hwf.parent_child, ?_, ?_, ?_, ?_⟩
  · constructor
    · intro h i
      exact hwf.no_root_empty h i
    · intro hemp
      cases hri : t.root_index with
      | none => rfl
      | some r =>
        obtain ⟨n, hn, -⟩ := hwf.root_node r hri
        rw [hemp r] at hn
        exact Option.noConfusion hn
  · intro r n hri hgr
    obtain ⟨n2, hn2, hp2⟩ := hwf.root_node r hri
    have hnn : n = n2 := by rw [hgr] at hn2; exact Option.some.inj hn2
    rw [hnn]
    exact hp2
  · intro i n hg hflag
    exact Or.inr (hwf.branch_two i n hg hflag)
  · intro i j fi fj h1 h2 hfe
    exact hwf.fullkey_inj i j fi fj
      (FullKey_of_aux t (t.nodes.entries.length + 1) i fi h1)
      (FullKey_of_aux t (t.nodes.entries.length + 1) j fj h2) hfe
  · intro i n k1 k2 j hg h1 h2
    obtain ⟨m1, hm1, hp1⟩ := hwf.child_parent i n k1 j hg h1
    obtain ⟨m2, hm2, hp2⟩ := hwf.child_parent i n k2 j hg h2
    have hm : m1 = m2 := by rw [hm1] at hm2; exact Option.some.inj hm2
    rw [hm, hp2] at hp1
    have h0 := Option.some.inj hp1
    simp only [Prod.mk.injEq] at h0
    exact h0.2.symm

/-- Claim C2: after every completed sequence of valid insert and remove
operations starting from the empty trie, the structure invariants hold:
`root_index` is `none` exactly when the arena is empty; the parent and child
links form a tree rooted at `root_index` (every node with a parent link is the
recorded child of that parent, and the root has no parent); every node without
the storage flag is the root or has at least two non-empty children; all full
keys are pairwise distinct; and no two children of one parent hang off the
same nibble. -/
theorem c2_invariants_hold {TUd : Type} (ops : List (Op TUd)) (t : TrieStructure TUd)
    (hrun : runOps TrieStructure.new ops = some t) : Inv t :=
  WF_Inv (runOps_WF ops TrieStructure.new t WF_new hrun)

theorem c2_witness :
    runOps (TrieStructure.new : TrieStructure Unit) [Op.ins [1, 2, 3] () ()] =
      some t123 ∧ Inv t123 :=
  ⟨rfl, c2_invariants_hold [Op.ins [1, 2, 3] () ()] t123 rfl⟩

/-- Claim C7: a key whose insertion was committed at some point of a completed
operation sequence and that no later operation removes is found by `node` as
`Occupied(Storage)`, and the full key of the found node equals the key. -/
theorem c7_inserted_key_found {TUd : Type} (pre post : List (Op TUd)) (op0 : Op TUd)
    (K : List Nibble) (t : TrieStructure TUd) (hins : insertsKey op0 K)
    (hnorem : ∀ op ∈ post, ¬ removesKey op K)
    (hrun : runOps TrieStructure.new (pre ++ op0 :: post) = some t) :
    ∃ i, t.node K = some (.Occupied (.Storage i)) ∧ node_full_key t i = some K := by
  obtain ⟨tm, hpre, hrest⟩ := runOps_append pre (op0 :: post) TrieStructure.new t hrun
  rw [runOps] at hrest
  cases hap : applyOp tm op0 with
  | none => rw [hap] at hrest; exact absurd hrest (by simp)
  | some t2 =>
    rw [hap] at hrest
    dsimp only at hrest
    have hwf1 : WF tm := runOps_WF pre TrieStructure.new tm WF_new hpre
    have hwf2 : WF t2 := WF_applyOp hwf1 hap
    have hk2 : HasStorageKey t2 K := applyOp_establishes hwf1 hap hins
    have hk : HasStorageKey t K := runOps_hasKey post t2 t K hwf2 hk2 hnorem hrest
    exact hasKey_node (runOps_WF post t2 t hwf2 hrest) hk

theorem c7_witness :
    insertsKey (Op.ins [1, 2, 3] () () : Op Unit) [1, 2, 3] ∧
    (∀ op ∈ ([] : List (Op Unit)), ¬ removesKey op [1, 2, 3]) ∧
    runOps (TrieStructure.new : TrieStructure Unit)
      ([] ++ Op.ins [1, 2, 3] () () :: []) = some t123 ∧
    (∃ i, t123.node [1, 2, 3] = some (.Occupied (.Storage i)) ∧
      node_full_key t123 i = some [1, 2, 3]) :=
  ⟨rfl, fun op hop => absurd hop (by simp), rfl,
    c7_inserted_key_found [] [] (Op.ins [1, 2, 3] () ()) [1, 2, 3] t123 rfl
      (fun op hop => absurd hop (by simp)) rfl⟩

end TrieVerify
